import Mathlib

/-!
Verification development for the STAR-table component (`star.py`): a shallow
embedding of the `RelionCols` schema registry and the `Star` table class,
together with proofs about the claims of the specification.

Modelling conventions:
* Python `str` cells are Lean `String`; Python `int` is `Int`; Python `float`
  is modelled exactly as `ℚ` (every Python float is a dyadic rational, hence a
  decimal rational, so this idealisation is faithful for the serialisation
  claims; floating-point rounding itself is out of scope).
* Python exceptions are modelled by `PyErr`; a mutating method is a
  function returning the post-call state together with an optional error
  (partial mutation before a raise is preserved, as in Python).
* Python dicts are association lists with unique keys kept in insertion
  order; `list(set(..))` is modelled as first-occurrence deduplication (the
  iteration order of a Python set is unspecified).
-/

/-! ### Character classes (by code point, matching Python) -/

def isWsC (c : Char) : Bool :=
  c.toNat = 32 || c.toNat = 9 || c.toNat = 10 || c.toNat = 13 ||
    c.toNat = 11 || c.toNat = 12

def isDigitC (c : Char) : Bool :=
  48 ≤ c.toNat && c.toNat ≤ 57

def digitValC (c : Char) : Nat := c.toNat - 48

/-- Value of a digit string, most significant first (as Python int parsing). -/
def digitsVal (l : List Char) : Nat :=
  l.foldl (fun a c => 10 * a + digitValC c) 0

/-- Fuel-driven worker for decimal digit printing (structural recursion so
concrete values reduce in the kernel; the fuel is always sufficient). -/
def natDigitsAux : Nat → Nat → List Char
  | 0, _ => []
  | fuel + 1, n =>
    if n < 10 then [Char.ofNat (48 + n)]
    else natDigitsAux fuel (n / 10) ++ [Char.ofNat (48 + n % 10)]

/-- Decimal digits of a natural number, as Python `str(n)` for `n ≥ 0`. -/
def natDigits (n : Nat) : List Char := natDigitsAux (n + 1) n

theorem natDigitsAux_congr : ∀ (f1 : Nat) (f2 n : Nat), n < f1 → n < f2 →
    natDigitsAux f1 n = natDigitsAux f2 n := by
  intro f1
  induction f1 with
  | zero =>
    intro f2 n h1 h2
    omega
  | succ g ih =>
    intro f2 n h1 h2
    match f2 with
    | 0 => omega
    | h + 1 =>
      by_cases hn : n < 10
      · simp [natDigitsAux, hn]
      · have hd : n / 10 < n := Nat.div_lt_self (by omega) (by omega)
        simp only [natDigitsAux, if_neg hn]
        rw [ih h (n / 10) (by omega) (by omega)]

/-- The defining recursion of `natDigits`. -/
theorem natDigits_eq (n : Nat) : natDigits n =
    if n < 10 then [Char.ofNat (48 + n)]
    else natDigits (n / 10) ++ [Char.ofNat (48 + n % 10)] := by
  by_cases hn : n < 10
  · simp [natDigits, natDigitsAux, hn]
  · have hd : n / 10 < n := Nat.div_lt_self (by omega) (by omega)
    have h1 : natDigits n = natDigitsAux n (n / 10) ++ [Char.ofNat (48 + n % 10)] := by
      simp [natDigits, natDigitsAux, hn]
    rw [h1, if_neg hn]
    rw [natDigitsAux_congr n (n / 10 + 1) (n / 10) (by omega) (by omega)]
    rfl

/-- Python `str` of an integer. -/
def intReprC (n : Int) : List Char :=
  if n < 0 then Char.ofNat 45 :: natDigits n.natAbs else natDigits n.natAbs

/-! ### Span / split / lines (Python `str.split()` and `readlines`) -/

def spanP (p : Char → Bool) : List Char → List Char × List Char
  | [] => ([], [])
  | c :: cs =>
    if p c then
      let r := spanP p cs
      (c :: r.1, r.2)
    else ([], c :: cs)

/-- Accumulator worker for whitespace splitting. -/
def splitAux : List Char → List Char → List (List Char)
  | [], acc => if acc.isEmpty then [] else [acc.reverse]
  | c :: cs, acc =>
    if isWsC c then
      if acc.isEmpty then splitAux cs [] else acc.reverse :: splitAux cs []
    else splitAux cs (c :: acc)

/-- Python `s.split()`: split on runs of whitespace, dropping empty pieces. -/
def splitWsC (l : List Char) : List (List Char) := splitAux l []

/-- Accumulator worker for line splitting. -/
def linesAux : List Char → List Char → List (List Char)
  | [], acc => if acc.isEmpty then [] else [acc.reverse]
  | c :: cs, acc =>
    if c.toNat = 10 then (acc.reverse ++ [c]) :: linesAux cs []
    else linesAux cs (c :: acc)

/-- Python `file.readlines()` of a string: lines keep their trailing newline. -/
def linesKeepC (l : List Char) : List (List Char) := linesAux l []

/-! ### Python numeric literal reading (`int(s)` and `float(s)`) -/

/-- Sign prefix: returns the sign and the remaining characters. -/
def takeSign : List Char → Int × List Char
  | [] => (1, [])
  | c :: cs =>
    if c.toNat = 45 then (-1, cs)
    else if c.toNat = 43 then (1, cs)
    else (1, c :: cs)

/-- Python 2 `int(s)` on a whitespace-free token: optional sign then digits. -/
def pyIntParseC (l : List Char) : Option Int :=
  let sr := takeSign l
  let dr := spanP isDigitC sr.2
  if dr.1.isEmpty || !dr.2.isEmpty then none
  else some (sr.1 * (digitsVal dr.1 : Int))

/-- The rational value `sgn * (base / 10 ^ k) * 10 ^ e`, built with `mkRat`
so that it evaluates by kernel reduction. -/
def ratOfParts (sgn : Int) (base : Nat) (k : Nat) (e : Int) : ℚ :=
  if 0 ≤ e then mkRat (sgn * ((base * 10 ^ e.toNat : Nat) : Int)) (10 ^ k)
  else mkRat (sgn * (base : Int)) (10 ^ k * 10 ^ (-e).toNat)

/-- Python `float(s)` on a whitespace-free token:
`[sign] (digits [. digits] | . digits) [(e|E) [sign] digits]`.
The special tokens `inf` and `nan` are not modelled. -/
def pyFloatParseC (l : List Char) : Option ℚ :=
  let sr := takeSign l
  let ir := spanP isDigitC sr.2
  let fr : List Char × List Char :=
    match ir.2 with
    | c :: cs => if c.toNat = 46 then spanP isDigitC cs else ([], ir.2)
    | [] => ([], [])
  let rest : List Char :=
    match ir.2 with
    | c :: cs => if c.toNat = 46 then fr.2 else ir.2
    | [] => []
  if ir.1.isEmpty && fr.1.isEmpty then none
  else
    let base : Nat := digitsVal ir.1 * 10 ^ fr.1.length + digitsVal fr.1
    match rest with
    | [] => some (ratOfParts sr.1 base fr.1.length 0)
    | e :: es =>
      if e.toNat = 101 || e.toNat = 69 then
        let sr2 := takeSign es
        let dr2 := spanP isDigitC sr2.2
        if dr2.1.isEmpty || !dr2.2.isEmpty then none
        else some (ratOfParts sr.1 base fr.1.length (sr2.1 * (digitsVal dr2.1 : Int)))
      else none

/-- Truncation toward zero, as Python `int(float)`. -/
def ratTrunc (q : ℚ) : Int := q.num.tdiv (q.den : Int)

/-- Least exponent `k` with `d ∣ 10 ^ k`, when one exists (i.e. `d = 2^a·5^b`). -/
def decExp (d : Nat) : Option Nat :=
  (List.range (d + 1)).find? (fun k => 10 ^ k % d = 0)

/-- Exact decimal printing of a rational with decimal denominator, in the
shape Python `str(float)` uses for plain decimals (`sign digits . digits`;
an unrepresentable denominator prints a non-numeric placeholder, which is
unreachable for values that arise from Python floats). -/
def floatReprC (q : ℚ) : List Char :=
  match decExp q.den with
  | none => [Char.ofNat 63]
  | some k =>
    let m : Nat := q.num.natAbs * 10 ^ k / q.den
    let ds := natDigits m
    let ds2 := List.replicate (k + 1 - ds.length) (Char.ofNat 48) ++ ds
    let ip := ds2.take (ds2.length - k)
    let fp := if k = 0 then [Char.ofNat 48] else ds2.drop (ds2.length - k)
    (if q.num < 0 then [Char.ofNat 45] else []) ++ ip ++ Char.ofNat 46 :: fp

/-! ### Values, column types and errors -/

/-- A Python runtime cell value (text, integer or real). -/
inductive Val : Type
  | vStr (s : String)
  | vInt (n : Int)
  | vFloat (q : ℚ)
deriving DecidableEq

/-- A Python argument to `add_column`: a scalar, a string (which has `__len__`
and iterates over one-character strings) or a sequence. -/
inductive AVal : Type
  | aStr (s : String)
  | aInt (n : Int)
  | aFloat (q : ℚ)
  | aList (l : List Val)
deriving DecidableEq

/-- The three column types of the schema registry. -/
inductive PyType : Type
  | pyStr
  | pyInt
  | pyFloat
deriving DecidableEq

/-- Python exceptions raised by the modelled code. `fuelOut` is a model
artefact for while-loops, proven unreachable where used. -/
inductive PyErr : Type
  | pySegInputError (expr : String)
  | keyError
  | valueError
  | typeError
  | indexError
  | fuelOut
deriving DecidableEq

deriving instance DecidableEq for Except

/-- Python `str(v)`. -/
def pyStrOfVal : Val → String
  | .vStr s => s
  | .vInt n => ⟨intReprC n⟩
  | .vFloat q => ⟨floatReprC q⟩

/-- Calling a column type on a value, as `dtype(v)` in Python. -/
def pyCast (t : PyType) (v : Val) : Except PyErr Val :=
  match t, v with
  | .pyStr, v => .ok (.vStr (pyStrOfVal v))
  | .pyInt, .vInt n => .ok (.vInt n)
  | .pyInt, .vFloat q => .ok (.vInt (ratTrunc q))
  | .pyInt, .vStr s =>
    match pyIntParseC s.data with
    | some n => .ok (.vInt n)
    | none => .error .valueError
  | .pyFloat, .vInt n => .ok (.vFloat (n : ℚ))
  | .pyFloat, .vFloat q => .ok (.vFloat q)
  | .pyFloat, .vStr s =>
    match pyFloatParseC s.data with
    | some q => .ok (.vFloat q)
    | none => .error .valueError

/-! ### Dict and list helpers (Python semantics) -/

def dictGet {α : Type} (d : List (String × α)) (k : String) : Option α :=
  (d.find? (fun p => p.1 = k)).map Prod.snd

def dictSet {α : Type} : List (String × α) → String → α → List (String × α)
  | [], k, v => [(k, v)]
  | p :: ps, k, v => if p.1 = k then (k, v) :: ps else p :: dictSet ps k v

def dictDel {α : Type} : List (String × α) → String → List (String × α)
  | [], _ => []
  | p :: ps, k => if p.1 = k then ps else p :: dictDel ps k

/-- Append one value to the entry of key `k` (used for `data[k].append(v)`). -/
def dictAppend (d : List (String × List Val)) (k : String) (v : Val) :
    List (String × List Val) :=
  d.map (fun p => if p.1 = k then (p.1, p.2 ++ [v]) else p)

/-- Python `list.index(v)` as an option (`none` models the ValueError). -/
def listIndex {α : Type} [DecidableEq α] : List α → α → Option Nat
  | [], _ => none
  | x :: xs, v => if x = v then some 0 else (listIndex xs v).map (· + 1)

/-- Effectful map over a list in the `Except` monad (structural equations). -/
def mapME {e a b : Type} (f : a → Except e b) : List a → Except e (List b)
  | [] => .ok []
  | x :: xs =>
    match f x with
    | .error err => .error err
    | .ok y =>
      match mapME f xs with
      | .error err => .error err
      | .ok ys => .ok (y :: ys)

/-- First-occurrence deduplication, modelling `list(set(..))` (set iteration
order is unspecified in Python; a fixed order is chosen). -/
def dedupFirstAux : List Int → List Int → List Int
  | [], _ => []
  | x :: xs, seen =>
    if x ∈ seen then dedupFirstAux xs seen else x :: dedupFirstAux xs (x :: seen)

def dedupFirst (l : List Int) : List Int := dedupFirstAux l []

/-- Python list read `l[i]` with an `int` index: negative indices wrap,
out-of-range raises IndexError.  Also models numpy 1-d array reads. -/
def pyGet {α : Type} (l : List α) (i : Int) : Except PyErr α :=
  if h : 0 ≤ i ∧ i < (l.length : Int) then
    .ok (l.get ⟨i.toNat, by omega⟩)
  else if h2 : -(l.length : Int) ≤ i ∧ i < 0 then
    .ok (l.get ⟨(i + l.length).toNat, by omega⟩)
  else .error .indexError

/-- Python list / numpy 1-d write `l[i] = v`, same index rules as `pyGet`. -/
def pySet {α : Type} (l : List α) (i : Int) (v : α) : Except PyErr (List α) :=
  if 0 ≤ i ∧ i < (l.length : Int) then
    .ok (l.set i.toNat v)
  else if -(l.length : Int) ≤ i ∧ i < 0 then
    .ok (l.set (i + l.length).toNat v)
  else .error .indexError

/-- numpy boolean-LUT write with the try/except-pass of `del_rows`:
out-of-range indices are ignored instead of raising. -/
def npSetLut (lut : List Bool) (idx : Int) : List Bool :=
  match pySet lut idx true with
  | .ok l2 => l2
  | .error _ => lut

/-! ### The schema registry (`RelionCols`) -/

/-- The fixed ordered catalogue of recognised column names with their types,
transcribed from the `RelionCols` constructor. -/
def relionColsList : List (String × PyType) :=
  [("_rlnMicrographName", .pyStr),
   ("_rlnCoordinateX", .pyFloat),
   ("_rlnCoordinateY", .pyFloat),
   ("_rlnCoordinateZ", .pyFloat),
   ("_rlnImageName", .pyStr),
   ("_rlnCtfImage", .pyStr),
   ("_rlnGroupNumber", .pyInt),
   ("_rlnAngleRotPrior", .pyFloat),
   ("_rlnAngleTiltPrior", .pyFloat),
   ("_rlnAnglePsiPrior", .pyFloat),
   ("_rlnAngleRot", .pyFloat),
   ("_rlnAngleTilt", .pyFloat),
   ("_rlnAnglePsi", .pyFloat),
   ("_rlnOriginX", .pyFloat),
   ("_rlnOriginY", .pyFloat),
   ("_rlnClassNumber", .pyInt),
   ("_rlnNormCorrection", .pyFloat),
   ("_rlnOriginZ", .pyFloat),
   ("_rlnLogLikeliContribution", .pyFloat),
   ("_rlnMaxValueProbDistribution", .pyFloat),
   ("_rlnNrOfSignificantSamples", .pyInt),
   ("_rlnRandomSubset", .pyInt),
   ("_psGhMCFPickle", .pyStr),
   ("_psSegImage", .pyStr),
   ("_psSegLabel", .pyInt),
   ("_psSegScale", .pyFloat),
   ("_psSegRot", .pyFloat),
   ("_psSegTilt", .pyFloat),
   ("_psSegPsi", .pyFloat),
   ("_psSegOffX", .pyFloat),
   ("_psSegOffY", .pyFloat),
   ("_psSegOffZ", .pyFloat),
   ("_psAPClass", .pyInt),
   ("_psAPCenter", .pyInt)]

/-- `RelionCols.is_valid`. -/
def rc_is_valid (k : String) : Bool :=
  relionColsList.any (fun p => p.1 = k)

/-- `RelionCols.get_dtype`: the bound type, `None` for an unknown name. -/
def rc_get_dtype (k : String) : Option PyType :=
  (relionColsList.find? (fun p => p.1 = k)).map Prod.snd

/-! ### The `Star` table -/

namespace PySeg

/-- The state of a `Star` object: preamble lines, the column-keyed data dict,
the dtype list, the row count and the ordered column keys.  The informational
`root_dir` / `fname` fields are not modelled. -/
structure Star : Type where
  header_1 : List String
  data : List (String × List Val)
  dtypes : List PyType
  rows : Nat
  cols : List String
deriving DecidableEq

/-- A freshly constructed `Star()`. -/
def Star.init : Star :=
  { header_1 := ["\n", "data_\n", "\n", "loop_\n"]
    data := []
    dtypes := []
    rows := 0
    cols := [] }

def Star.get_ncols (s : Star) : Nat := s.cols.length

def Star.get_nrows (s : Star) : Nat := s.rows

def Star.is_column (s : Star) (k : String) : Bool := s.cols.contains k

def Star.has_column (s : Star) (k : String) : Bool := s.cols.contains k

/-- `get_column_data`: the column list if the key exists, else `None`.
(Under the well-formedness invariant the dict lookup never misses for an
existing column; the `getD` default is unreachable then.) -/
def Star.get_column_data (s : Star) (k : String) : Option (List Val) :=
  if s.is_column k then some ((dictGet s.data k).getD []) else none

/-- `get_column_type`: dtype at the position of `k` in `cols`, `None` if absent. -/
def Star.get_column_type (s : Star) (k : String) : Option PyType :=
  (listIndex s.cols k).map (fun i => s.dtypes.getD i .pyFloat)

/-- `get_element`: `self.__data[key][row]`; KeyError on a missing key,
IndexError on an out-of-range row (all call sites use non-negative rows). -/
def Star.get_element (s : Star) (k : String) (row : Nat) : Except PyErr Val :=
  match dictGet s.data k with
  | none => .error .keyError
  | some l =>
    match l.get? row with
    | some v => .ok v
    | none => .error .indexError

/-- `find_element`: `self.__data[key].index(val)`; KeyError on a missing key,
ValueError when no row matches. -/
def Star.find_element (s : Star) (k : String) (v : Val) : Except PyErr Nat :=
  match dictGet s.data k with
  | none => .error .keyError
  | some l =>
    match listIndex l v with
    | some i => .ok i
    | none => .error .valueError

/-- `set_column_data`: overwrite a column in one call; silently does nothing
if the key is absent or the length does not match the row count. -/
def Star.set_column_data (s : Star) (k : String) (dat : List Val) : Star :=
  if s.is_column k && decide (dat.length = s.get_nrows) then
    { s with data := dictSet s.data k dat }
  else s

/-- Build the list of cast values for `add_column` (the local `row` list).
A scalar is cast once per row, so a failing cast raises only when there is at
least one row; a string is iterated character by character; a sequence must
have exactly `rows` elements. -/
def addColumnVals (s : Star) (dtype : PyType) : AVal → Except PyErr (List Val)
  | .aList l =>
    if l.length ≠ s.rows then .error (.pySegInputError "add_column (Star)")
    else mapME (pyCast dtype) l
  | .aStr str2 =>
    if str2.length ≠ s.rows then .error (.pySegInputError "add_column (Star)")
    else mapME (pyCast dtype) (str2.data.map (fun c => Val.vStr ⟨[c]⟩))
  | .aInt n =>
    if s.rows = 0 then .ok []
    else (pyCast dtype (.vInt n)).map (List.replicate s.rows)
  | .aFloat q =>
    if s.rows = 0 then .ok []
    else (pyCast dtype (.vFloat q)).map (List.replicate s.rows)

/-- `add_column(key, val, no_parse)`.  Validation first (SchemaError when the
name is rejected), then the value list is built (any failure leaves the table
unchanged), then the data dict is written and the key either appended to
`cols`/`dtypes` or overwritten in place. -/
def Star.add_column (s : Star) (key : String) (val : AVal) (no_parse : Bool) :
    Star × Option PyErr :=
  if no_parse || rc_is_valid key then
    match addColumnVals s ((rc_get_dtype key).getD .pyFloat) val with
    | .error e => (s, some e)
    | .ok row =>
      match listIndex s.cols key with
      | none =>
        ({ s with data := dictSet s.data key row, cols := s.cols ++ [key], dtypes := s.dtypes ++ [(rc_get_dtype key).getD .pyFloat] }, none)
      | some idx =>
        ({ s with data := dictSet s.data key row, cols := s.cols.set idx key, dtypes := s.dtypes.set idx ((rc_get_dtype key).getD .pyFloat) }, none)
  else (s, some (.pySegInputError "add_column (Star)"))

/-- The per-key loop of `add_row`: appends each cast value to its column as it
goes, so a failure part-way leaves the earlier appends in place (as the Python
loop does); `rows` is only incremented after the whole loop. -/
def Star.addRowLoop : Star → List (String × Val) → Star × Option PyErr
  | s, [] => ({ s with rows := s.rows + 1 }, none)
  | s, (k, v) :: rest =>
    if s.is_column k then
      match s.get_column_type k with
      | none => (s, some .keyError)
      | some dtype =>
        match pyCast dtype v with
        | .error e => (s, some e)
        | .ok tv => Star.addRowLoop { s with data := dictAppend s.data k tv } rest
    else (s, some (.pySegInputError "add_row (Star)"))

/-- `add_row(**kwargs)`: the keyword arguments are modelled as an ordered list
of distinct keys with values; the count check happens before any mutation.
(The `get_column_type` miss inside the loop is unreachable when the key is a
column; Python would not raise there.) -/
def Star.add_row (s : Star) (kwargs : List (String × Val)) : Star × Option PyErr :=
  if kwargs.length ≠ s.get_ncols then
    (s, some (.pySegInputError "add_row (Star)"))
  else Star.addRowLoop s kwargs

/-- `del_column(key)`: no-op when absent. -/
def Star.del_column (s : Star) (key : String) : Star :=
  if s.is_column key then
    match listIndex s.cols key with
    | some idx =>
      { s with cols := s.cols.eraseIdx idx
               dtypes := s.dtypes.eraseIdx idx
               data := dictDel s.data key }
    | none => s
  else s

/-- The row-compaction of `del_rows`: keep the values at positions where the
LUT is false (the Python loop runs over `range(hold_rows)` = the LUT length,
and `zip` mirrors that bound). -/
def keepRows (lut : List Bool) (l : List Val) : List Val :=
  (l.zip lut).filterMap (fun p => if p.2 then none else some p.1)

/-- `del_rows(ids)`: an empty list is a no-op; otherwise a boolean LUT of the
current length is marked (wrap-around for negative indices, out-of-range
ignored) and every column is compacted consistently; the new row count is the
number of unmarked positions. -/
def Star.del_rows (s : Star) (ids : List Int) : Star :=
  if ids.length = 0 then s
  else
    let lut := ids.foldl npSetLut (List.replicate s.rows false)
    { s with rows := lut.count false
             data := s.data.map (fun p => (p.1, keepRows lut p.2)) }


/-! ### Text codec (`to_string` / `load`) -/

/-- Join tokens with a single separator character (the `keys[:-1]` + last
pattern of `to_string` is exactly tab-intercalation for a nonempty key list). -/
def intercalateC (sep : Char) : List (List Char) → List Char
  | [] => []
  | [t] => t
  | t :: ts => t ++ sep :: intercalateC sep ts

/-- The column-declaration lines `key #k` (1-based positions). -/
def headerLinesChars (cols : List String) : List Char :=
  (cols.enum.map (fun p =>
    p.2.data ++ [Char.ofNat 32, Char.ofNat 35] ++ natDigits (p.1 + 1) ++ [Char.ofNat 10])).flatten

/-- Cell value at column `k`, row `i` (total with defaults; under
well-formedness the lookups never miss). -/
def cellAt (s : Star) (k : String) (i : Nat) : Val :=
  ((dictGet s.data k).getD []).getD i (.vStr "")

/-- One serialized data row: tab-separated `str(..)` of each cell, newline. -/
def rowChars (s : Star) (i : Nat) : List Char :=
  intercalateC (Char.ofNat 9) (s.cols.map (fun k => (pyStrOfVal (cellAt s k i)).data))
    ++ [Char.ofNat 10]

/-- `to_string` as a character list: preamble, header lines, data rows (only
when there is at least one column), and a final extra newline. -/
def toStringChars (s : Star) : List Char :=
  (s.header_1.map String.data).flatten
    ++ headerLinesChars s.cols
    ++ (if s.get_ncols > 0 then ((List.range s.rows).map (rowChars s)).flatten else [])
    ++ [Char.ofNat 10]

/-- `Star.to_string`. -/
def Star.to_string (s : Star) : String := ⟨toStringChars s⟩

/-- Whether a line starts with the header sentinel character `_`. -/
def headUnderscore (l : List Char) : Bool := (l.headD (Char.ofNat 32)).toNat = 95

/-- The column-declaration loop of `load`: each line yields its first token,
which must be registry-valid and not yet a column, else the parse fails. -/
def loadHeader2 :
    List (List Char) → List String × List PyType × List (String × List Val) →
      Except PyErr (List String × List PyType × List (String × List Val))
  | [], st => .ok st
  | l :: ls, (cols, dts, dat) =>
    let col : String := ⟨(splitWsC l).headD []⟩
    if rc_is_valid col && !(cols.contains col) then
      loadHeader2 ls
        (cols ++ [col], dts ++ [(rc_get_dtype col).getD .pyFloat], dat ++ [(col, [])])
    else .error (.pySegInputError "load (Star)")

/-- The per-token cast of `load`: try `dtype(d)`; on a ValueError with an
integer dtype fall back to `int(float(d))` (whose own parse failure is the
uncaught ValueError); any other dtype re-raises. -/
def castTok (t : PyType) (d : String) : Except PyErr Val :=
  match pyCast t (.vStr d) with
  | .ok v => .ok v
  | .error _ =>
    if t = .pyInt then
      match pyFloatParseC d.data with
      | some q => .ok (.vInt (ratTrunc q))
      | none => .error .valueError
    else .error .valueError

/-- The inner `zip(datas, dtypes, cols)` loop of a data row: casts and appends
cell by cell, stopping at the first failing cast. -/
def loadRowCells :
    List (List Char × PyType × String) → List (String × List Val) →
      List (String × List Val) × Option PyErr
  | [], dat => (dat, none)
  | (d, t, c) :: rest, dat =>
    match castTok t ⟨d⟩ with
    | .error e => (dat, some e)
    | .ok v => loadRowCells rest (dictAppend dat c v)

/-- The data-row loop of `load`: stops (without error) at the first line whose
token count differs from the column count. -/
def loadRowsF (cols : List String) (dts : List PyType) :
    List (List Char) → List (String × List Val) → Nat →
      List (String × List Val) × Nat × Option PyErr
  | [], dat, r => (dat, r, none)
  | l :: ls, dat, r =>
    let datas := splitWsC l
    if cols.length ≠ datas.length then (dat, r, none)
    else
      match loadRowCells (datas.zip (dts.zip cols)) dat with
      | (dat2, some e) => (dat2, r, some e)
      | (dat2, none) => loadRowsF cols dts ls dat2 (r + 1)

/-- `load` of the given file content into a freshly constructed `Star()`
(the file read itself is outside the model; the result pairs the new state
with the optional raised error). -/
def Star.load (content : String) : Star × Option PyErr :=
  let lines := linesKeepC content.data
  let pr1 := lines.span (fun l => !headUnderscore l)
  let pr2 := pr1.2.span headUnderscore
  let h1 : List String := pr1.1.map (fun c => ⟨c⟩)
  match loadHeader2 pr2.1 ([], [], []) with
  | .error e => ({ Star.init with header_1 := h1 }, some e)
  | .ok (cols, dts, dat0) =>
    match loadRowsF cols dts pr2.2 dat0 0 with
    | (dat, r, err) =>
      ({ header_1 := h1, data := dat, dtypes := dts, rows := r, cols := cols }, err)

/-! ### `particle_group` -/

/-- Raw integer of a group / class cell (those columns hold `vInt` values in
any well-formed table; other cases are unreachable there). -/
def valToInt : Val → Int
  | .vInt n => n
  | .vFloat q => ratTrunc q
  | .vStr _ => 0

/-- The occupancy-counting loop: for each row, bump the slot of its group id
(the inner `curr_gp.index(gp)` never misses since `curr` lists every value). -/
def countsFor (curr : List Int) (colv : List Int) : List Nat :=
  colv.foldl
    (fun np g =>
      match listIndex curr g with
      | some i => np.set i (np.getD i 0 + 1)
      | none => np)
    (List.replicate curr.length 0)

/-- Python list read by a non-negative index (IndexError when out of range). -/
def listGetE {α : Type} (l : List α) (i : Nat) : Except PyErr α :=
  match l.get? i with
  | some x => .ok x
  | none => .error .indexError

/-- Python `list.pop(i)` restricted to the non-negative indices used here. -/
def listPopE {α : Type} (l : List α) (i : Nat) : Except PyErr (List α) :=
  if i < l.length then .ok (l.eraseIdx i) else .error .indexError

/-- `np.argsort` on the occupancy list: the indices sorted by ascending value.
(numpy does not promise a stable order among ties; a fixed stable sort is
chosen, and no proved property depends on the tie order.) -/
def argsortNat (l : List Nat) : List Nat :=
  List.insertionSort (fun i j => l.getD i 0 ≤ l.getD j 0) (List.range l.length)

/-- The gathering while-loop of `particle_group`, one recursive step per
iteration.  `fuel` is a model artefact bounding the iteration count; each
continuing iteration pops one group, so `curr.length + 1` fuel is always
enough (proved where used). -/
def gatherLoop (fuel : Nat) (min_gp : Int) (curr : List Int) (nparts : List Nat)
    (lut : List Int) : Except PyErr (List Int × List Nat × List Int) :=
  match fuel with
  | 0 => .error .fuelOut
  | fuel2 + 1 =>
    if (dedupFirst curr).length > 1 then
      match listGetE (argsortNat nparts) 0 with
      | .error e => .error e
      | .ok m0 =>
        match listGetE nparts m0 with
        | .error e => .error e
        | .ok c0 =>
          if decide (min_gp < (c0 : Int)) || (argsortNat nparts).length ≤ 1 then
            .ok (curr, nparts, lut)
          else do
            let m1 ← listGetE (argsortNat nparts) 1
            let a ← listGetE curr m0
            let b ← listGetE curr m1
            let lut2 := lut.map (fun x => if x = a then b else x)
            let lut3 ← pySet lut2 a b
            let cm1 ← listGetE nparts m1
            let curr2 ← listPopE curr m0
            let np3 ← listPopE (nparts.set m1 (cm1 + c0)) m0
            gatherLoop fuel2 min_gp curr2 np3 lut3
    else .ok (curr, nparts, lut)

/-- `particle_group(min_gp)`.  When the group column is absent the
initialisation raises a TypeError (`set(None)`), which the `except
ValueError` handler does not catch, so the documented micrograph fallback is
unreachable.  With the column present: deduplicate to the current ids, count
occupancies, build the relabelling LUT `arange(0, max+1)` (an empty column
makes `np.max` raise ValueError), run the gathering loop, then rewrite the
column through the LUT (numpy indexing: negative ids wrap, out-of-range ids
raise IndexError). -/
def Star.particle_group (s : Star) (min_gp : Int) : Star × Option PyErr :=
  match s.get_column_data "_rlnGroupNumber" with
  | none => (s, some .typeError)
  | some colvV =>
    let colv := colvV.map valToInt
    match colv with
    | [] => (s, some .valueError)
    | g0 :: grest =>
      let curr0 := dedupFirst colv
      let nparts0 := countsFor curr0 colv
      let mx := grest.foldl max g0
      let lut0 : List Int := (List.range (mx + 1).toNat).map (fun i => (i : Int))
      match gatherLoop (curr0.length + 1) min_gp curr0 nparts0 lut0 with
      | .error e => (s, some e)
      | .ok (_, _, lut) =>
        match mapME (pyGet lut) colv with
        | .error e => (s, some e)
        | .ok newgp => (s.set_column_data "_rlnGroupNumber" (newgp.map Val.vInt), none)

/-! ### `compute_malign` -/

/-- Numeric value of a cell (numeric columns hold `vInt`/`vFloat` in any
well-formed table; the text case is unreachable there). -/
def valToRat : Val → ℚ
  | .vFloat q => q
  | .vInt n => (n : ℚ)
  | .vStr _ => 0

/-- The three coordinates of a row. -/
def getCoords (s : Star) (i : Nat) : Except PyErr (ℚ × ℚ × ℚ) := do
  let x ← s.get_element "_rlnCoordinateX" i
  let y ← s.get_element "_rlnCoordinateY" i
  let z ← s.get_element "_rlnCoordinateZ" i
  pure (valToRat x, valToRat y, valToRat z)

/-- The origin shift of a row, defaulting to zero when an origin column is
absent (the `except KeyError` in `compute_malign`); a row IndexError is not
caught there and propagates. -/
def getOrigins (s : Star) (i : Nat) : Except PyErr (ℚ × ℚ × ℚ) :=
  match (do
    let x ← s.get_element "_rlnOriginX" i
    let y ← s.get_element "_rlnOriginY" i
    let z ← s.get_element "_rlnOriginZ" i
    pure (valToRat x, valToRat y, valToRat z) : Except PyErr (ℚ × ℚ × ℚ)) with
  | .ok v => .ok v
  | .error .keyError => .ok (0, 0, 0)
  | .error e => .error e

/-- The per-particle loop of `compute_malign`.  The external collaborators
are abstracted as parameters: `angFn` models the composition of
`rot_mat_relion` on the two angle triples with `angle_2vec_3D` against the
reference vector (in degrees), and `sqrtFn` models `math.sqrt` applied to the
squared coordinate distance.  A `find_element` ValueError (lookup miss) is
caught and skips the row, leaving its sentinel entries; any other error
propagates. -/
def computeMalignRows (s ref : Star) (refVect : ℚ × ℚ × ℚ)
    (angFn : ℚ × ℚ × ℚ → ℚ × ℚ × ℚ → ℚ × ℚ × ℚ → ℚ) (sqrtFn : ℚ → ℚ) :
    List Nat → List ℚ × List ℚ → Except PyErr (List ℚ × List ℚ)
  | [], st => .ok st
  | i :: is2, (angs, shifts) => do
    let p_name ← s.get_element "_rlnImageName" i
    match ref.find_element "_rlnImageName" p_name with
    | .error .valueError => computeMalignRows s ref refVect angFn sqrtFn is2 (angs, shifts)
    | .error e => .error e
    | .ok j => do
      let rot ← s.get_element "_rlnAngleRot" i
      let psi ← s.get_element "_rlnAnglePsi" i
      let tilt ← s.get_element "_rlnAngleTilt" i
      let r_rot ← ref.get_element "_rlnAngleRot" j
      let r_psi ← ref.get_element "_rlnAnglePsi" j
      let r_tilt ← ref.get_element "_rlnAngleTilt" j
      let ang := angFn (valToRat rot, valToRat tilt, valToRat psi)
        (valToRat r_rot, valToRat r_tilt, valToRat r_psi) refVect
      let angs2 := angs.set i ang
      let c ← getCoords s i
      let o ← getOrigins s i
      let cr ← getCoords ref j
      let orr ← getOrigins ref j
      let dx := (c.1 - o.1) - (cr.1 - orr.1)
      let dy := (c.2.1 - o.2.1) - (cr.2.1 - orr.2.1)
      let dz := (c.2.2 - o.2.2) - (cr.2.2 - orr.2.2)
      let shifts2 := shifts.set i (sqrtFn (dx * dx + dy * dy + dz * dz))
      computeMalignRows s ref refVect angFn sqrtFn is2 (angs2, shifts2)

/-- `compute_malign(ref_star, ref_vect)`: both outputs start as `-1` sentinel
sequences of the row count and are updated in place per matched row. -/
def Star.compute_malign (s ref : Star) (refVect : ℚ × ℚ × ℚ)
    (angFn : ℚ × ℚ × ℚ → ℚ × ℚ × ℚ → ℚ × ℚ × ℚ → ℚ) (sqrtFn : ℚ → ℚ) :
    Except PyErr (List ℚ × List ℚ) :=
  computeMalignRows s ref refVect angFn sqrtFn (List.range s.get_nrows)
    (List.replicate s.get_nrows (-1), List.replicate s.get_nrows (-1))

/-! ### `split_class` -/

/-- The column-recreation loop of `split_class` / `get_subset`: add each key
to a fresh table with the default scalar value. -/
def addColsE : Star → List String → Except PyErr Star
  | st, [] => .ok st
  | st, k :: ks =>
    match st.add_column k (.aInt (-1)) false with
    | (st2, none) => addColsE st2 ks
    | (_, some e) => .error e

/-- Build the kwargs dict for one copied row (a `get_element` KeyError
propagates, as in Python). -/
def buildKwargs (s : Star) (keys : List String) (row : Nat) :
    Except PyErr (List (String × Val)) :=
  mapME (fun k => (s.get_element k row).map (fun v => (k, v))) keys

/-- The row-copying loop of `split_class`. -/
def addRowsE (s : Star) : Star → List String → List Nat → Except PyErr Star
  | st, _, [] => .ok st
  | st, keys, r :: rs => do
    let kwargs ← buildKwargs s keys r
    match st.add_row kwargs with
    | (st2, none) => addRowsE s st2 keys rs
    | (_, some e) => .error e

/-- One fresh table per class id, in id order: recreate the columns, then copy
the rows `np.where(classes == class_id)[0]` (ascending row positions). -/
def splitClassGroups (s : Star) (classes : List Int) (keys : List String) :
    List Int → Except PyErr (List Star)
  | [] => .ok []
  | cid :: rest => do
    let st0 ← addColsE Star.init keys
    let rowsIdx := (List.range classes.length).filter (fun r => classes.getD r 0 = cid)
    let st1 ← addRowsE s st0 keys rowsIdx
    let more ← splitClassGroups s classes keys rest
    .ok (st1 :: more)

/-- `split_class`: MissingColumnError (a `PySegInputError`) when the class-id
column is absent, else one table per distinct class id. -/
def Star.split_class (s : Star) : Except PyErr (List Star) :=
  if !(s.has_column "_rlnClassNumber") then .error (.pySegInputError "split_class (Star)")
  else
    let classes := ((s.get_column_data "_rlnClassNumber").getD []).map valToInt
    splitClassGroups s classes s.cols (dedupFirst classes)


/-! ### Basic lemmas: list index, dicts, monadic maps -/

theorem dictGet_nil {α : Type} (k : String) : dictGet ([] : List (String × α)) k = none := rfl

theorem dictGet_cons {α : Type} (p : String × α) (ps : List (String × α)) (k : String) :
    dictGet (p :: ps) k = if p.1 = k then some p.2 else dictGet ps k := by
  by_cases h : p.1 = k <;> simp [dictGet, h]

theorem listIndex_eq_none_iff {α : Type} [DecidableEq α] (l : List α) (v : α) :
    listIndex l v = none ↔ v ∉ l := by
  induction l with
  | nil => simp [listIndex]
  | cons x xs ih =>
    by_cases hx : x = v
    · simp [listIndex, hx]
    · simp [listIndex, hx, ih, Ne.symm hx]

theorem listIndex_lt_length {α : Type} [DecidableEq α] {l : List α} {v : α} {i : Nat}
    (h : listIndex l v = some i) : i < l.length := by
  induction l generalizing i with
  | nil => simp [listIndex] at h
  | cons x xs ih =>
    simp only [List.length_cons]
    by_cases hx : x = v
    · simp [listIndex, hx] at h
      omega
    · simp [listIndex, hx] at h
      obtain ⟨j, hj, rfl⟩ := h
      have := ih hj
      omega

theorem listIndex_getD {α : Type} [DecidableEq α] {l : List α} {v d : α} {i : Nat}
    (h : listIndex l v = some i) : l.getD i d = v := by
  induction l generalizing i with
  | nil => simp [listIndex] at h
  | cons x xs ih =>
    by_cases hx : x = v
    · simp [listIndex, hx] at h
      subst h
      simpa using hx
    · simp [listIndex, hx] at h
      obtain ⟨j, hj, rfl⟩ := h
      simpa using ih hj

theorem listIndex_set_self {α : Type} [DecidableEq α] {l : List α} {v : α} {i : Nat}
    (h : listIndex l v = some i) : l.set i v = l := by
  induction l generalizing i with
  | nil => simp [listIndex] at h
  | cons x xs ih =>
    by_cases hx : x = v
    · simp [listIndex, hx] at h
      subst h
      simp [List.set, hx]
    · simp [listIndex, hx] at h
      obtain ⟨j, hj, rfl⟩ := h
      simp [List.set, ih hj]

theorem listIndex_isSome_of_mem {α : Type} [DecidableEq α] {l : List α} {v : α}
    (h : v ∈ l) : (listIndex l v).isSome := by
  rcases he : listIndex l v with _ | i
  · exact absurd h ((listIndex_eq_none_iff l v).mp he)
  · rfl

theorem dictGet_dictSet_self {α : Type} (d : List (String × α)) (k : String) (v : α) :
    dictGet (dictSet d k v) k = some v := by
  induction d with
  | nil => simp [dictGet, dictSet]
  | cons p ps ih =>
    by_cases hp : p.1 = k
    · simp [dictSet, hp, dictGet_cons]
    · simp [dictSet, hp, dictGet_cons, ih]

theorem dictGet_dictSet_ne {α : Type} (d : List (String × α)) (k k2 : String) (v : α)
    (h : k2 ≠ k) : dictGet (dictSet d k v) k2 = dictGet d k2 := by
  induction d with
  | nil => simp [dictGet, dictSet, Ne.symm h]
  | cons p ps ih =>
    by_cases hp : p.1 = k
    · have e1 : ¬ k = k2 := fun hc => h hc.symm
      have e2 : ¬ p.1 = k2 := fun hc => h (hp.symm.trans hc).symm
      rw [dictSet, if_pos hp, dictGet_cons, dictGet_cons, if_neg e1, if_neg e2]
    · rw [dictSet, if_neg hp, dictGet_cons, dictGet_cons, ih]

theorem dictSet_map_fst_of_mem {α : Type} (d : List (String × α)) (k : String) (v : α)
    (h : k ∈ d.map Prod.fst) : (dictSet d k v).map Prod.fst = d.map Prod.fst := by
  induction d with
  | nil => simp at h
  | cons p ps ih =>
    by_cases hp : p.1 = k
    · simp [dictSet, hp]
    · have h2 : k ∈ p.1 :: ps.map Prod.fst := by simpa using h
      have hk : k ∈ ps.map Prod.fst := by
        rcases List.mem_cons.mp h2 with h1 | h1
        · exact absurd h1.symm hp
        · exact h1
      simp [dictSet, hp, ih hk]

theorem dictSet_of_notMem {α : Type} (d : List (String × α)) (k : String) (v : α)
    (h : k ∉ d.map Prod.fst) : dictSet d k v = d ++ [(k, v)] := by
  induction d with
  | nil => simp [dictSet]
  | cons p ps ih =>
    have h1 : ¬ p.1 = k := fun hc => h (by simp [hc])
    have h2 : k ∉ ps.map Prod.fst := fun hc => h (by simp [hc])
    simp [dictSet, h1, ih h2]

theorem dictGet_of_notMem {α : Type} (d : List (String × α)) (k : String)
    (h : k ∉ d.map Prod.fst) : dictGet d k = none := by
  induction d with
  | nil => simp [dictGet]
  | cons p ps ih =>
    have h1 : ¬ p.1 = k := fun hc => h (by simp [hc])
    have h2 : k ∉ ps.map Prod.fst := fun hc => h (by simp [hc])
    rw [dictGet_cons, if_neg h1, ih h2]

theorem dictGet_isSome_of_mem {α : Type} (d : List (String × α)) (k : String)
    (h : k ∈ d.map Prod.fst) : (dictGet d k).isSome := by
  induction d with
  | nil => simp at h
  | cons p ps ih =>
    by_cases hp : p.1 = k
    · simp [dictGet_cons, hp]
    · have h2 : k ∈ p.1 :: ps.map Prod.fst := by simpa using h
      have hk : k ∈ ps.map Prod.fst := by
        rcases List.mem_cons.mp h2 with h1 | h1
        · exact absurd h1.symm hp
        · exact h1
      simpa [dictGet_cons, hp] using ih hk

theorem dictAppend_cons (p : String × List Val) (ps : List (String × List Val))
    (k : String) (v : Val) :
    dictAppend (p :: ps) k v =
      (if p.1 = k then (p.1, p.2 ++ [v]) else p) :: dictAppend ps k v := rfl

theorem dictGet_dictAppend (d : List (String × List Val)) (k k2 : String) (v : Val) :
    dictGet (dictAppend d k v) k2 =
      if k2 = k then (dictGet d k2).map (fun l => l ++ [v]) else dictGet d k2 := by
  induction d with
  | nil => by_cases h : k2 = k <;> simp [dictGet, dictAppend, h]
  | cons p ps ih =>
    rw [dictAppend_cons]
    by_cases hp : p.1 = k
    · by_cases h : k2 = k
      · rw [if_pos hp, dictGet_cons, dictGet_cons]
        simp only [hp.trans h.symm, if_pos rfl]
        simp [h]
      · have hp2 : ¬ p.1 = k2 := fun hc => h (hc.symm.trans hp)
        rw [if_pos hp, dictGet_cons, dictGet_cons, if_neg hp2, if_neg hp2, ih, if_neg h]
    · rw [if_neg hp, dictGet_cons, dictGet_cons]
      by_cases hp2 : p.1 = k2
      · have h : ¬ k2 = k := fun hc => hp (hp2.trans hc)
        rw [if_pos hp2, if_pos hp2, if_neg h]
      · rw [if_neg hp2, if_neg hp2, ih]

theorem dictAppend_map_fst (d : List (String × List Val)) (k : String) (v : Val) :
    (dictAppend d k v).map Prod.fst = d.map Prod.fst := by
  induction d with
  | nil => simp [dictAppend]
  | cons p ps ih =>
    by_cases hp : p.1 = k <;> simp [dictAppend, hp] at ih ⊢ <;> exact ih

theorem dictDel_map_fst_of_listIndex {α : Type} (d : List (String × α)) (k : String)
    {i : Nat} (h : listIndex (d.map Prod.fst) k = some i) :
    (dictDel d k).map Prod.fst = (d.map Prod.fst).eraseIdx i := by
  induction d generalizing i with
  | nil => simp [listIndex] at h
  | cons p ps ih =>
    by_cases hp : p.1 = k
    · simp [listIndex, hp] at h
      subst h
      simp [dictDel, hp]
    · simp [listIndex, hp] at h
      obtain ⟨j, hj, rfl⟩ := h
      simp [dictDel, hp, ih hj, List.eraseIdx]

theorem mapME_ok_map {ε α β : Type} (f : α → Except ε β) (g : α → β) (l : List α)
    (h : ∀ x ∈ l, f x = .ok (g x)) : mapME f l = .ok (l.map g) := by
  induction l with
  | nil => rfl
  | cons x xs ih =>
    have hx := h x (by simp)
    have hxs := ih (fun y hy => h y (by simp [hy]))
    simp [mapME, hx, hxs]

theorem mapME_ok_of_id {ε α : Type} (f : α → Except ε α) (l : List α)
    (h : ∀ x ∈ l, f x = .ok x) : mapME f l = .ok l := by
  have := mapME_ok_map f id l (by simpa using h)
  simpa using this

theorem mapME_ok_length {ε α β : Type} (f : α → Except ε β) (l : List α) (ys : List β)
    (h : mapME f l = .ok ys) : ys.length = l.length := by
  induction l generalizing ys with
  | nil =>
    simp [mapME] at h
    simp [← h]
  | cons x xs ih =>
    rcases hfx : f x with e | y
    · simp [mapME, hfx] at h
    · rcases hrest : mapME f xs with e | zs
      · simp [mapME, hfx, hrest] at h
      · simp [mapME, hfx, hrest] at h
        simp [← h, ih zs hrest]

theorem mapME_ok_getD {ε α β : Type} (f : α → Except ε β) (l : List α) (ys : List β)
    (h : mapME f l = .ok ys) (i : Nat) (hi : i < l.length) (da : α) (db : β) :
    f (l.getD i da) = .ok (ys.getD i db) := by
  induction l generalizing ys i with
  | nil => simp at hi
  | cons x xs ih =>
    rcases hfx : f x with e | y
    · simp [mapME, hfx] at h
    · rcases hrest : mapME f xs with e | zs
      · simp [mapME, hfx, hrest] at h
      · simp [mapME, hfx, hrest] at h
        subst h
        match i with
        | 0 => simpa using hfx
        | j + 1 =>
          have hj : j < xs.length := by simpa using hi
          simpa using ih zs hrest j hj


/-! ### Registry lemmas -/

theorem rc_valid_of_dtype {k : String} {t : PyType} (h : rc_get_dtype k = some t) :
    rc_is_valid k = true := by
  unfold rc_get_dtype at h
  rcases hf : relionColsList.find? (fun p => p.1 = k) with _ | pr
  · rw [hf] at h
    simp at h
  · have hm := List.mem_of_find?_eq_some hf
    have hp := List.find?_some hf
    exact List.any_eq_true.mpr ⟨pr, hm, hp⟩

/-! ### Claim C1: failure behaviour of `add_row` -/

theorem addRowLoop_err_rows (kwargs : List (String × Val)) :
    ∀ (s : Star) (e : PyErr), (Star.addRowLoop s kwargs).2 = some e →
      (Star.addRowLoop s kwargs).1.rows = s.rows := by
  induction kwargs with
  | nil =>
    intro s e h
    simp [Star.addRowLoop] at h
  | cons kv rest ih =>
    intro s e h
    obtain ⟨k, v⟩ := kv
    by_cases hc : s.is_column k = true
    · rcases ht : s.get_column_type k with _ | dtype
      · simp [Star.addRowLoop, hc, ht]
      · rcases hcast : pyCast dtype v with err | tv
        · simp [Star.addRowLoop, hc, ht, hcast]
        · simp only [Star.addRowLoop, hc, ht, hcast, if_true] at h ⊢
          exact ih _ e h
    · simp [Star.addRowLoop, hc]

/-- C1 (amended): a count mismatch makes `add_row` fail before touching the
table, and every `add_row` failure (unknown key or cast error) leaves
`row_count` unchanged — though an unknown key may leave columns processed
before it extended by one entry, as the counterexample shows. -/
theorem add_row_error_leaves_rows (s : Star) (kwargs : List (String × Val)) :
    (kwargs.length ≠ s.get_ncols →
      s.add_row kwargs = (s, some (.pySegInputError "add_row (Star)"))) ∧
    (∀ e, (s.add_row kwargs).2 = some e → (s.add_row kwargs).1.rows = s.rows) := by
  constructor
  · intro h
    rw [Star.add_row, if_pos h]
  · intro e h
    by_cases hlen : kwargs.length ≠ s.get_ncols
    · rw [Star.add_row, if_pos hlen]
    · rw [Star.add_row, if_neg hlen] at h ⊢
      exact addRowLoop_err_rows kwargs s e h

theorem add_row_error_leaves_rows_w :
    Star.init.add_row [("x", .vInt 0)] = (Star.init, some (.pySegInputError "add_row (Star)")) ∧
    (Star.init.add_row [("x", .vInt 0)]).1.rows = Star.init.rows :=
  ⟨(add_row_error_leaves_rows Star.init [("x", .vInt 0)]).1 (by decide),
   (add_row_error_leaves_rows Star.init [("x", .vInt 0)]).2
     (.pySegInputError "add_row (Star)") (by decide)⟩

/-- A two-column table built by well-formed operations, for the C1
counterexample. -/
def c1Table : Star :=
  ((Star.init.add_column "_rlnImageName" (.aInt (-1)) false).1.add_column
    "_rlnCoordinateX" (.aInt (-1)) false).1

/-- C1 counterexample: `add_row` with a matching key count but an unknown
second key raises, leaves `row_count` at 0, yet the first column has already
been extended to length 1 — the table is not left unchanged. -/
theorem add_row_unknown_key_partially_extends :
    (c1Table.add_row [("_rlnImageName", .vStr "a"), ("bogus", .vInt 1)]).2 =
      some (.pySegInputError "add_row (Star)") ∧
    (c1Table.add_row [("_rlnImageName", .vStr "a"), ("bogus", .vInt 1)]).1.rows = 0 ∧
    dictGet (c1Table.add_row [("_rlnImageName", .vStr "a"), ("bogus", .vInt 1)]).1.data
      "_rlnImageName" = some [.vStr "a"] ∧
    dictGet c1Table.data "_rlnImageName" = some [] := by decide

/-! ### Claim C9: `add_column` treats a string value as a sequence -/

/-- C9: for a registry-valid text column, passing a single string as the
column value treats it as a sequence: a length mismatch with `row_count`
fails with the length-mismatch error leaving the table unchanged, and on a
length match every row receives one character of the string. -/
theorem add_column_string_is_sequence (s : Star) (key : String) (str2 : String)
    (hty : rc_get_dtype key = some .pyStr) :
    (str2.length ≠ s.rows →
      s.add_column key (.aStr str2) false = (s, some (.pySegInputError "add_column (Star)"))) ∧
    (str2.length = s.rows →
      (s.add_column key (.aStr str2) false).2 = none ∧
      dictGet (s.add_column key (.aStr str2) false).1.data key =
        some (str2.data.map (fun c => Val.vStr ⟨[c]⟩))) := by
  have hval : rc_is_valid key = true := rc_valid_of_dtype hty
  constructor
  · intro h
    rw [Star.add_column]
    simp only [hval, Bool.or_true, if_true]
    rw [hty]
    simp only [Option.getD_some]
    rw [addColumnVals, if_pos h]
  · intro h
    have hcast : mapME (pyCast .pyStr) (str2.data.map (fun c => Val.vStr ⟨[c]⟩)) =
        .ok (str2.data.map (fun c => Val.vStr ⟨[c]⟩)) := by
      apply mapME_ok_of_id
      intro x hx
      rcases List.mem_map.mp hx with ⟨c, _, rfl⟩
      rfl
    have hv : addColumnVals s .pyStr (.aStr str2) =
        .ok (str2.data.map (fun c => Val.vStr ⟨[c]⟩)) := by
      rw [addColumnVals, if_neg (by omega), hcast]
    rw [Star.add_column]
    simp only [hval, Bool.or_true, if_true]
    rw [hty]
    simp only [Option.getD_some]
    rw [hv]
    rcases hidx : listIndex s.cols key with _ | idx <;>
      simp [hidx, dictGet_dictSet_self]

/-- A two-row table for the C9 witness. -/
def c9Table : Star :=
  (((Star.init.add_column "_rlnImageName" (.aInt (-1)) false).1.add_row
      [("_rlnImageName", .vStr "x")]).1.add_row [("_rlnImageName", .vStr "y")]).1

theorem add_column_string_is_sequence_w :
    c9Table.add_column "_rlnMicrographName" (.aStr "abc") false =
      (c9Table, some (.pySegInputError "add_column (Star)")) ∧
    (c9Table.add_column "_rlnMicrographName" (.aStr "ab") false).2 = none ∧
    dictGet (c9Table.add_column "_rlnMicrographName" (.aStr "ab") false).1.data
      "_rlnMicrographName" = some [.vStr "a", .vStr "b"] :=
  ⟨(add_column_string_is_sequence c9Table "_rlnMicrographName" "abc" (by decide)).1 (by decide),
   ((add_column_string_is_sequence c9Table "_rlnMicrographName" "ab" (by decide)).2 (by decide)).1,
   by
    have := ((add_column_string_is_sequence c9Table "_rlnMicrographName" "ab" (by decide)).2
      (by decide)).2
    simpa using this⟩

/-! ### Claim C4: `particle_group` without a group column -/

/-- A table with two distinct micrograph image names and no group column,
for the C4 failing input. -/
def c4Table : Star :=
  (((Star.init.add_column "_rlnImageName" (.aInt (-1)) false).1.add_row
      [("_rlnImageName", .vStr "mic1")]).1.add_row [("_rlnImageName", .vStr "mic2")]).1

/-- C4: when the group-id column is absent, `particle_group` raises a
TypeError out of `list(set(None))` — which the `except ValueError` handler
does not catch — instead of performing the documented per-micrograph
grouping; the table is returned unchanged and no group column is created. -/
theorem particle_group_missing_column_raises :
    c4Table.has_column "_rlnGroupNumber" = false ∧
    c4Table.has_column "_rlnImageName" = true ∧
    c4Table.particle_group 10 = (c4Table, some .typeError) := by decide


/-! ### Claim C10: `del_rows` index semantics -/

theorem getD_set {α : Type} (l : List α) (k j : Nat) (v d : α) :
    (l.set k v).getD j d = if k = j ∧ j < l.length then v else l.getD j d := by
  induction l generalizing k j with
  | nil => simp [List.set]
  | cons x xs ih =>
    match k, j with
    | 0, 0 => simp
    | 0, j + 1 => simp
    | k + 1, 0 => simp
    | k + 1, j + 1 =>
      simp only [List.set, List.getD_cons_succ, ih k j, List.length_cons]
      by_cases h : k = j ∧ j < xs.length
      · rw [if_pos h, if_pos (by omega)]
      · rw [if_neg h, if_neg (by omega)]

/-- The positions a `del_rows` index list marks for deletion, written as the
claim reads: an in-range non-negative `i` deletes row `i`, an in-range
negative `i` deletes row `n + i`, anything else is ignored. -/
def pyDelMarks (n : Nat) (ids : List Int) (j : Nat) : Bool :=
  ids.any (fun i =>
    decide ((0 ≤ i ∧ i < (n : Int) ∧ i = (j : Int)) ∨
      (-(n : Int) ≤ i ∧ i < 0 ∧ i + (n : Int) = (j : Int))))

theorem npSetLut_length (lut : List Bool) (i : Int) :
    (npSetLut lut i).length = lut.length := by
  unfold npSetLut pySet
  by_cases h1 : 0 ≤ i ∧ i < (lut.length : Int)
  · rw [if_pos h1]
    simp
  · rw [if_neg h1]
    by_cases h2 : -(lut.length : Int) ≤ i ∧ i < 0
    · rw [if_pos h2]
      simp
    · rw [if_neg h2]

theorem npSetLut_getD (lut : List Bool) (i : Int) (j : Nat) :
    (npSetLut lut i).getD j false =
      (lut.getD j false ||
        decide ((0 ≤ i ∧ i < (lut.length : Int) ∧ i = (j : Int)) ∨
          (-(lut.length : Int) ≤ i ∧ i < 0 ∧ i + (lut.length : Int) = (j : Int)))) := by
  unfold npSetLut pySet
  by_cases h1 : 0 ≤ i ∧ i < (lut.length : Int)
  · rw [if_pos h1]
    show (lut.set i.toNat true).getD j false = _
    rw [getD_set]
    by_cases h2 : i.toNat = j ∧ j < lut.length
    · rw [if_pos h2]
      have : (0 ≤ i ∧ i < (lut.length : Int) ∧ i = (j : Int)) ∨
          (-(lut.length : Int) ≤ i ∧ i < 0 ∧ i + (lut.length : Int) = (j : Int)) := by
        left
        refine ⟨h1.1, h1.2, ?_⟩
        omega
      simp [this]
    · rw [if_neg h2]
      have : ¬ ((0 ≤ i ∧ i < (lut.length : Int) ∧ i = (j : Int)) ∨
          (-(lut.length : Int) ≤ i ∧ i < 0 ∧ i + (lut.length : Int) = (j : Int))) := by
        rintro (⟨a, b, c⟩ | ⟨a, b, c⟩) <;> omega
      simp [this]
  · rw [if_neg h1]
    by_cases h2 : -(lut.length : Int) ≤ i ∧ i < 0
    · rw [if_pos h2]
      show (lut.set (i + lut.length).toNat true).getD j false = _
      rw [getD_set]
      by_cases h3 : (i + lut.length).toNat = j ∧ j < lut.length
      · rw [if_pos h3]
        have : (0 ≤ i ∧ i < (lut.length : Int) ∧ i = (j : Int)) ∨
            (-(lut.length : Int) ≤ i ∧ i < 0 ∧ i + (lut.length : Int) = (j : Int)) := by
          right
          refine ⟨h2.1, h2.2, ?_⟩
          omega
        simp [this]
      · rw [if_neg h3]
        have : ¬ ((0 ≤ i ∧ i < (lut.length : Int) ∧ i = (j : Int)) ∨
            (-(lut.length : Int) ≤ i ∧ i < 0 ∧ i + (lut.length : Int) = (j : Int))) := by
          rintro (⟨a, b, c⟩ | ⟨a, b, c⟩) <;> omega
        simp [this]
    · rw [if_neg h2]
      have : ¬ ((0 ≤ i ∧ i < (lut.length : Int) ∧ i = (j : Int)) ∨
          (-(lut.length : Int) ≤ i ∧ i < 0 ∧ i + (lut.length : Int) = (j : Int))) := by
        rintro (⟨a, b, c⟩ | ⟨a, b, c⟩) <;> omega
      simp [this]

theorem foldl_npSetLut_length (ids : List Int) (lut0 : List Bool) :
    (ids.foldl npSetLut lut0).length = lut0.length := by
  induction ids generalizing lut0 with
  | nil => rfl
  | cons i rest ih =>
    simp only [List.foldl_cons]
    rw [ih, npSetLut_length]

theorem foldl_npSetLut_getD (ids : List Int) (lut0 : List Bool) (j : Nat) :
    (ids.foldl npSetLut lut0).getD j false =
      (lut0.getD j false || pyDelMarks lut0.length ids j) := by
  induction ids generalizing lut0 with
  | nil => simp [pyDelMarks]
  | cons i rest ih =>
    simp only [List.foldl_cons]
    rw [ih, npSetLut_length, npSetLut_getD]
    simp only [pyDelMarks, List.any_cons]
    rw [Bool.or_assoc]

theorem range_map_getD {α : Type} (l : List α) (d : α) :
    (List.range l.length).map (fun j => l.getD j d) = l := by
  apply List.ext_get (by simp)
  intro n h1 h2
  simp [List.getD_eq_getElem?_getD, List.getElem?_eq_getElem h2]

theorem filter_shift (b : Bool) (lut2 : List Bool) :
    (List.filter (fun j => !(b :: lut2).getD j false)
        ((List.range lut2.length).map Nat.succ)) =
      ((List.range lut2.length).filter (fun j => !lut2.getD j false)).map Nat.succ := by
  rw [List.filter_map]
  have hc : ((fun j => !(b :: lut2).getD j false) ∘ Nat.succ) =
      (fun j => !lut2.getD j false) := by
    funext a
    simp [Function.comp]
  rw [hc]

theorem keepRows_eq_filter (lut : List Bool) (l : List Val) (h : l.length = lut.length) :
    keepRows lut l =
      ((List.range lut.length).filter (fun j => !lut.getD j false)).map
        (fun j => l.getD j (.vStr "")) := by
  induction lut generalizing l with
  | nil =>
    cases l with
    | nil => simp [keepRows]
    | cons v l2 => simp at h
  | cons b lut2 ih =>
    cases l with
    | nil => simp at h
    | cons v l2 =>
      have h2 : l2.length = lut2.length := by simpa using h
      rw [List.length_cons, List.range_succ_eq_map]
      cases b with
      | true =>
        have hL : keepRows (true :: lut2) (v :: l2) = keepRows lut2 l2 := by
          simp [keepRows]
        rw [hL, ih l2 h2, List.filter_cons]
        rw [if_neg (show ¬((!(true :: lut2).getD 0 false) = true) by simp)]
        rw [filter_shift, List.map_map]
        apply List.map_congr_left
        intro a _
        simp [Function.comp]
      | false =>
        have hL : keepRows (false :: lut2) (v :: l2) = v :: keepRows lut2 l2 := by
          simp [keepRows]
        rw [hL, ih l2 h2, List.filter_cons]
        rw [if_pos (show (!(false :: lut2).getD 0 false) = true by simp)]
        rw [filter_shift, List.map_cons, List.map_map]
        simp only [List.getD_cons_zero]
        refine congrArg (fun t => v :: t) ?_
        apply List.map_congr_left
        intro a _
        simp [Function.comp]

theorem count_false_eq_filter_length (lut : List Bool) :
    lut.count false = ((List.range lut.length).filter (fun j => !lut.getD j false)).length := by
  induction lut with
  | nil => simp
  | cons b lut2 ih =>
    rw [List.length_cons, List.range_succ_eq_map]
    cases b with
    | true =>
      rw [List.filter_cons]
      rw [if_neg (show ¬((!(true :: lut2).getD 0 false) = true) by simp)]
      rw [filter_shift, List.length_map, List.count_cons]
      simpa using ih
    | false =>
      rw [List.filter_cons]
      rw [if_pos (show (!(false :: lut2).getD 0 false) = true by simp)]
      rw [filter_shift, List.length_cons, List.length_map, List.count_cons]
      simpa using ih

theorem dictGet_map_snd (d : List (String × List Val)) (f : List Val → List Val) (k : String) :
    dictGet (d.map (fun p => (p.1, f p.2))) k = (dictGet d k).map f := by
  induction d with
  | nil => simp [dictGet]
  | cons p ps ih =>
    by_cases hp : p.1 = k
    · simp [dictGet_cons, hp]
    · simpa [dictGet_cons, hp] using ih

/-- C10: `del_rows` uses Python/numpy index semantics.  For every table whose
columns match `row_count` and every index list: a kept column equals the rows
at the unmarked positions in order, and the new `row_count` is the number of
unmarked positions — where position `j` is marked exactly when the list holds
some `i` with `0 ≤ i < n` and `i = j`, or some negative `i ≥ -n` with
`n + i = j` (wrap-around); indices `≥ n` or `< -n` mark nothing. -/
theorem del_rows_pythonic_indices (s : Star) (ids : List Int)
    (hwf : ∀ p ∈ s.data, p.2.length = s.rows) :
    (∀ k l, dictGet s.data k = some l →
      dictGet (s.del_rows ids).data k =
        some (((List.range s.rows).filter (fun j => !pyDelMarks s.rows ids j)).map
          (fun j => l.getD j (.vStr "")))) ∧
    (s.del_rows ids).rows =
      ((List.range s.rows).filter (fun j => !pyDelMarks s.rows ids j)).length := by
  have hget_len : ∀ k l, dictGet s.data k = some l → l.length = s.rows := by
    intro k l hl
    rcases hfind : s.data.find? (fun p => p.1 = k) with _ | pr
    · rw [dictGet, hfind] at hl
      simp at hl
    · rw [dictGet, hfind] at hl
      simp at hl
      have := hwf pr (List.mem_of_find?_eq_some hfind)
      rw [hl] at this
      exact this
  by_cases hids : ids.length = 0
  · have hidsnil : ids = [] := List.length_eq_zero.mp hids
    subst hidsnil
    have hdel : s.del_rows [] = s := by
      rw [Star.del_rows, if_pos (show ([] : List Int).length = 0 from rfl)]
    have hfilter : (List.range s.rows).filter (fun j => !pyDelMarks s.rows [] j) =
        List.range s.rows := by
      apply List.filter_eq_self.mpr
      intro a _
      simp [pyDelMarks]
    constructor
    · intro k l hl
      rw [hdel, hl, hfilter]
      have hlen := hget_len k l hl
      rw [← hlen, range_map_getD]
    · rw [hdel, hfilter, List.length_range]
  · have hdata : (s.del_rows ids).data =
        s.data.map (fun p =>
          (p.1, keepRows (ids.foldl npSetLut (List.replicate s.rows false)) p.2)) := by
      rw [Star.del_rows, if_neg hids]
    have hrows : (s.del_rows ids).rows =
        (ids.foldl npSetLut (List.replicate s.rows false)).count false := by
      rw [Star.del_rows, if_neg hids]
    have hlutlen : (ids.foldl npSetLut (List.replicate s.rows false)).length = s.rows := by
      rw [foldl_npSetLut_length, List.length_replicate]
    have hlutget : ∀ j, (ids.foldl npSetLut (List.replicate s.rows false)).getD j false =
        pyDelMarks s.rows ids j := by
      intro j
      rw [foldl_npSetLut_getD, List.length_replicate]
      have hrepl : (List.replicate s.rows false).getD j false = false := by
        have : ∀ (n j : Nat), (List.replicate n false).getD j false = false := by
          intro n
          induction n with
          | zero => intro j; simp
          | succ n ih =>
            intro j
            cases j with
            | zero => simp
            | succ j => simpa using ih j
        exact this s.rows j
      rw [hrepl, Bool.false_or]
    constructor
    · intro k l hl
      rw [hdata, dictGet_map_snd, hl]
      simp only [Option.map_some']
      have hlen := hget_len k l hl
      rw [keepRows_eq_filter _ l (by omega), hlutlen]
      have hfeq : (List.range s.rows).filter
          (fun j => !(ids.foldl npSetLut (List.replicate s.rows false)).getD j false) =
          (List.range s.rows).filter (fun j => !pyDelMarks s.rows ids j) := by
        apply List.filter_congr
        intro a _
        rw [hlutget]
      rw [hfeq]
    · rw [hrows, count_false_eq_filter_length, hlutlen]
      congr 1
      apply List.filter_congr
      intro a _
      rw [hlutget]


/-- A three-row table for the C10 witness. -/
def c10Table : Star :=
  ((((Star.init.add_column "_rlnImageName" (.aInt (-1)) false).1.add_row
      [("_rlnImageName", .vStr "x")]).1.add_row [("_rlnImageName", .vStr "y")]).1.add_row
      [("_rlnImageName", .vStr "z")]).1

theorem del_rows_pythonic_indices_w :
    dictGet (c10Table.del_rows [-1, 5]).data "_rlnImageName" =
      some [.vStr "x", .vStr "y"] ∧
    (c10Table.del_rows [-1, 5]).rows = 2 := by
  have h := del_rows_pythonic_indices c10Table [-1, 5] (by decide)
  constructor
  · rw [h.1 "_rlnImageName" [.vStr "x", .vStr "y", .vStr "z"] (by decide)]
    decide
  · rw [h.2]
    decide


/-! ### Claim C6: the cast fallback of `load` -/

/-- C6 (amended): each token is cast to its column's declared type; a failing
cast to an integer column falls back to parsing the token as a real and
truncating toward zero — regardless of whether the token contains a decimal
point — and only aborts when that real parse also fails; a failing cast to a
real column is a hard error; text casts never fail; and a failing cast aborts
the row loop of `load` with that error. -/
theorem load_cast_fallback (d : String) :
    (castTok .pyStr d = .ok (.vStr d)) ∧
    (∀ n, pyIntParseC d.data = some n → castTok .pyInt d = .ok (.vInt n)) ∧
    (∀ q, pyIntParseC d.data = none → pyFloatParseC d.data = some q →
      castTok .pyInt d = .ok (.vInt (ratTrunc q))) ∧
    (pyIntParseC d.data = none → pyFloatParseC d.data = none →
      castTok .pyInt d = .error .valueError) ∧
    (∀ q, pyFloatParseC d.data = some q → castTok .pyFloat d = .ok (.vFloat q)) ∧
    (pyFloatParseC d.data = none → castTok .pyFloat d = .error .valueError) ∧
    (∀ t c rest dat e, castTok t d = .error e →
      loadRowCells ((d.data, t, c) :: rest) dat = (dat, some e)) := by
  refine ⟨rfl, ?_, ?_, ?_, ?_, ?_, ?_⟩
  · intro n hn
    simp [castTok, pyCast, hn]
  · intro q hn hq
    simp [castTok, pyCast, hn, hq]
  · intro hn hq
    simp [castTok, pyCast, hn, hq]
  · intro q hq
    simp [castTok, pyCast, hq]
  · intro hq
    simp [castTok, pyCast, hq]
  · intro t c rest dat e he
    have hd : (⟨d.data⟩ : String) = d := rfl
    rw [loadRowCells, hd, he]

theorem load_cast_fallback_w :
    castTok .pyInt "1e3" = .ok (.vInt 1000) ∧
    castTok .pyFloat "abc" = .error .valueError :=
  ⟨(load_cast_fallback "1e3").2.2.1 1000 (by decide) (by decide),
   (load_cast_fallback "abc").2.2.2.2.2.1 (by decide)⟩

/-- A serialized file whose single integer column holds the token `1e3`:
no decimal point, yet the claimed hard format error does not occur. -/
def c6File : String := "\ndata_\n\nloop_\n_rlnGroupNumber #1\n1e3\n"

/-- C6 counterexample: loading an integer column token `1e3` — whose cast to
int fails although it contains no decimal point — succeeds (storing the
truncated real 1000) instead of aborting with a format error. -/
theorem load_int_exponent_token_no_error :
    (Star.load c6File).2 = none ∧
    dictGet (Star.load c6File).1.data "_rlnGroupNumber" = some [.vInt 1000] ∧
    (Star.load c6File).1.rows = 1 := by decide


/-! ### Claim C7: `compute_malign` sentinel behaviour -/

theorem except_bind_ok {ε α β : Type} (a : α) (f : α → Except ε β) :
    (Except.ok a >>= f) = f a := rfl

theorem except_bind_err {ε α β : Type} (e : ε) (f : α → Except ε β) :
    ((Except.error e : Except ε α) >>= f) = .error e := rfl

/-- A row of `s` whose image name is absent from the reference table. -/
def missRow (s ref : Star) (i : Nat) : Prop :=
  ∃ v, s.get_element "_rlnImageName" i = .ok v ∧
    ref.find_element "_rlnImageName" v = .error .valueError

theorem computeMalignRows_cons_cases (s ref : Star) (rv : ℚ × ℚ × ℚ)
    (af : ℚ × ℚ × ℚ → ℚ × ℚ × ℚ → ℚ × ℚ × ℚ → ℚ) (sf : ℚ → ℚ)
    (i : Nat) (is2 : List Nat) (angs shifts : List ℚ) :
    (∃ e, computeMalignRows s ref rv af sf (i :: is2) (angs, shifts) = .error e) ∨
    (computeMalignRows s ref rv af sf (i :: is2) (angs, shifts) =
        computeMalignRows s ref rv af sf is2 (angs, shifts) ∧ missRow s ref i) ∨
    (∃ a b, computeMalignRows s ref rv af sf (i :: is2) (angs, shifts) =
        computeMalignRows s ref rv af sf is2 (angs.set i a, shifts.set i b) ∧
        ¬ missRow s ref i) := by
  rcases hname : s.get_element "_rlnImageName" i with e | v
  · refine Or.inl ⟨e, ?_⟩
    simp [computeMalignRows, hname, except_bind_err]
  · rcases hfind : ref.find_element "_rlnImageName" v with e | j
    · match e with
      | .valueError =>
        refine Or.inr (Or.inl ⟨?_, ⟨v, hname, hfind⟩⟩)
        simp [computeMalignRows, hname, hfind, except_bind_ok]
      | .keyError =>
        refine Or.inl ⟨.keyError, ?_⟩
        simp [computeMalignRows, hname, hfind, except_bind_ok]
      | .typeError =>
        refine Or.inl ⟨.typeError, ?_⟩
        simp [computeMalignRows, hname, hfind, except_bind_ok]
      | .indexError =>
        refine Or.inl ⟨.indexError, ?_⟩
        simp [computeMalignRows, hname, hfind, except_bind_ok]
      | .fuelOut =>
        refine Or.inl ⟨.fuelOut, ?_⟩
        simp [computeMalignRows, hname, hfind, except_bind_ok]
      | .pySegInputError msg =>
        refine Or.inl ⟨.pySegInputError msg, ?_⟩
        simp [computeMalignRows, hname, hfind, except_bind_ok]
    · have hnm : ¬ missRow s ref i := by
        rintro ⟨v2, hv2, hf2⟩
        rw [hname] at hv2
        injection hv2 with hv2
        subst hv2
        rw [hfind] at hf2
        exact Except.noConfusion hf2
      rcases h1 : s.get_element "_rlnAngleRot" i with e | rot
      · refine Or.inl ⟨e, ?_⟩
        simp [computeMalignRows, hname, hfind, h1, except_bind_ok, except_bind_err]
      rcases h2 : s.get_element "_rlnAnglePsi" i with e | psi
      · refine Or.inl ⟨e, ?_⟩
        simp [computeMalignRows, hname, hfind, h1, h2, except_bind_ok, except_bind_err]
      rcases h3 : s.get_element "_rlnAngleTilt" i with e | tilt
      · refine Or.inl ⟨e, ?_⟩
        simp [computeMalignRows, hname, hfind, h1, h2, h3, except_bind_ok, except_bind_err]
      rcases h4 : ref.get_element "_rlnAngleRot" j with e | rrot
      · refine Or.inl ⟨e, ?_⟩
        simp [computeMalignRows, hname, hfind, h1, h2, h3, h4, except_bind_ok, except_bind_err]
      rcases h5 : ref.get_element "_rlnAnglePsi" j with e | rpsi
      · refine Or.inl ⟨e, ?_⟩
        simp [computeMalignRows, hname, hfind, h1, h2, h3, h4, h5, except_bind_ok,
          except_bind_err]
      rcases h6 : ref.get_element "_rlnAngleTilt" j with e | rtilt
      · refine Or.inl ⟨e, ?_⟩
        simp [computeMalignRows, hname, hfind, h1, h2, h3, h4, h5, h6, except_bind_ok,
          except_bind_err]
      rcases h7 : getCoords s i with e | c
      · refine Or.inl ⟨e, ?_⟩
        simp [computeMalignRows, hname, hfind, h1, h2, h3, h4, h5, h6, h7, except_bind_ok,
          except_bind_err]
      rcases h8 : getOrigins s i with e | o
      · refine Or.inl ⟨e, ?_⟩
        simp [computeMalignRows, hname, hfind, h1, h2, h3, h4, h5, h6, h7, h8,
          except_bind_ok, except_bind_err]
      rcases h9 : getCoords ref j with e | cr
      · refine Or.inl ⟨e, ?_⟩
        simp [computeMalignRows, hname, hfind, h1, h2, h3, h4, h5, h6, h7, h8, h9,
          except_bind_ok, except_bind_err]
      rcases h10 : getOrigins ref j with e | orr
      · refine Or.inl ⟨e, ?_⟩
        simp [computeMalignRows, hname, hfind, h1, h2, h3, h4, h5, h6, h7, h8, h9, h10,
          except_bind_ok, except_bind_err]
      refine Or.inr (Or.inr ⟨af (valToRat rot, valToRat tilt, valToRat psi)
        (valToRat rrot, valToRat rtilt, valToRat rpsi) rv,
        sf (((c.1 - o.1) - (cr.1 - orr.1)) * ((c.1 - o.1) - (cr.1 - orr.1)) +
          ((c.2.1 - o.2.1) - (cr.2.1 - orr.2.1)) * ((c.2.1 - o.2.1) - (cr.2.1 - orr.2.1)) +
          ((c.2.2 - o.2.2) - (cr.2.2 - orr.2.2)) * ((c.2.2 - o.2.2) - (cr.2.2 - orr.2.2))),
        ?_, hnm⟩)
      simp [computeMalignRows, hname, hfind, h1, h2, h3, h4, h5, h6, h7, h8, h9, h10,
        except_bind_ok, except_bind_err]


theorem computeMalignRows_preserve (s ref : Star) (rv : ℚ × ℚ × ℚ)
    (af : ℚ × ℚ × ℚ → ℚ × ℚ × ℚ → ℚ × ℚ × ℚ → ℚ) (sf : ℚ → ℚ) :
    ∀ (is2 : List Nat) (angs shifts : List ℚ) (out : List ℚ × List ℚ),
      computeMalignRows s ref rv af sf is2 (angs, shifts) = .ok out →
      (out.1.length = angs.length ∧ out.2.length = shifts.length) ∧
      ∀ j, (j ∉ is2 ∨ missRow s ref j) →
        out.1.get? j = angs.get? j ∧ out.2.get? j = shifts.get? j := by
  intro is2
  induction is2 with
  | nil =>
    intro angs shifts out h
    simp [computeMalignRows] at h
    rw [← h]
    exact ⟨⟨rfl, rfl⟩, fun j _ => ⟨rfl, rfl⟩⟩
  | cons i rest ih =>
    intro angs shifts out h
    rcases computeMalignRows_cons_cases s ref rv af sf i rest angs shifts with
      ⟨e, he⟩ | ⟨heq, _⟩ | ⟨a, b, heq, hnm⟩
    · rw [he] at h
      exact Except.noConfusion h
    · rw [heq] at h
      obtain ⟨hlen, hpres⟩ := ih angs shifts out h
      refine ⟨hlen, ?_⟩
      intro j hj
      apply hpres
      rcases hj with hj | hj
      · exact Or.inl (fun hc => hj (List.mem_cons_of_mem i hc))
      · exact Or.inr hj
    · rw [heq] at h
      obtain ⟨hlen, hpres⟩ := ih (angs.set i a) (shifts.set i b) out h
      have hji : ∀ j, (j ∉ i :: rest ∨ missRow s ref j) → i ≠ j := by
        intro j hj
        rcases hj with hj | hj
        · intro hc
          exact hj (hc ▸ List.mem_cons_self i rest)
        · intro hc
          subst hc
          exact hnm hj
      constructor
      · constructor
        · rw [hlen.1, List.length_set]
        · rw [hlen.2, List.length_set]
      · intro j hj
        have hside : (j ∉ rest ∨ missRow s ref j) := by
          rcases hj with hj | hj
          · exact Or.inl (fun hc => hj (List.mem_cons_of_mem i hc))
          · exact Or.inr hj
        have hp := hpres j hside
        have hne := hji j hj
        rw [hp.1, hp.2, List.get?_set_ne a angs hne, List.get?_set_ne b shifts hne]
        exact ⟨rfl, rfl⟩

theorem computeMalignRows_all_miss (s ref : Star) (rv : ℚ × ℚ × ℚ)
    (af : ℚ × ℚ × ℚ → ℚ × ℚ × ℚ → ℚ × ℚ × ℚ → ℚ) (sf : ℚ → ℚ) :
    ∀ (is2 : List Nat) (acc : List ℚ × List ℚ),
      (∀ i ∈ is2, missRow s ref i) →
      computeMalignRows s ref rv af sf is2 acc = .ok acc := by
  intro is2
  induction is2 with
  | nil =>
    intro acc _
    rfl
  | cons i rest ih =>
    intro acc hmiss
    obtain ⟨angs, shifts⟩ := acc
    obtain ⟨v, hv, hf⟩ := hmiss i (by simp)
    have : computeMalignRows s ref rv af sf (i :: rest) (angs, shifts) =
        computeMalignRows s ref rv af sf rest (angs, shifts) := by
      simp [computeMalignRows, hv, hf, except_bind_ok]
    rw [this]
    exact ih (angs, shifts) (fun k hk => hmiss k (by simp [hk]))

/-- C7: `compute_malign` returns two sequences of length `row_count`: when it
returns at all, each output has one entry per row in row order and every row
whose image name does not occur in the reference column still carries the
sentinel `-1` in both outputs; and when every row misses, no exception is
raised at all — the call succeeds with both outputs entirely `-1`. -/
theorem compute_malign_miss_sentinel (s ref : Star) (rv : ℚ × ℚ × ℚ)
    (af : ℚ × ℚ × ℚ → ℚ × ℚ × ℚ → ℚ × ℚ × ℚ → ℚ) (sf : ℚ → ℚ) (refNames : List Val)
    (href : dictGet ref.data "_rlnImageName" = some refNames) :
    (∀ out, s.compute_malign ref rv af sf = .ok out →
      out.1.length = s.get_nrows ∧ out.2.length = s.get_nrows ∧
      (∀ i v, i < s.get_nrows → s.get_element "_rlnImageName" i = .ok v →
        v ∉ refNames → out.1.getD i 0 = -1 ∧ out.2.getD i 0 = -1)) ∧
    ((∀ i, i < s.get_nrows → ∃ v, s.get_element "_rlnImageName" i = .ok v ∧ v ∉ refNames) →
      s.compute_malign ref rv af sf =
        .ok (List.replicate s.get_nrows (-1), List.replicate s.get_nrows (-1))) := by
  have hmiss_of : ∀ i v, s.get_element "_rlnImageName" i = .ok v → v ∉ refNames →
      missRow s ref i := by
    intro i v hv hnot
    refine ⟨v, hv, ?_⟩
    have hli : listIndex refNames v = none := (listIndex_eq_none_iff refNames v).mpr hnot
    rw [Star.find_element, href]
    simp [hli]
  constructor
  · intro out hout
    have h := computeMalignRows_preserve s ref rv af sf (List.range s.get_nrows)
      (List.replicate s.get_nrows (-1)) (List.replicate s.get_nrows (-1)) out hout
    refine ⟨by simpa using h.1.1, by simpa using h.1.2, ?_⟩
    intro i v hi hv hnot
    have hp := h.2 i (Or.inr (hmiss_of i v hv hnot))
    have hrep : (List.replicate s.get_nrows (-1 : ℚ)).get? i = some (-1) := by
      simp [List.get?_eq_getElem?, List.getElem?_replicate, hi]
    constructor
    · rw [List.getD, hp.1, hrep]
      rfl
    · rw [List.getD, hp.2, hrep]
      rfl
  · intro hall
    have : ∀ i ∈ List.range s.get_nrows, missRow s ref i := by
      intro i hi
      obtain ⟨v, hv, hnot⟩ := hall i (List.mem_range.mp hi)
      exact hmiss_of i v hv hnot
    exact computeMalignRows_all_miss s ref rv af sf (List.range s.get_nrows)
      (List.replicate s.get_nrows (-1), List.replicate s.get_nrows (-1)) this

/-- Two rows with image names absent from the reference table. -/
def c7Table : Star :=
  (((Star.init.add_column "_rlnImageName" (.aInt (-1)) false).1.add_row
      [("_rlnImageName", .vStr "x")]).1.add_row [("_rlnImageName", .vStr "y")]).1

/-- A one-row reference table with a different image name. -/
def c7Ref : Star :=
  ((Star.init.add_column "_rlnImageName" (.aInt (-1)) false).1.add_row
    [("_rlnImageName", .vStr "z")]).1

theorem compute_malign_miss_sentinel_w :
    c7Table.compute_malign c7Ref (1, 0, 0) (fun _ _ _ => 0) (fun q => q) =
      .ok (List.replicate 2 (-1), List.replicate 2 (-1)) := by
  have h := (compute_malign_miss_sentinel c7Table c7Ref (1, 0, 0) (fun _ _ _ => 0)
    (fun q => q) [.vStr "z"] (by decide)).2
  have hall : ∀ i, i < c7Table.get_nrows →
      ∃ v, c7Table.get_element "_rlnImageName" i = .ok v ∧ v ∉ [Val.vStr "z"] := by
    intro i hi
    have h2 : i < 2 := by
      have he : c7Table.get_nrows = 2 := by decide
      omega
    interval_cases i
    · exact ⟨.vStr "x", by decide, by decide⟩
    · exact ⟨.vStr "y", by decide, by decide⟩
  have hres := h hall
  have he : c7Table.get_nrows = 2 := by decide
  rw [he] at hres
  exact hres


/-! ### Claim C2: the length invariant -/

/-- The structural well-formedness of a table: the data dict is keyed by the
columns in order, the columns are distinct, dtypes run parallel to columns,
and every column holds exactly `rows` values. -/
def wfLen (s : Star) : Prop :=
  s.data.map Prod.fst = s.cols ∧ s.cols.Nodup ∧ s.dtypes.length = s.cols.length ∧
    ∀ p ∈ s.data, p.2.length = s.rows

theorem mem_dictSet {α : Type} (d : List (String × α)) (k : String) (v : α)
    (p : String × α) (h : p ∈ dictSet d k v) : p = (k, v) ∨ p ∈ d := by
  induction d with
  | nil =>
    simp [dictSet] at h
    exact Or.inl h
  | cons q qs ih =>
    by_cases hq : q.1 = k
    · rw [dictSet, if_pos hq] at h
      rcases List.mem_cons.mp h with h1 | h1
      · exact Or.inl h1
      · exact Or.inr (List.mem_cons_of_mem q h1)
    · rw [dictSet, if_neg hq] at h
      rcases List.mem_cons.mp h with h1 | h1
      · exact Or.inr (h1 ▸ List.mem_cons_self q qs)
      · rcases ih h1 with h2 | h2
        · exact Or.inl h2
        · exact Or.inr (List.mem_cons_of_mem q h2)

theorem mem_dictDel {α : Type} (d : List (String × α)) (k : String)
    (p : String × α) (h : p ∈ dictDel d k) : p ∈ d := by
  induction d with
  | nil => simpa [dictDel] using h
  | cons q qs ih =>
    by_cases hq : q.1 = k
    · rw [dictDel, if_pos hq] at h
      exact List.mem_cons_of_mem q h
    · rw [dictDel, if_neg hq] at h
      rcases List.mem_cons.mp h with h1 | h1
      · exact h1 ▸ List.mem_cons_self q qs
      · exact List.mem_cons_of_mem q (ih h1)

theorem dictGet_of_mem_nodup {α : Type} (d : List (String × α)) (p : String × α)
    (hmem : p ∈ d) (hnd : (d.map Prod.fst).Nodup) : dictGet d p.1 = some p.2 := by
  induction d with
  | nil => simp at hmem
  | cons q qs ih =>
    rcases List.mem_cons.mp hmem with h1 | h1
    · subst h1
      simp [dictGet_cons]
    · have hq : ¬ q.1 = p.1 := by
        intro hc
        have : p.1 ∈ qs.map Prod.fst := List.mem_map.mpr ⟨p, h1, rfl⟩
        rw [List.map_cons] at hnd
        exact (List.nodup_cons.mp hnd).1 (hc ▸ this)
      rw [dictGet_cons, if_neg hq]
      exact ih h1 (by
        rw [List.map_cons] at hnd
        exact (List.nodup_cons.mp hnd).2)

theorem addColumnVals_ok_length (s : Star) (dtype : PyType) (val : AVal)
    (row : List Val) (h : addColumnVals s dtype val = .ok row) :
    row.length = s.rows := by
  match val with
  | .aList l =>
    rw [addColumnVals] at h
    by_cases hl : l.length ≠ s.rows
    · rw [if_pos hl] at h
      exact Except.noConfusion h
    · rw [if_neg hl] at h
      have := mapME_ok_length _ _ _ h
      omega
  | .aStr str2 =>
    rw [addColumnVals] at h
    by_cases hl : str2.length ≠ s.rows
    · rw [if_pos hl] at h
      exact Except.noConfusion h
    · rw [if_neg hl] at h
      have h2 := mapME_ok_length _ _ _ h
      rw [List.length_map] at h2
      have h3 : str2.data.length = str2.length := rfl
      omega
  | .aInt n =>
    rw [addColumnVals] at h
    by_cases hr : s.rows = 0
    · rw [if_pos hr] at h
      injection h with h
      rw [← h, hr]
      rfl
    · rw [if_neg hr] at h
      rcases hc : pyCast dtype (.vInt n) with e | tv
      · rw [hc] at h
        exact Except.noConfusion h
      · rw [hc] at h
        injection h with h
        rw [← h]
        simp
  | .aFloat q =>
    rw [addColumnVals] at h
    by_cases hr : s.rows = 0
    · rw [if_pos hr] at h
      injection h with h
      rw [← h, hr]
      rfl
    · rw [if_neg hr] at h
      rcases hc : pyCast dtype (.vFloat q) with e | tv
      · rw [hc] at h
        exact Except.noConfusion h
      · rw [hc] at h
        injection h with h
        rw [← h]
        simp

theorem add_column_wfLen (s : Star) (key : String) (val : AVal) (np : Bool)
    (s2 : Star) (h : s.add_column key val np = (s2, none)) (hwf : wfLen s) :
    wfLen s2 ∧ s2.rows = s.rows := by
  obtain ⟨hkeys, hnd, hdt, hlen⟩ := hwf
  rw [Star.add_column] at h
  by_cases hv : (np || rc_is_valid key) = true
  · rw [if_pos hv] at h
    rcases hvals : addColumnVals s ((rc_get_dtype key).getD .pyFloat) val with e | row
    · rw [hvals] at h
      exact Prod.noConfusion h (fun _ hsnd => Option.noConfusion hsnd)
    · rw [hvals] at h
      have hrow := addColumnVals_ok_length s _ val row hvals
      rcases hidx : listIndex s.cols key with _ | idx
      · rw [hidx] at h
        injection h with h1 _
        subst h1
        have hnotmem : key ∉ s.cols := (listIndex_eq_none_iff s.cols key).mp hidx
        have hnotkeys : key ∉ s.data.map Prod.fst := by
          rw [hkeys]
          exact hnotmem
        refine ⟨⟨?_, ?_, ?_, ?_⟩, rfl⟩
        · show (dictSet s.data key row).map Prod.fst = s.cols ++ [key]
          rw [dictSet_of_notMem s.data key row hnotkeys, List.map_append, hkeys]
          rfl
        · show (s.cols ++ [key]).Nodup
          rw [List.nodup_append]
          exact ⟨hnd, List.nodup_singleton key, by simpa using hnotmem⟩
        · show (s.dtypes ++ [(rc_get_dtype key).getD .pyFloat]).length = (s.cols ++ [key]).length
          rw [List.length_append, List.length_append, hdt]
          rfl
        · intro p hp
          rw [dictSet_of_notMem s.data key row hnotkeys] at hp
          rcases List.mem_append.mp hp with h1 | h1
          · exact hlen p h1
          · have h2 : p = (key, row) := by simpa using h1
            rw [h2]
            exact hrow
      · rw [hidx] at h
        injection h with h1 _
        subst h1
        have hmem : key ∈ s.cols := by
          by_contra hc
          rw [(listIndex_eq_none_iff s.cols key).mpr hc] at hidx
          exact Option.noConfusion hidx
        have hmemkeys : key ∈ s.data.map Prod.fst := by
          rw [hkeys]
          exact hmem
        refine ⟨⟨?_, ?_, ?_, ?_⟩, rfl⟩
        · show (dictSet s.data key row).map Prod.fst = s.cols.set idx key
          rw [dictSet_map_fst_of_mem s.data key row hmemkeys, hkeys,
            listIndex_set_self hidx]
        · show (s.cols.set idx key).Nodup
          rw [listIndex_set_self hidx]
          exact hnd
        · show (s.dtypes.set idx _).length = (s.cols.set idx key).length
          rw [List.length_set, List.length_set]
          exact hdt
        · intro p hp
          rcases mem_dictSet s.data key row p hp with h1 | h1
          · rw [h1]
            exact hrow
          · exact hlen p h1
  · rw [if_neg hv] at h
    exact Prod.noConfusion h (fun _ hsnd => Option.noConfusion hsnd)


theorem addRowLoop_ok_lengths (kwargs : List (String × Val)) :
    ∀ (s s2 : Star), Star.addRowLoop s kwargs = (s2, none) →
      s2.rows = s.rows + 1 ∧ s2.cols = s.cols ∧ s2.dtypes = s.dtypes ∧
      s2.data.map Prod.fst = s.data.map Prod.fst ∧
      (∀ k, (dictGet s2.data k).map List.length =
        (dictGet s.data k).map (fun l => l.length + (kwargs.map Prod.fst).count k)) ∧
      (∀ kv ∈ kwargs, s.is_column kv.1 = true) := by
  induction kwargs with
  | nil =>
    intro s s2 h
    rw [Star.addRowLoop] at h
    injection h with h1 _
    rw [← h1]
    refine ⟨rfl, rfl, rfl, rfl, ?_, by simp⟩
    intro k
    simp
  | cons kv rest ih =>
    intro s s2 h
    obtain ⟨k, v⟩ := kv
    by_cases hc : s.is_column k = true
    · rcases ht : s.get_column_type k with _ | dtype
      · simp [Star.addRowLoop, hc, ht] at h
      · rcases hcast : pyCast dtype v with e | tv
        · simp [Star.addRowLoop, hc, ht, hcast] at h
        · have h2 : Star.addRowLoop { s with data := dictAppend s.data k tv } rest =
              (s2, none) := by
            simpa [Star.addRowLoop, hc, ht, hcast] using h
          obtain ⟨r1, r2, r3, r4, r5, r6⟩ := ih _ s2 h2
          refine ⟨r1, r2, r3, ?_, ?_, ?_⟩
          · rw [r4]
            exact dictAppend_map_fst s.data k tv
          · intro k2
            rw [r5 k2]
            show Option.map _ (dictGet (dictAppend s.data k tv) k2) = _
            rw [dictGet_dictAppend]
            by_cases hk2 : k2 = k
            · rw [if_pos hk2]
              rcases hg : dictGet s.data k2 with _ | l
              · simp
              · subst hk2
                simp [List.count_cons]
                omega
            · rw [if_neg hk2]
              rcases hg : dictGet s.data k2 with _ | l
              · simp
              · have : ¬ (k = k2) := fun hcc => hk2 hcc.symm
                simp [List.count_cons, this]
          · intro kv2 hkv2
            rcases List.mem_cons.mp hkv2 with h1 | h1
            · rw [h1]
              exact hc
            · exact r6 kv2 h1
    · simp [Star.addRowLoop, hc] at h

theorem add_row_wfLen (s : Star) (kwargs : List (String × Val)) (s2 : Star)
    (h : s.add_row kwargs = (s2, none)) (hwf : wfLen s)
    (hnod : (kwargs.map Prod.fst).Nodup) : wfLen s2 := by
  rw [Star.add_row] at h
  by_cases hlen : kwargs.length ≠ s.get_ncols
  · rw [if_pos hlen] at h
    exact Prod.noConfusion h (fun _ hsnd => Option.noConfusion hsnd)
  · rw [if_neg hlen] at h
    have hcount : kwargs.length = s.cols.length := not_ne_iff.mp hlen
    obtain ⟨r1, r2, r3, r4, r5, r6⟩ := addRowLoop_ok_lengths kwargs s s2 h
    obtain ⟨hkeys, hnd, hdt, hlens⟩ := hwf
    have hsub : ∀ kv ∈ kwargs, kv.1 ∈ s.cols := by
      intro kv hkv
      have h6 := r6 kv hkv
      rw [Star.is_column] at h6
      simpa using h6
    have hcover : ∀ c ∈ s.cols, (kwargs.map Prod.fst).count c = 1 := by
      have hsubl : ∀ k2 ∈ kwargs.map Prod.fst, k2 ∈ s.cols := by
        intro k2 hk2
        rcases List.mem_map.mp hk2 with ⟨kv, hkv, rfl⟩
        exact hsub kv hkv
      have h1 : (kwargs.map Prod.fst).toFinset ⊆ s.cols.toFinset := by
        intro x hx
        exact List.mem_toFinset.mpr (hsubl x (List.mem_toFinset.mp hx))
      have hc1 : (kwargs.map Prod.fst).toFinset.card = kwargs.length := by
        rw [List.toFinset_card_of_nodup hnod, List.length_map]
      have hc2 : s.cols.toFinset.card = s.cols.length := List.toFinset_card_of_nodup hnd
      have heq : (kwargs.map Prod.fst).toFinset = s.cols.toFinset :=
        Finset.eq_of_subset_of_card_le h1 (by omega)
      intro c hc
      have hcmem : c ∈ kwargs.map Prod.fst := by
        have : c ∈ (kwargs.map Prod.fst).toFinset := by
          rw [heq]
          exact List.mem_toFinset.mpr hc
        exact List.mem_toFinset.mp this
      exact List.count_eq_one_of_mem hnod hcmem
    refine ⟨by rw [r4, hkeys, r2], by rw [r2]; exact hnd, by rw [r3, r2]; exact hdt, ?_⟩
    intro p hp
    have hndk2 : (s2.data.map Prod.fst).Nodup := by
      rw [r4, hkeys]
      exact hnd
    have hget2 : dictGet s2.data p.1 = some p.2 := dictGet_of_mem_nodup s2.data p hp hndk2
    have hmemfst : p.1 ∈ s.data.map Prod.fst := by
      rw [← r4]
      exact List.mem_map.mpr ⟨p, hp, rfl⟩
    have hcmem : p.1 ∈ s.cols := by
      rw [← hkeys]
      exact hmemfst
    rcases hg : dictGet s.data p.1 with _ | l
    · have hs := dictGet_isSome_of_mem s.data p.1 hmemfst
      rw [hg] at hs
      exact absurd hs (by simp)
    · have hlenl : l.length = s.rows := by
        rcases hfind : s.data.find? (fun q => q.1 = p.1) with _ | pr
        · rw [dictGet, hfind] at hg
          exact Option.noConfusion hg
        · rw [dictGet, hfind] at hg
          have hprl : pr.2 = l := by
            injection hg
          rw [← hprl]
          exact hlens pr (List.mem_of_find?_eq_some hfind)
      have h5 := r5 p.1
      rw [hget2, hg] at h5
      simp only [Option.map_some'] at h5
      injection h5 with h5
      rw [r1, hcover p.1 hcmem] at *
      omega


theorem dictGet_length_of_rows (s : Star)
    (hlens : ∀ p ∈ s.data, p.2.length = s.rows) {k : String} {l : List Val}
    (hg : dictGet s.data k = some l) : l.length = s.rows := by
  rcases hfind : s.data.find? (fun q => q.1 = k) with _ | pr
  · rw [dictGet, hfind] at hg
    exact Option.noConfusion hg
  · rw [dictGet, hfind] at hg
    have hprl : pr.2 = l := by
      injection hg
    rw [← hprl]
    exact hlens pr (List.mem_of_find?_eq_some hfind)

theorem del_column_wfLen (s : Star) (key : String) (hwf : wfLen s) :
    wfLen (s.del_column key) := by
  obtain ⟨hkeys, hnd, hdt, hlens⟩ := hwf
  rw [Star.del_column]
  by_cases hc : s.is_column key = true
  · rw [if_pos hc]
    rcases hidx : listIndex s.cols key with _ | idx
    · exact ⟨hkeys, hnd, hdt, hlens⟩
    · have hi := listIndex_lt_length hidx
      refine ⟨?_, ?_, ?_, ?_⟩
      · show (dictDel s.data key).map Prod.fst = s.cols.eraseIdx idx
        rw [dictDel_map_fst_of_listIndex s.data key (by rw [hkeys]; exact hidx), hkeys]
      · show (s.cols.eraseIdx idx).Nodup
        exact List.Nodup.sublist (List.eraseIdx_sublist s.cols idx) hnd
      · show (s.dtypes.eraseIdx idx).length = (s.cols.eraseIdx idx).length
        have hi2 : idx < s.dtypes.length := by omega
        rw [List.length_eraseIdx, List.length_eraseIdx, if_pos hi2, if_pos hi]
        omega
      · intro p hp
        exact hlens p (mem_dictDel s.data key p hp)
  · rw [if_neg hc]
    exact ⟨hkeys, hnd, hdt, hlens⟩

theorem keepRows_length (lut : List Bool) (l : List Val) (h : l.length = lut.length) :
    (keepRows lut l).length = lut.count false := by
  rw [keepRows_eq_filter lut l h, List.length_map, count_false_eq_filter_length]

theorem del_rows_wfLen (s : Star) (ids : List Int) (hwf : wfLen s) :
    wfLen (s.del_rows ids) := by
  obtain ⟨hkeys, hnd, hdt, hlens⟩ := hwf
  by_cases hids : ids.length = 0
  · have hnil : ids = [] := List.length_eq_zero.mp hids
    subst hnil
    have hdel : s.del_rows [] = s := by
      rw [Star.del_rows, if_pos (show ([] : List Int).length = 0 from rfl)]
    rw [hdel]
    exact ⟨hkeys, hnd, hdt, hlens⟩
  · rw [Star.del_rows, if_neg hids]
    have hlutlen : (ids.foldl npSetLut (List.replicate s.rows false)).length = s.rows := by
      rw [foldl_npSetLut_length, List.length_replicate]
    refine ⟨?_, hnd, hdt, ?_⟩
    · show (s.data.map _).map Prod.fst = s.cols
      rw [List.map_map]
      have hcomp : (Prod.fst ∘ fun p : String × List Val =>
          (p.1, keepRows (ids.foldl npSetLut (List.replicate s.rows false)) p.2)) =
          Prod.fst := by
        funext p
        rfl
      rw [hcomp, hkeys]
    · intro p hp
      rcases List.mem_map.mp hp with ⟨q, hq, rfl⟩
      show (keepRows _ q.2).length = _
      rw [keepRows_length _ q.2 (by rw [hlutlen]; exact hlens q hq)]

instance wfLen_decidable (s : Star) : Decidable (wfLen s) := by
  unfold wfLen
  infer_instance

/-- A structural-mutation operation on a table (the four operations the
invariant claim quantifies over). -/
inductive Op : Type
  | opAddRow (kwargs : List (String × Val))
  | opDelRows (ids : List Int)
  | opAddColumn (key : String) (val : AVal) (no_parse : Bool)
  | opDelColumn (key : String)
deriving DecidableEq

def applyOp (s : Star) : Op → Star × Option PyErr
  | .opAddRow kwargs => s.add_row kwargs
  | .opDelRows ids => (s.del_rows ids, none)
  | .opAddColumn key val np2 => s.add_column key val np2
  | .opDelColumn key => (s.del_column key, none)

/-- Run a sequence of operations, succeeding only if every single one does. -/
def runOps : Star → List Op → Option Star
  | s, [] => some s
  | s, op :: ops =>
    match applyOp s op with
    | (s2, none) => runOps s2 ops
    | (_, some _) => none

/-- Python keyword arguments always carry distinct keys; the kwargs list of a
modelled `add_row` call must reflect that. -/
def opKwargsNodup : Op → Prop
  | .opAddRow kwargs => (kwargs.map Prod.fst).Nodup
  | _ => True

instance opKwargsNodup_decidable : DecidablePred opKwargsNodup := by
  intro op
  match op with
  | .opAddRow kwargs =>
    exact (inferInstance : Decidable ((kwargs.map Prod.fst).Nodup))
  | .opDelRows ids => exact isTrue trivial
  | .opAddColumn key val np2 => exact isTrue trivial
  | .opDelColumn key => exact isTrue trivial

theorem applyOp_wfLen (s : Star) (op : Op) (s2 : Star) (h : applyOp s op = (s2, none))
    (hwf : wfLen s) (hop : opKwargsNodup op) : wfLen s2 := by
  match op with
  | .opAddRow kwargs => exact add_row_wfLen s kwargs s2 h hwf hop
  | .opDelRows ids =>
    injection h with h1 _
    rw [← h1]
    exact del_rows_wfLen s ids hwf
  | .opAddColumn key val np2 => exact (add_column_wfLen s key val np2 s2 h hwf).1
  | .opDelColumn key =>
    injection h with h1 _
    rw [← h1]
    exact del_column_wfLen s key hwf

/-- C2: starting from any well-formed table, after any sequence of successful
`add_row` / `del_rows` / `add_column` / `del_column` operations, every
column's data sequence has length exactly `row_count`. -/
theorem ops_preserve_column_lengths (ops : List Op) :
    ∀ (s t : Star), wfLen s → (∀ op ∈ ops, opKwargsNodup op) → runOps s ops = some t →
      ∀ k ∈ t.cols, ∃ l, dictGet t.data k = some l ∧ l.length = t.rows := by
  induction ops with
  | nil =>
    intro s t hwf _ hrun k hk
    rw [runOps] at hrun
    injection hrun with h1
    subst h1
    obtain ⟨hkeys, _, _, hlens⟩ := hwf
    have hmem : k ∈ s.data.map Prod.fst := by
      rw [hkeys]
      exact hk
    rcases hg : dictGet s.data k with _ | l
    · have hs := dictGet_isSome_of_mem s.data k hmem
      rw [hg] at hs
      exact absurd hs (by simp)
    · exact ⟨l, rfl, dictGet_length_of_rows s hlens hg⟩
  | cons op ops ih =>
    intro s t hwf hops hrun
    rw [runOps] at hrun
    rcases happ : applyOp s op with ⟨s2, e⟩
    rw [happ] at hrun
    match e with
    | some err => exact Option.noConfusion hrun
    | none =>
      exact ih s2 t (applyOp_wfLen s op s2 happ hwf (hops op (by simp)))
        (fun o ho => hops o (by simp [ho])) hrun

/-- A mixed operation sequence for the C2 witness. -/
def c2Ops : List Op :=
  [.opAddColumn "_rlnImageName" (.aInt (-1)) false,
   .opAddRow [("_rlnImageName", .vStr "a")],
   .opAddRow [("_rlnImageName", .vStr "b")],
   .opAddColumn "_rlnCoordinateX" (.aFloat 2) false,
   .opDelRows [0],
   .opDelColumn "_rlnImageName",
   .opAddRow [("_rlnCoordinateX", .vInt 7)]]

/-- The resulting table of the C2 witness run. -/
def c2T : Star :=
  match runOps Star.init c2Ops with
  | some t => t
  | none => Star.init

theorem ops_preserve_column_lengths_w :
    "_rlnCoordinateX" ∈ c2T.cols ∧
    ∃ l, dictGet c2T.data "_rlnCoordinateX" = some l ∧ l.length = c2T.rows :=
  ⟨by decide,
    ops_preserve_column_lengths c2Ops Star.init c2T (by decide) (by decide) (by decide)
      "_rlnCoordinateX" (by decide)⟩


/-! ### Claim C8: `split_class` -/

/-- The registry type of a column as `add_column` resolves it. -/
def dtypeOf (k : String) : PyType := (rc_get_dtype k).getD .pyFloat

/-- Whether a runtime value already has the shape of its column type. -/
def typedCellB : PyType → Val → Bool
  | .pyStr, .vStr _ => true
  | .pyInt, .vInt _ => true
  | .pyFloat, .vFloat _ => true
  | _, _ => false

/-- Full well-formedness: structurally well-formed, registry-valid columns,
registry-resolved dtypes and cells matching their column type. -/
def wfTyped (s : Star) : Prop :=
  wfLen s ∧ (∀ k ∈ s.cols, rc_is_valid k = true) ∧
    s.dtypes = s.cols.map dtypeOf ∧
    ∀ p ∈ s.data, ∀ v ∈ p.2, typedCellB (dtypeOf p.1) v = true

instance wfTyped_decidable (s : Star) : Decidable (wfTyped s) := by
  unfold wfTyped
  infer_instance

theorem pyCast_typed (t : PyType) (v : Val) (h : typedCellB t v = true) :
    pyCast t v = .ok v := by
  match t, v with
  | .pyStr, .vStr s => rfl
  | .pyInt, .vInt n => rfl
  | .pyFloat, .vFloat q => rfl
  | .pyStr, .vInt n => exact Bool.noConfusion h
  | .pyStr, .vFloat q => exact Bool.noConfusion h
  | .pyInt, .vStr s => exact Bool.noConfusion h
  | .pyInt, .vFloat q => exact Bool.noConfusion h
  | .pyFloat, .vStr s => exact Bool.noConfusion h
  | .pyFloat, .vInt n => exact Bool.noConfusion h

theorem get_element_of_wf (s : Star) (hkeys : s.data.map Prod.fst = s.cols)
    (hlens : ∀ p ∈ s.data, p.2.length = s.rows) {k : String} (hk : k ∈ s.cols)
    {r : Nat} (hr : r < s.rows) : s.get_element k r = .ok (cellAt s k r) := by
  have hmem : k ∈ s.data.map Prod.fst := by
    rw [hkeys]
    exact hk
  rcases hg : dictGet s.data k with _ | l
  · have hs := dictGet_isSome_of_mem s.data k hmem
    rw [hg] at hs
    exact absurd hs (by simp)
  · have hlen : l.length = s.rows := dictGet_length_of_rows s hlens hg
    have hget : l.get? r = some (l.getD r (.vStr "")) := by
      rw [List.getD_eq_getElem?_getD, List.get?_eq_getElem?]
      rcases hx : l[r]? with _ | v
      · rw [List.getElem?_eq_none_iff] at hx
        omega
      · rfl
    simp only [Star.get_element, hg, cellAt, Option.getD_some, List.getD_eq_getElem?_getD,
      List.get?_eq_getElem?]
    rcases hx : l[r]? with _ | v
    · rw [List.getElem?_eq_none_iff] at hx
      omega
    · rfl

theorem cellAt_mem (s : Star) {k : String} {l : List Val}
    (hg : dictGet s.data k = some l) {r : Nat} (hr : r < l.length) :
    cellAt s k r ∈ l := by
  rw [cellAt, hg]
  simp only [Option.getD_some]
  rw [List.getD_eq_getElem?_getD, List.getElem?_eq_getElem hr]
  exact List.getElem_mem hr

theorem listIndex_map_getD {α β : Type} [DecidableEq α] (l : List α) (f : α → β)
    {k : α} {i : Nat} (h : listIndex l k = some i) (d : β) :
    (l.map f).getD i d = f k := by
  induction l generalizing i with
  | nil => simp [listIndex] at h
  | cons x xs ih =>
    by_cases hx : x = k
    · simp [listIndex, hx] at h
      subst h
      simp [hx]
    · simp [listIndex, hx] at h
      obtain ⟨j, hj, rfl⟩ := h
      simpa using ih hj

theorem get_column_type_of_wf (s : Star) (hdt : s.dtypes = s.cols.map dtypeOf)
    {k : String} (hk : k ∈ s.cols) : s.get_column_type k = some (dtypeOf k) := by
  rcases hidx : listIndex s.cols k with _ | i
  · exact absurd hk ((listIndex_eq_none_iff s.cols k).mp hidx)
  · rw [Star.get_column_type, hidx, hdt]
    simp only [Option.map_some']
    rw [listIndex_map_getD s.cols dtypeOf hidx]

theorem foldl_dictAppend_get (kwargs : List (String × Val)) :
    ∀ (d : List (String × List Val)) (k : String),
      dictGet (kwargs.foldl (fun d2 kv => dictAppend d2 kv.1 kv.2) d) k =
        (dictGet d k).map (fun l => l ++ (kwargs.filter (fun kv => kv.1 = k)).map Prod.snd) := by
  induction kwargs with
  | nil =>
    intro d k
    simp
  | cons kv rest ih =>
    intro d k
    simp only [List.foldl_cons]
    rw [ih (dictAppend d kv.1 kv.2) k, dictGet_dictAppend]
    by_cases hk : kv.1 = k
    · subst hk
      rw [if_pos rfl, List.filter_cons, if_pos (by simp)]
      rcases hg : dictGet d kv.1 with _ | l
      · rfl
      · simp
    · rw [if_neg (fun hc => hk hc.symm), List.filter_cons, if_neg (by simp [hk])]

theorem map_pair_filter {β : Type} (cols : List String) (f : String → β) (k : String)
    (hnd : cols.Nodup) :
    ((cols.map (fun k2 => (k2, f k2))).filter (fun kv => kv.1 = k)).map Prod.snd =
      if k ∈ cols then [f k] else [] := by
  induction cols with
  | nil => simp
  | cons c cs ih =>
    rw [List.map_cons, List.filter_cons]
    have ihs := ih (List.nodup_cons.mp hnd).2
    by_cases hc : c = k
    · subst hc
      rw [if_pos (by simp)]
      have hnot : c ∉ cs := (List.nodup_cons.mp hnd).1
      rw [List.map_cons, ihs, if_neg hnot, if_pos (by simp)]
    · rw [if_neg (by simpa using hc), ihs]
      by_cases hkcs : k ∈ cs
      · rw [if_pos hkcs, if_pos (by simp [hkcs])]
      · rw [if_neg hkcs, if_neg (by simp [Ne.symm hc, hkcs])]

theorem alist_ext (d1 : List (String × List Val)) :
    ∀ (d2 : List (String × List Val)), d1.map Prod.fst = d2.map Prod.fst →
      (d1.map Prod.fst).Nodup → (∀ k, dictGet d1 k = dictGet d2 k) → d1 = d2 := by
  induction d1 with
  | nil =>
    intro d2 hf _ _
    cases d2 with
    | nil => rfl
    | cons q qs => simp at hf
  | cons p ps ih =>
    intro d2 hf hnd hget
    cases d2 with
    | nil => simp at hf
    | cons q qs =>
      simp only [List.map_cons, List.cons.injEq] at hf
      have hp2 : p.2 = q.2 := by
        have h1 := hget p.1
        rw [dictGet_cons, dictGet_cons, if_pos rfl, if_pos hf.1.symm] at h1
        injection h1
      have hrest : ps = qs := by
        apply ih qs hf.2 (by
          rw [List.map_cons] at hnd
          exact (List.nodup_cons.mp hnd).2)
        intro k
        by_cases hk : p.1 = k
        · subst hk
          have hnot : p.1 ∉ ps.map Prod.fst := by
            rw [List.map_cons] at hnd
            exact (List.nodup_cons.mp hnd).1
          rw [dictGet_of_notMem ps p.1 hnot, dictGet_of_notMem qs p.1 (by rw [← hf.2]; exact hnot)]
        · have h1 := hget k
          rw [dictGet_cons, dictGet_cons, if_neg hk, if_neg (by rw [← hf.1]; exact hk)] at h1
          exact h1
      calc p :: ps = (p.1, p.2) :: ps := rfl
        _ = (q.1, q.2) :: qs := by rw [hf.1, hp2, hrest]
        _ = q :: qs := rfl


theorem addColsE_fresh (keys : List String) :
    ∀ (st : Star), st.rows = 0 → (∀ k ∈ keys, rc_is_valid k = true) →
      (∀ k ∈ keys, k ∉ st.cols) → keys.Nodup → st.data.map Prod.fst = st.cols →
      addColsE st keys = .ok { st with
        data := st.data ++ keys.map (fun k => (k, [])),
        cols := st.cols ++ keys,
        dtypes := st.dtypes ++ keys.map dtypeOf } := by
  induction keys with
  | nil =>
    intro st _ _ _ _ _
    show Except.ok st = _
    simp
  | cons k ks ih =>
    intro st hrows hvalid hnotin hnd hkeys
    have hvk : rc_is_valid k = true := hvalid k (by simp)
    have hvals : addColumnVals st (dtypeOf k) (.aInt (-1)) = .ok [] := by
      rw [addColumnVals, if_pos hrows]
    have hidx : listIndex st.cols k = none :=
      (listIndex_eq_none_iff st.cols k).mpr (hnotin k (by simp))
    have hstep : st.add_column k (.aInt (-1)) false =
        ({ st with data := dictSet st.data k [], cols := st.cols ++ [k], dtypes := st.dtypes ++ [dtypeOf k] }, none) := by
      rw [Star.add_column, if_pos (by simp [hvk])]
      show (match addColumnVals st (dtypeOf k) (.aInt (-1)) with
        | .error e => (st, some e)
        | .ok row => _) = _
      rw [hvals, hidx]
      rfl
    have hdset : dictSet st.data k [] = st.data ++ [(k, [])] := by
      apply dictSet_of_notMem
      rw [hkeys]
      exact hnotin k (by simp)
    have hred : addColsE st (k :: ks) =
        addColsE { st with data := dictSet st.data k [], cols := st.cols ++ [k], dtypes := st.dtypes ++ [dtypeOf k] } ks := by
      rw [addColsE, hstep]
    have ihres := ih { st with data := dictSet st.data k [], cols := st.cols ++ [k], dtypes := st.dtypes ++ [dtypeOf k] }
      hrows (fun k2 hk2 => hvalid k2 (by simp [hk2]))
      (by
        intro k2 hk2
        show k2 ∉ st.cols ++ [k]
        intro hc
        rcases List.mem_append.mp hc with h1 | h1
        · exact hnotin k2 (by simp [hk2]) h1
        · have : k2 = k := by simpa using h1
          subst this
          exact (List.nodup_cons.mp hnd).1 hk2)
      (List.nodup_cons.mp hnd).2
      (by
        show (dictSet st.data k []).map Prod.fst = st.cols ++ [k]
        rw [hdset, List.map_append, hkeys]
        rfl)
    rw [hred, ihres]
    simp only [Except.ok.injEq]
    rw [hdset]
    simp [List.append_assoc]

theorem addRowLoop_exact (kwargs : List (String × Val)) :
    ∀ (st : Star), (∀ kv ∈ kwargs, st.is_column kv.1 = true) →
      (∀ kv ∈ kwargs, ∃ dt, st.get_column_type kv.1 = some dt ∧ pyCast dt kv.2 = .ok kv.2) →
      Star.addRowLoop st kwargs =
        ({ st with data := kwargs.foldl (fun d kv => dictAppend d kv.1 kv.2) st.data, rows := st.rows + 1 }, none) := by
  induction kwargs with
  | nil =>
    intro st _ _
    rfl
  | cons kv rest ih =>
    intro st hcol hcast
    obtain ⟨k, v⟩ := kv
    obtain ⟨dt, hdt, hct⟩ := hcast (k, v) (by simp)
    have hc := hcol (k, v) (by simp)
    show Star.addRowLoop st ((k, v) :: rest) = _
    rw [Star.addRowLoop]
    simp only [hc, if_true, hdt, hct]
    have ihres := ih { st with data := dictAppend st.data k v }
      (fun kv2 hkv2 => hcol kv2 (by simp [hkv2]))
      (fun kv2 hkv2 => hcast kv2 (by simp [hkv2]))
    rw [ihres]
    rfl

/-- The table `split_class` builds for one class: the same columns and dtypes
over exactly the selected rows of the source, with a fresh default preamble. -/
def classStarAt (s : Star) (rowsIdx : List Nat) : Star :=
  { header_1 := Star.init.header_1
    data := s.cols.map (fun k => (k, rowsIdx.map (fun r => cellAt s k r)))
    dtypes := s.cols.map dtypeOf
    rows := rowsIdx.length
    cols := s.cols }

theorem add_row_classStar (s : Star) (hwf : wfTyped s) (pre : List Nat) (r : Nat)
    (hr : r < s.rows) :
    (classStarAt s pre).add_row (s.cols.map (fun k => (k, cellAt s k r))) =
      (classStarAt s (pre ++ [r]), none) := by
  obtain ⟨⟨hkeys, hnd, hdtl, hlens⟩, hvalid, hdt, htyped⟩ := hwf
  set st := classStarAt s pre with hst
  have hstcols : st.cols = s.cols := rfl
  have hstdt : st.dtypes = s.cols.map dtypeOf := rfl
  have hcast : ∀ k ∈ s.cols, pyCast (dtypeOf k) (cellAt s k r) = .ok (cellAt s k r) := by
    intro k hk
    have hmem : k ∈ s.data.map Prod.fst := by
      rw [hkeys]
      exact hk
    rcases hg : dictGet s.data k with _ | l
    · have hs := dictGet_isSome_of_mem s.data k hmem
      rw [hg] at hs
      exact absurd hs (by simp)
    · have hlenl : l.length = s.rows := dictGet_length_of_rows s hlens hg
      have hcm : cellAt s k r ∈ l := cellAt_mem s hg (by omega)
      apply pyCast_typed
      rcases hfind : s.data.find? (fun q => q.1 = k) with _ | pr
      · rw [dictGet, hfind] at hg
        exact Option.noConfusion hg
      · rw [dictGet, hfind] at hg
        have hprk : pr.1 = k := by simpa using List.find?_some hfind
        have hprl : pr.2 = l := by injection hg
        have := htyped pr (List.mem_of_find?_eq_some hfind) (cellAt s k r) (by rw [hprl]; exact hcm)
        rw [hprk] at this
        exact this
  rw [Star.add_row]
  rw [if_neg (by
    show ¬ ((s.cols.map (fun k => (k, cellAt s k r))).length ≠ st.get_ncols)
    rw [List.length_map]
    show ¬ (s.cols.length ≠ st.cols.length)
    rw [hstcols]
    omega)]
  rw [addRowLoop_exact (s.cols.map (fun k => (k, cellAt s k r))) st
    (by
      intro kv hkv
      rcases List.mem_map.mp hkv with ⟨k, hk, rfl⟩
      show st.is_column k = true
      rw [Star.is_column, hstcols]
      exact List.elem_iff.mpr hk
      )
    (by
      intro kv hkv
      rcases List.mem_map.mp hkv with ⟨k, hk, rfl⟩
      refine ⟨dtypeOf k, ?_, hcast k hk⟩
      have := get_column_type_of_wf st (by rw [hstdt, hstcols]) (by rw [hstcols]; exact hk)
      exact this)]
  simp only [Prod.mk.injEq, and_true]
  -- remaining: the updated record equals classStarAt s (pre ++ [r])
  have hdata : (s.cols.map (fun k => (k, cellAt s k r))).foldl
      (fun d kv => dictAppend d kv.1 kv.2) st.data =
      s.cols.map (fun k => (k, (pre ++ [r]).map (fun r2 => cellAt s k r2))) := by
    apply alist_ext
    · have h1 : ∀ (kwargs : List (String × Val)) (d : List (String × List Val)),
          (kwargs.foldl (fun d2 kv => dictAppend d2 kv.1 kv.2) d).map Prod.fst =
            d.map Prod.fst := by
        intro kwargs
        induction kwargs with
        | nil => intro d; rfl
        | cons kv2 rest2 ih2 =>
          intro d
          simp only [List.foldl_cons]
          rw [ih2, dictAppend_map_fst]
      rw [h1]
      show st.data.map Prod.fst = _
      have : st.data.map Prod.fst = s.cols := by
        show (s.cols.map _).map Prod.fst = s.cols
        rw [List.map_map]
        have hcomp : (Prod.fst ∘ fun k => (k, pre.map (fun r2 => cellAt s k r2))) = id := by
          funext k
          rfl
        rw [hcomp, List.map_id]
      rw [this]
      have hcomp : (Prod.fst ∘ fun k => (k, (pre ++ [r]).map (fun r2 => cellAt s k r2))) = id := by
        funext k
        rfl
      rw [List.map_map, hcomp, List.map_id]
    · have h1 : ∀ (kwargs : List (String × Val)) (d : List (String × List Val)),
          (kwargs.foldl (fun d2 kv => dictAppend d2 kv.1 kv.2) d).map Prod.fst =
            d.map Prod.fst := by
        intro kwargs
        induction kwargs with
        | nil => intro d; rfl
        | cons kv2 rest2 ih2 =>
          intro d
          simp only [List.foldl_cons]
          rw [ih2, dictAppend_map_fst]
      rw [h1]
      have : st.data.map Prod.fst = s.cols := by
        show (s.cols.map _).map Prod.fst = s.cols
        rw [List.map_map]
        have hcomp : (Prod.fst ∘ fun k => (k, pre.map (fun r2 => cellAt s k r2))) = id := by
          funext k
          rfl
        rw [hcomp, List.map_id]
      rw [this]
      exact hnd
    · intro k
      rw [foldl_dictAppend_get]
      have hmf : ((s.cols.map (fun k2 => (k2, cellAt s k2 r))).filter
          (fun kv => kv.1 = k)).map Prod.snd =
          if k ∈ s.cols then [cellAt s k r] else [] :=
        map_pair_filter s.cols (fun k2 => cellAt s k2 r) k hnd
      by_cases hk : k ∈ s.cols
      · have hget1 : dictGet st.data k = some (pre.map (fun r2 => cellAt s k r2)) := by
          show dictGet (s.cols.map _) k = _
          have h2 : ∀ (cols : List String) (f : String → List Val), k ∈ cols → cols.Nodup →
              dictGet (cols.map (fun k2 => (k2, f k2))) k = some (f k) := by
            intro cols f hkc hndc
            induction cols with
            | nil => simp at hkc
            | cons c cs ihc =>
              rw [List.map_cons, dictGet_cons]
              by_cases hck : c = k
              · rw [if_pos hck, hck]
              · rw [if_neg hck]
                exact ihc (by
                  rcases List.mem_cons.mp hkc with h3 | h3
                  · exact absurd h3.symm hck
                  · exact h3) (List.nodup_cons.mp hndc).2
          exact h2 s.cols _ hk hnd
        have hget2 : dictGet (s.cols.map (fun k2 => (k2, (pre ++ [r]).map (fun r2 => cellAt s k2 r2)))) k =
            some ((pre ++ [r]).map (fun r2 => cellAt s k r2)) := by
          have h2 : ∀ (cols : List String) (f : String → List Val), k ∈ cols → cols.Nodup →
              dictGet (cols.map (fun k2 => (k2, f k2))) k = some (f k) := by
            intro cols f hkc hndc
            induction cols with
            | nil => simp at hkc
            | cons c cs ihc =>
              rw [List.map_cons, dictGet_cons]
              by_cases hck : c = k
              · rw [if_pos hck, hck]
              · rw [if_neg hck]
                exact ihc (by
                  rcases List.mem_cons.mp hkc with h3 | h3
                  · exact absurd h3.symm hck
                  · exact h3) (List.nodup_cons.mp hndc).2
          exact h2 s.cols _ hk hnd
        rw [hget1, hget2, hmf, if_pos hk]
        simp
      · have hget1 : dictGet st.data k = none := by
          apply dictGet_of_notMem
          show k ∉ (s.cols.map _).map Prod.fst
          rw [List.map_map]
          have hcomp : (Prod.fst ∘ fun k2 => (k2, pre.map (fun r2 => cellAt s k2 r2))) = id := by
            funext k2
            rfl
          rw [hcomp, List.map_id]
          exact hk
        have hget2 : dictGet (s.cols.map (fun k2 => (k2, (pre ++ [r]).map (fun r2 => cellAt s k2 r2)))) k = none := by
          apply dictGet_of_notMem
          rw [List.map_map]
          have hcomp : (Prod.fst ∘ fun k2 => (k2, (pre ++ [r]).map (fun r2 => cellAt s k2 r2))) = id := by
            funext k2
            rfl
          rw [hcomp, List.map_id]
          exact hk
        rw [hget1, hget2]
        rfl
  rw [show ({ st with data := (s.cols.map (fun k => (k, cellAt s k r))).foldl (fun d kv => dictAppend d kv.1 kv.2) st.data, rows := st.rows + 1 } : Star) = { st with data := s.cols.map (fun k => (k, (pre ++ [r]).map (fun r2 => cellAt s k r2))), rows := st.rows + 1 } from by rw [hdata]]
  show ({ header_1 := Star.init.header_1, data := _, dtypes := s.cols.map dtypeOf, rows := pre.length + 1, cols := s.cols } : Star) = _
  rw [classStarAt]
  simp [List.length_append]


theorem buildKwargs_classStar (s : Star) (hkeys : s.data.map Prod.fst = s.cols)
    (hlens : ∀ p ∈ s.data, p.2.length = s.rows) (r : Nat) (hr : r < s.rows) :
    buildKwargs s s.cols r = .ok (s.cols.map (fun k => (k, cellAt s k r))) := by
  apply mapME_ok_map
  intro k hk
  rw [get_element_of_wf s hkeys hlens hk hr]
  rfl

theorem addRowsE_spec (s : Star) (hwf : wfTyped s) :
    ∀ (rowsIdx pre : List Nat), (∀ r ∈ rowsIdx, r < s.rows) →
      addRowsE s (classStarAt s pre) s.cols rowsIdx = .ok (classStarAt s (pre ++ rowsIdx)) := by
  intro rowsIdx
  induction rowsIdx with
  | nil =>
    intro pre _
    show Except.ok _ = _
    rw [List.append_nil]
  | cons r rs ih =>
    intro pre hlt
    have hr : r < s.rows := hlt r (by simp)
    obtain ⟨⟨hkeys, hnd, hdtl, hlens⟩, hvalid, hdt, htyped⟩ := hwf
    have hkw := buildKwargs_classStar s hkeys hlens r hr
    have hstep := add_row_classStar s ⟨⟨hkeys, hnd, hdtl, hlens⟩, hvalid, hdt, htyped⟩ pre r hr
    have hred : addRowsE s (classStarAt s pre) s.cols (r :: rs) =
        addRowsE s (classStarAt s (pre ++ [r])) s.cols rs := by
      rw [addRowsE, hkw]
      show (match (classStarAt s pre).add_row (s.cols.map (fun k => (k, cellAt s k r))) with
        | (st2, none) => addRowsE s st2 s.cols rs
        | (_, some e) => .error e) = _
      rw [hstep]
    rw [hred, ih (pre ++ [r]) (fun r2 hr2 => hlt r2 (by simp [hr2]))]
    rw [List.append_assoc]
    rfl

/-- The ascending row positions of one class id (`np.where(classes == cid)`). -/
def classRows (classes : List Int) (cid : Int) : List Nat :=
  (List.range classes.length).filter (fun r2 => classes.getD r2 0 = cid)

theorem splitClassGroups_spec (s : Star) (hwf : wfTyped s) (classes : List Int)
    (hcl : classes.length = s.rows) :
    ∀ cids, splitClassGroups s classes s.cols cids =
      .ok (cids.map (fun cid => classStarAt s (classRows classes cid))) := by
  intro cids
  induction cids with
  | nil => rfl
  | cons cid rest ih =>
    obtain ⟨⟨hkeys, hnd, hdtl, hlens⟩, hvalid, hdt, htyped⟩ := hwf
    have hcols0 : addColsE Star.init s.cols = .ok (classStarAt s []) := by
      have h := addColsE_fresh s.cols Star.init rfl hvalid (by simp [Star.init]) hnd rfl
      rw [h]
      show Except.ok _ = _
      rw [classStarAt]
      simp [Star.init]
    have hrows : addRowsE s (classStarAt s []) s.cols (classRows classes cid) =
        .ok (classStarAt s (classRows classes cid)) := by
      have h := addRowsE_spec s ⟨⟨hkeys, hnd, hdtl, hlens⟩, hvalid, hdt, htyped⟩
        (classRows classes cid) [] (by
          intro r2 hr2
          rw [classRows] at hr2
          have := List.mem_range.mp (List.mem_of_mem_filter hr2)
          omega)
      simpa using h
    have hrows2 : addRowsE s (classStarAt s []) s.cols
        ((List.range classes.length).filter (fun r2 => classes.getD r2 0 = cid)) =
        .ok (classStarAt s (classRows classes cid)) := hrows
    simp only [splitClassGroups, hcols0, except_bind_ok, hrows2, ih, List.map_cons]


/-- C8: `split_class` fails with the missing-column error when the class-id
column is absent; otherwise it returns one new table per distinct class id,
each with the same columns and dtypes, holding exactly the rows of that class
in encounter order (so each column of each part has exactly that part's row
count). -/
theorem split_class_partitions (s : Star) (hwf : wfTyped s) :
    (s.has_column "_rlnClassNumber" = false →
      s.split_class = .error (.pySegInputError "split_class (Star)")) ∧
    (∀ classesV, dictGet s.data "_rlnClassNumber" = some classesV →
      s.split_class = .ok ((dedupFirst (classesV.map valToInt)).map
        (fun cid => classStarAt s (classRows (classesV.map valToInt) cid)))) := by
  constructor
  · intro h
    rw [Star.split_class, if_pos (by rw [h]; rfl)]
  · intro classesV hg
    have hmem : "_rlnClassNumber" ∈ s.data.map Prod.fst := by
      rcases hfind : s.data.find? (fun q => q.1 = "_rlnClassNumber") with _ | pr
      · rw [dictGet, hfind] at hg
        exact Option.noConfusion hg
      · have hpr := List.find?_some hfind
        have hprm := List.mem_of_find?_eq_some hfind
        have hpe : pr.1 = "_rlnClassNumber" := by simpa using hpr
        exact hpe ▸ List.mem_map.mpr ⟨pr, hprm, rfl⟩
    obtain ⟨⟨hkeys, hnd, hdtl, hlens⟩, hvalid, hdt, htyped⟩ := hwf
    have hcolmem : "_rlnClassNumber" ∈ s.cols := by
      rw [← hkeys]
      exact hmem
    have hcol : s.has_column "_rlnClassNumber" = true := by
      rw [Star.has_column]
      simpa using hcolmem
    have hcol2 : s.is_column "_rlnClassNumber" = true := hcol
    have hcdata : s.get_column_data "_rlnClassNumber" = some classesV := by
      rw [Star.get_column_data, if_pos hcol2, hg]
      rfl
    have hclen : classesV.length = s.rows := dictGet_length_of_rows s hlens hg
    have hspec := splitClassGroups_spec s ⟨⟨hkeys, hnd, hdtl, hlens⟩, hvalid, hdt, htyped⟩
      (classesV.map valToInt) (by rw [List.length_map]; exact hclen)
      (dedupFirst (classesV.map valToInt))
    simp only [Star.split_class, hcol, Bool.not_true, Bool.false_eq_true, if_false, hcdata,
      Option.getD_some]
    exact hspec

/-- A table with class ids `[1, 1, 2]` for the C8 witness. -/
def c8Table : Star :=
  ((((Star.init.add_column "_rlnClassNumber" (.aInt (-1)) false).1.add_row
      [("_rlnClassNumber", .vInt 1)]).1.add_row [("_rlnClassNumber", .vInt 1)]).1.add_row
      [("_rlnClassNumber", .vInt 2)]).1

theorem split_class_partitions_w :
    c8Table.split_class = .ok [classStarAt c8Table [0, 1], classStarAt c8Table [2]] ∧
    (classStarAt c8Table [0, 1]).rows = 2 ∧ (classStarAt c8Table [2]).rows = 1 ∧
    wfLen (classStarAt c8Table [0, 1]) ∧ wfLen (classStarAt c8Table [2]) := by
  have h := (split_class_partitions c8Table (by decide)).2 [.vInt 1, .vInt 1, .vInt 2]
    (by decide)
  refine ⟨?_, rfl, rfl, by decide, by decide⟩
  rw [h]
  decide


/-! ### Claim C5: `particle_group` occupancy -/

/-- LUT lookup as `particle_group` uses it on an in-range id. -/
def lutAt (lut : List Int) (g : Int) : Int := lut.getD g.toNat 0

theorem mem_dedupFirstAux (l : List Int) (seen : List Int) (x : Int) :
    x ∈ dedupFirstAux l seen ↔ x ∈ l ∧ x ∉ seen := by
  induction l generalizing seen with
  | nil => simp [dedupFirstAux]
  | cons y ys ih =>
    by_cases hy : y ∈ seen
    · rw [dedupFirstAux, if_pos hy, ih]
      constructor
      · rintro ⟨h1, h2⟩
        exact ⟨List.mem_cons_of_mem y h1, h2⟩
      · rintro ⟨h1, h2⟩
        rcases List.mem_cons.mp h1 with h3 | h3
        · exact absurd (h3 ▸ hy) h2
        · exact ⟨h3, h2⟩
    · rw [dedupFirstAux, if_neg hy]
      constructor
      · intro h
        rcases List.mem_cons.mp h with h3 | h3
        · exact ⟨h3 ▸ List.mem_cons_self y ys, h3 ▸ hy⟩
        · rw [ih] at h3
          refine ⟨List.mem_cons_of_mem y h3.1, fun hc => h3.2 (List.mem_cons_of_mem y hc)⟩
      · rintro ⟨h1, h2⟩
        rcases List.mem_cons.mp h1 with h3 | h3
        · exact h3 ▸ List.mem_cons_self y (dedupFirstAux ys (y :: seen))
        · by_cases hx : x = y
          · exact hx ▸ List.mem_cons_self y (dedupFirstAux ys (y :: seen))
          · refine List.mem_cons_of_mem y ((ih (y :: seen)).mpr ⟨h3, fun hc => ?_⟩)
            rcases List.mem_cons.mp hc with h4 | h4
            · exact hx h4
            · exact h2 h4

theorem mem_dedupFirst (l : List Int) (x : Int) : x ∈ dedupFirst l ↔ x ∈ l := by
  rw [dedupFirst, mem_dedupFirstAux]
  simp

theorem nodup_dedupFirstAux (l : List Int) (seen : List Int) :
    (dedupFirstAux l seen).Nodup := by
  induction l generalizing seen with
  | nil => exact List.nodup_nil
  | cons y ys ih =>
    by_cases hy : y ∈ seen
    · rw [dedupFirstAux, if_pos hy]
      exact ih seen
    · rw [dedupFirstAux, if_neg hy]
      refine List.nodup_cons.mpr ⟨fun hc => ?_, ih (y :: seen)⟩
      exact ((mem_dedupFirstAux ys (y :: seen) y).mp hc).2 (List.mem_cons_self y seen)

theorem nodup_dedupFirst (l : List Int) : (dedupFirst l).Nodup :=
  nodup_dedupFirstAux l []

theorem dedupFirst_ne_nil (l : List Int) (h : l ≠ []) : dedupFirst l ≠ [] := by
  match l with
  | [] => exact absurd rfl h
  | x :: xs =>
    rw [dedupFirst, dedupFirstAux, if_neg (List.not_mem_nil x)]
    exact List.cons_ne_nil x _

theorem dedupFirst_of_nodup (l : List Int) (h : l.Nodup) : dedupFirst l = l := by
  rw [dedupFirst]
  have haux : ∀ seen : List Int, (∀ x ∈ l, x ∉ seen) → dedupFirstAux l seen = l := by
    induction l with
    | nil => intro seen hs; rfl
    | cons y ys ih =>
      intro seen hs
      rw [dedupFirstAux, if_neg (hs y (List.mem_cons_self y ys))]
      have hnd := List.nodup_cons.mp h
      refine congrArg (fun t => y :: t) (ih hnd.2 (y :: seen) ?_)
      intro x hx
      intro hc
      rcases List.mem_cons.mp hc with h3 | h3
      · exact hnd.1 (h3 ▸ hx)
      · exact hs x (List.mem_cons_of_mem y hx) h3
  exact haux [] (by simp)

theorem listGetE_ok {α : Type} (l : List α) (i : Nat) (hi : i < l.length) (d : α) :
    listGetE l i = .ok (l.getD i d) := by
  rw [listGetE, List.getD_eq_getElem l d hi, List.get?_eq_getElem?,
    List.getElem?_eq_getElem hi]

theorem listPopE_ok {α : Type} (l : List α) (i : Nat) (hi : i < l.length) :
    listPopE l i = .ok (l.eraseIdx i) := by
  rw [listPopE, if_pos hi]

theorem pyGet_ok (l : List Int) (i : Int) (h0 : 0 ≤ i) (hi : i.toNat < l.length) :
    pyGet l i = .ok (l.getD i.toNat 0) := by
  rw [pyGet, dif_pos (by omega)]
  rw [List.getD_eq_getElem l 0 hi]
  rfl

theorem pySet_ok {α : Type} (l : List α) (i : Int) (v : α) (h0 : 0 ≤ i)
    (hi : i.toNat < l.length) : pySet l i v = .ok (l.set i.toNat v) := by
  rw [pySet, if_pos (by omega)]

theorem countP_or_disjoint {α : Type} (p q : α → Bool) (l : List α)
    (h : ∀ x ∈ l, ¬(p x = true ∧ q x = true)) :
    l.countP (fun x => p x || q x) = l.countP p + l.countP q := by
  induction l with
  | nil => rfl
  | cons x xs ih =>
    have hxs := ih (fun y hy => h y (List.mem_cons_of_mem x hy))
    rcases hp : p x with _ | _ <;> rcases hq : q x with _ | _
    · simp [List.countP_cons, hp, hq]
      omega
    · simp [List.countP_cons, hp, hq]
      omega
    · simp [List.countP_cons, hp, hq]
      omega
    · exact absurd ⟨hp, hq⟩ (h x (List.mem_cons_self x xs))

theorem argsortNat_perm (l : List Nat) :
    (argsortNat l).Perm (List.range l.length) :=
  List.perm_insertionSort _ _

theorem argsortNat_length (l : List Nat) : (argsortNat l).length = l.length := by
  rw [(argsortNat_perm l).length_eq, List.length_range]

theorem argsortNat_nodup (l : List Nat) : (argsortNat l).Nodup :=
  ((argsortNat_perm l).nodup_iff).mpr (List.nodup_range _)

theorem argsortNat_mem_lt (l : List Nat) (m : Nat) (h : m ∈ argsortNat l) :
    m < l.length :=
  List.mem_range.mp ((argsortNat_perm l).mem_iff.mp h)

theorem argsortNat_sorted (l : List Nat) :
    List.Sorted (fun i j => l.getD i 0 ≤ l.getD j 0) (argsortNat l) := by
  haveI : IsTotal Nat (fun i j => l.getD i 0 ≤ l.getD j 0) :=
    ⟨fun a b => Nat.le_total _ _⟩
  haveI : IsTrans Nat (fun i j => l.getD i 0 ≤ l.getD j 0) :=
    ⟨fun a b c hab hbc => Nat.le_trans hab hbc⟩
  exact List.sorted_insertionSort _ _

theorem argsortNat_head_min (l : List Nat) (m0 : Nat) (rest : List Nat)
    (h : argsortNat l = m0 :: rest) (j : Nat) (hj : j < l.length) :
    l.getD m0 0 ≤ l.getD j 0 := by
  have hjm : j ∈ argsortNat l :=
    (argsortNat_perm l).mem_iff.mpr (List.mem_range.mpr hj)
  rw [h] at hjm
  rcases List.mem_cons.mp hjm with h1 | h1
  · rw [h1]
  · have hs := argsortNat_sorted l
    rw [h, List.sorted_cons] at hs
    exact hs.1 j h1


theorem nodup_getD_ne {α : Type} (l : List α) (hnd : l.Nodup) (i j : Nat)
    (hi : i < l.length) (hj : j < l.length) (hij : i ≠ j) (d : α) :
    l.getD i d ≠ l.getD j d := by
  rw [List.getD_eq_getElem l d hi, List.getD_eq_getElem l d hj]
  intro hc
  exact hij (hnd.getElem_inj_iff.mp hc)

theorem getD_mem_eraseIdx {α : Type} (l : List α) (i j : Nat) (hi : i < l.length)
    (hj : j < l.length) (hij : j ≠ i) (d : α) : l.getD j d ∈ l.eraseIdx i := by
  have hlen : (l.eraseIdx i).length = l.length - 1 := by
    rw [List.length_eraseIdx, if_pos hi]
  by_cases hlt : j < i
  · have hj2 : j < (l.eraseIdx i).length := by omega
    have := List.getElem_eraseIdx l i j hj2
    rw [dif_pos hlt] at this
    rw [List.getD_eq_getElem l d hj, ← this]
    exact List.getElem_mem hj2
  · have hj2 : j - 1 < (l.eraseIdx i).length := by omega
    have := List.getElem_eraseIdx l i (j - 1) hj2
    rw [dif_neg (by omega)] at this
    have hjj : j - 1 + 1 = j := by omega
    rw [List.getD_eq_getElem l d hj]
    have h2 : (l.eraseIdx i)[j - 1] = l[j] := by
      rw [this]
      congr 1
    rw [← h2]
    exact List.getElem_mem hj2

theorem mem_eraseIdx_of_mem_ne {α : Type} [DecidableEq α] (l : List α)
    (hnd : l.Nodup) (x : α) (hx : x ∈ l) (i : Nat) (hi : i < l.length)
    (hne : x ≠ l.getD i x) : x ∈ l.eraseIdx i := by
  obtain ⟨j, hj, hje⟩ := List.mem_iff_getElem.mp hx
  have hji : j ≠ i := by
    intro hc
    subst hc
    exact hne (by rw [List.getD_eq_getElem l x hi, ← hje])
  have := getD_mem_eraseIdx l i j hi hj hji x
  rwa [List.getD_eq_getElem l x hj, hje] at this

theorem not_mem_eraseIdx_self {α : Type} (l : List α) (hnd : l.Nodup) (i : Nat)
    (hi : i < l.length) (d : α) : l.getD i d ∉ l.eraseIdx i := by
  intro hc
  have hlen : (l.eraseIdx i).length = l.length - 1 := by
    rw [List.length_eraseIdx, if_pos hi]
  obtain ⟨j, hj, hje⟩ := List.mem_iff_getElem.mp hc
  have hgj := List.getElem_eraseIdx l i j hj
  by_cases hlt : j < i
  · rw [dif_pos hlt] at hgj
    rw [hgj] at hje
    rw [List.getD_eq_getElem l d hi] at hje
    exact absurd (hnd.getElem_inj_iff.mp hje) (by omega)
  · rw [dif_neg hlt] at hgj
    rw [hgj] at hje
    rw [List.getD_eq_getElem l d hi] at hje
    exact absurd (hnd.getElem_inj_iff.mp hje) (by omega)

theorem getD_eraseIdx {α : Type} (l : List α) (i j : Nat) (hi : i < l.length)
    (hj : j < (l.eraseIdx i).length) (d : α) :
    (l.eraseIdx i).getD j d = l.getD (if j < i then j else j + 1) d := by
  have hlen : (l.eraseIdx i).length = l.length - 1 := by
    rw [List.length_eraseIdx, if_pos hi]
  have hgj := List.getElem_eraseIdx l i j hj
  by_cases hlt : j < i
  · rw [dif_pos hlt] at hgj
    rw [if_pos hlt, List.getD_eq_getElem (l.eraseIdx i) d hj, hgj,
      List.getD_eq_getElem l d (by omega)]
  · rw [dif_neg hlt] at hgj
    rw [if_neg hlt, List.getD_eq_getElem (l.eraseIdx i) d hj, hgj,
      List.getD_eq_getElem l d (by omega)]

theorem foldl_max_le (l : List Int) (a : Int) :
    a ≤ l.foldl max a ∧ ∀ x ∈ l, x ≤ l.foldl max a := by
  induction l generalizing a with
  | nil => exact ⟨le_refl a, by simp⟩
  | cons y ys ih =>
    rw [List.foldl_cons]
    obtain ⟨h1, h2⟩ := ih (max a y)
    refine ⟨le_trans (le_max_left a y) h1, ?_⟩
    intro x hx
    rcases List.mem_cons.mp hx with h3 | h3
    · rw [h3]
      exact le_trans (le_max_right a y) h1
    · exact h2 x h3

theorem countsFor_length (curr colv : List Int) :
    (countsFor curr colv).length = curr.length := by
  rw [countsFor]
  have haux : ∀ (cv : List Int) (np : List Nat),
      (cv.foldl (fun np g =>
        match listIndex curr g with
        | some i => np.set i (np.getD i 0 + 1)
        | none => np) np).length = np.length := by
    intro cv
    induction cv with
    | nil => intro np; rfl
    | cons g gs ih =>
      intro np
      simp only [List.foldl_cons]
      rcases he : listIndex curr g with _ | j
      · exact ih np
      · rw [ih (np.set j (np.getD j 0 + 1)), List.length_set]
  rw [haux colv (List.replicate curr.length 0), List.length_replicate]

theorem countsFor_getD (curr : List Int) (hnd : curr.Nodup) (colv : List Int)
    (hsub : ∀ g ∈ colv, g ∈ curr) (i : Nat) (hi : i < curr.length) :
    (countsFor curr colv).getD i 0 = colv.countP (fun g => g = curr.getD i 0) := by
  rw [countsFor]
  have haux : ∀ (cv : List Int), (∀ g ∈ cv, g ∈ curr) → ∀ (np : List Nat),
      np.length = curr.length →
      (cv.foldl (fun np g =>
        match listIndex curr g with
        | some i => np.set i (np.getD i 0 + 1)
        | none => np) np).getD i 0
        = np.getD i 0 + cv.countP (fun g => g = curr.getD i 0) := by
    intro cv
    induction cv with
    | nil =>
      intro _ np _
      simp
    | cons g gs ih =>
      intro hsub2 np hlen
      have hg : g ∈ curr := hsub2 g (List.mem_cons_self g gs)
      have hls := listIndex_isSome_of_mem hg
      rcases he : listIndex curr g with _ | j
      · rw [he] at hls
        exact absurd hls (by simp)
      · have hj : j < curr.length := listIndex_lt_length he
        have hcj : curr.getD j 0 = g := listIndex_getD he
        simp only [List.foldl_cons, he]
        rw [ih (fun x hx => hsub2 x (List.mem_cons_of_mem g hx))
          (np.set j (np.getD j 0 + 1)) (by rw [List.length_set]; exact hlen),
          List.countP_cons, getD_set]
        by_cases hij : j = i
        · subst hij
          rw [if_pos ⟨rfl, by omega⟩, if_pos (by simp [← hcj])]
          omega
        · rw [if_neg (by intro hc; exact hij hc.1),
            if_neg (by
              simp only [decide_eq_true_eq]
              rw [← hcj]
              exact nodup_getD_ne curr hnd j i hj hi hij 0)]
          omega
  rw [haux colv hsub (List.replicate curr.length 0) (List.length_replicate _ _)]
  rw [List.getD_eq_getElem _ 0 (by rw [List.length_replicate]; exact hi)]
  simp


theorem gatherLoop_succ_exit (f : Nat) (min_gp : Int) (curr : List Int)
    (nparts : List Nat) (lut : List Int) (h : ¬(dedupFirst curr).length > 1) :
    gatherLoop (f + 1) min_gp curr nparts lut = .ok (curr, nparts, lut) := by
  rw [gatherLoop, if_neg h]

theorem gatherLoop_succ_break (f : Nat) (min_gp : Int) (curr : List Int)
    (nparts : List Nat) (lut : List Int)
    (h1 : (dedupFirst curr).length > 1)
    (m0 : Nat) (h2 : listGetE (argsortNat nparts) 0 = .ok m0)
    (c0 : Nat) (h3 : listGetE nparts m0 = .ok c0)
    (h4 : (decide (min_gp < (c0 : Int)) || decide ((argsortNat nparts).length ≤ 1)) = true) :
    gatherLoop (f + 1) min_gp curr nparts lut = .ok (curr, nparts, lut) := by
  simp only [gatherLoop, if_pos h1, h2, h3, h4, if_true]

theorem gatherLoop_succ_go (f : Nat) (min_gp : Int) (curr : List Int)
    (nparts : List Nat) (lut : List Int)
    (h1 : (dedupFirst curr).length > 1)
    (m0 m1 : Nat) (h2 : listGetE (argsortNat nparts) 0 = .ok m0)
    (c0 : Nat) (h3 : listGetE nparts m0 = .ok c0)
    (h4 : (decide (min_gp < (c0 : Int)) || decide ((argsortNat nparts).length ≤ 1)) = false)
    (h5 : listGetE (argsortNat nparts) 1 = .ok m1)
    (a b : Int) (h6 : listGetE curr m0 = .ok a) (h7 : listGetE curr m1 = .ok b)
    (lut3 : List Int)
    (h8 : pySet (lut.map (fun x => if x = a then b else x)) a b = .ok lut3)
    (cm1 : Nat) (h9 : listGetE nparts m1 = .ok cm1)
    (curr2 : List Int) (h10 : listPopE curr m0 = .ok curr2)
    (np3 : List Nat) (h11 : listPopE (nparts.set m1 (cm1 + c0)) m0 = .ok np3) :
    gatherLoop (f + 1) min_gp curr nparts lut = gatherLoop f min_gp curr2 np3 lut3 := by
  simp only [gatherLoop, if_pos h1, h2, h3, h4, Bool.false_eq_true, if_false, h5,
    except_bind_ok, h6, h7, h8, h9, h10, h11]


/-- The gathering-loop invariant: ids are distinct, nonempty and in LUT
range, the LUT fixes every active id, every row maps into an active id, and
each slot of `nparts` counts the rows mapping to its id. -/
def gInv (colv : List Int) (L : Nat) (curr : List Int) (nparts : List Nat)
    (lut : List Int) : Prop :=
  curr.Nodup ∧ curr ≠ [] ∧ nparts.length = curr.length ∧ lut.length = L ∧
    (∀ c ∈ curr, 0 ≤ c ∧ c.toNat < L) ∧ (∀ c ∈ curr, lutAt lut c = c) ∧
    (∀ g ∈ colv, lutAt lut g ∈ curr) ∧
    ∀ i, i < curr.length →
      nparts.getD i 0 = colv.countP (fun g => lutAt lut g = curr.getD i 0)

theorem gatherLoop_spec (colv : List Int) (L : Nat) (min_gp : Int)
    (hcr : ∀ g ∈ colv, 0 ≤ g ∧ g.toNat < L) :
    ∀ fuel curr nparts lut, gInv colv L curr nparts lut → curr.length < fuel →
      ∃ c3 n3 l3, gatherLoop fuel min_gp curr nparts lut = .ok (c3, n3, l3) ∧
        gInv colv L c3 n3 l3 ∧
        (c3.length ≤ 1 ∨ ∀ j, j < n3.length → min_gp < ((n3.getD j 0 : Nat) : Int)) := by
  intro fuel
  induction fuel with
  | zero =>
    intro curr nparts lut _ hf
    omega
  | succ f ih =>
    intro curr nparts lut hinv hf
    obtain ⟨hnd, hne, hnpl, hlutl, hrange, hfix, himg, hcnt⟩ := hinv
    have hded : dedupFirst curr = curr := dedupFirst_of_nodup curr hnd
    by_cases hbig : curr.length > 1
    case neg =>
      refine ⟨curr, nparts, lut, gatherLoop_succ_exit f min_gp curr nparts lut ?_,
        ⟨hnd, hne, hnpl, hlutl, hrange, hfix, himg, hcnt⟩, Or.inl (by omega)⟩
      rw [hded]
      omega
    case pos =>
      have hcond : (dedupFirst curr).length > 1 := by rw [hded]; exact hbig
      have hasl : (argsortNat nparts).length = curr.length := by
        rw [argsortNat_length, hnpl]
      rcases has : argsortNat nparts with _ | ⟨m0, tl⟩
      · exfalso
        rw [has] at hasl
        simp at hasl
        omega
      rcases tl with _ | ⟨m1, rest⟩
      · exfalso
        rw [has] at hasl
        simp at hasl
        omega
      have hm0np : m0 < nparts.length :=
        argsortNat_mem_lt nparts m0 (by rw [has]; exact List.mem_cons_self _ _)
      have hm1np : m1 < nparts.length :=
        argsortNat_mem_lt nparts m1
          (by rw [has]; exact List.mem_cons_of_mem _ (List.mem_cons_self _ _))
      have hm0c : m0 < curr.length := by omega
      have hm1c : m1 < curr.length := by omega
      have hm0m1 : m0 ≠ m1 := by
        have hasnd := argsortNat_nodup nparts
        rw [has, List.nodup_cons] at hasnd
        intro hc
        exact hasnd.1 (hc ▸ List.mem_cons_self m1 rest)
      have hget0 : listGetE (argsortNat nparts) 0 = .ok m0 := by rw [has]; rfl
      have hget1 : listGetE (argsortNat nparts) 1 = .ok m1 := by rw [has]; rfl
      have hc0 : listGetE nparts m0 = .ok (nparts.getD m0 0) :=
        listGetE_ok nparts m0 hm0np 0
      by_cases hbr : min_gp < ((nparts.getD m0 0 : Nat) : Int)
      case pos =>
        refine ⟨curr, nparts, lut,
          gatherLoop_succ_break f min_gp curr nparts lut hcond m0 hget0
            (nparts.getD m0 0) hc0 (by rw [decide_eq_true hbr]; rfl),
          ⟨hnd, hne, hnpl, hlutl, hrange, hfix, himg, hcnt⟩, Or.inr ?_⟩
        intro j hj
        have hmin := argsortNat_head_min nparts m0 (m1 :: rest) has j hj
        omega
      case neg =>
        have hguard : (decide (min_gp < ((nparts.getD m0 0 : Nat) : Int))
            || decide ((argsortNat nparts).length ≤ 1)) = false := by
          rw [decide_eq_false hbr, decide_eq_false (by omega : ¬(argsortNat nparts).length ≤ 1)]
          rfl
        have ha : listGetE curr m0 = .ok (curr.getD m0 0) := listGetE_ok curr m0 hm0c 0
        have hb : listGetE curr m1 = .ok (curr.getD m1 0) := listGetE_ok curr m1 hm1c 0
        set a := curr.getD m0 0 with hadef
        set b := curr.getD m1 0 with hbdef
        have ha_mem : a ∈ curr := by
          rw [hadef, List.getD_eq_getElem curr 0 hm0c]
          exact List.getElem_mem hm0c
        have hb_mem : b ∈ curr := by
          rw [hbdef, List.getD_eq_getElem curr 0 hm1c]
          exact List.getElem_mem hm1c
        have hab : a ≠ b := nodup_getD_ne curr hnd m0 m1 hm0c hm1c hm0m1 0
        have haL : 0 ≤ a ∧ a.toNat < L := hrange a ha_mem
        set lut3 := (lut.map (fun x => if x = a then b else x)).set a.toNat b with hlut3def
        have hset : pySet (lut.map (fun x => if x = a then b else x)) a b = .ok lut3 :=
          pySet_ok _ a b haL.1 (by rw [List.length_map, hlutl]; exact haL.2)
        have hcm1 : listGetE nparts m1 = .ok (nparts.getD m1 0) :=
          listGetE_ok nparts m1 hm1np 0
        set curr2 := curr.eraseIdx m0 with hcurr2def
        have hpop1 : listPopE curr m0 = .ok curr2 := listPopE_ok curr m0 hm0c
        set np3 := (nparts.set m1 (nparts.getD m1 0 + nparts.getD m0 0)).eraseIdx m0
          with hnp3def
        have hpop2 : listPopE (nparts.set m1 (nparts.getD m1 0 + nparts.getD m0 0)) m0
            = .ok np3 :=
          listPopE_ok _ m0 (by rw [List.length_set]; exact hm0np)
        have hstep := gatherLoop_succ_go f min_gp curr nparts lut hcond m0 m1 hget0
          (nparts.getD m0 0) hc0 hguard hget1 a b ha hb lut3 hset
          (nparts.getD m1 0) hcm1 curr2 hpop1 np3 hpop2
        have hc2len : curr2.length = curr.length - 1 := by
          rw [hcurr2def, List.length_eraseIdx, if_pos hm0c]
        have hn3len : np3.length = curr.length - 1 := by
          rw [hnp3def, List.length_eraseIdx, List.length_set, if_pos hm0np]
          omega
        have hl3len : lut3.length = L := by
          rw [hlut3def, List.length_set, List.length_map]
          exact hlutl
        have hamem2 : a ∉ curr2 := by
          have := not_mem_eraseIdx_self curr hnd m0 hm0c 0
          rwa [← hadef, ← hcurr2def] at this
        have hbmem2 : b ∈ curr2 := by
          have := getD_mem_eraseIdx curr m0 m1 hm0c hm1c (fun hc => hm0m1 hc.symm) 0
          rwa [← hbdef, ← hcurr2def] at this
        have hlut3 : ∀ g : Int, 0 ≤ g → g.toNat < L →
            lutAt lut3 g = if lutAt lut g = a then b else lutAt lut g := by
          intro g hg0 hgL
          by_cases hga : g.toNat = a.toNat
          · have hgeq : g = a := by omega
            rw [lutAt, hga, hlut3def,
              List.getD_eq_getElem _ 0
                (by rw [List.length_set, List.length_map, hlutl]; exact haL.2),
              List.getElem_set_self]
            rw [hgeq, hfix a ha_mem, if_pos rfl]
          · have hgl : g.toNat < lut.length := by rw [hlutl]; exact hgL
            rw [lutAt, hlut3def,
              List.getD_eq_getElem _ 0
                (by rw [List.length_set, List.length_map, hlutl]; exact hgL),
              List.getElem_set_ne (fun hc => hga hc.symm), List.getElem_map]
            rw [lutAt, List.getD_eq_getElem lut 0 hgl]
        have hval3 : ∀ g ∈ colv, lutAt lut3 g = if lutAt lut g = a then b else lutAt lut g :=
          fun g hg => hlut3 g (hcr g hg).1 (hcr g hg).2
        have hsub2 : ∀ c ∈ curr2, c ∈ curr := fun c hc =>
          (List.eraseIdx_sublist curr m0).subset hc
        have hinv2 : gInv colv L curr2 np3 lut3 := by
          refine ⟨(List.eraseIdx_sublist curr m0).nodup hnd,
            List.ne_nil_of_length_pos (by omega), by omega, hl3len,
            fun c hc => hrange c (hsub2 c hc), ?_, ?_, ?_⟩
          · intro c hc
            have hca : c ≠ a := fun hc2 => hamem2 (hc2 ▸ hc)
            have hcc : c ∈ curr := hsub2 c hc
            rw [hlut3 c (hrange c hcc).1 (hrange c hcc).2, hfix c hcc, if_neg hca]
          · intro g hg
            rw [hval3 g hg]
            by_cases hla : lutAt lut g = a
            · rw [if_pos hla]
              exact hbmem2
            · rw [if_neg hla]
              refine mem_eraseIdx_of_mem_ne curr hnd (lutAt lut g) (himg g hg) m0 hm0c ?_
              rw [List.getD_eq_getElem curr _ hm0c, ← List.getD_eq_getElem curr 0 hm0c,
                ← hadef]
              exact hla
          · intro i2 hi2
            rw [hc2len] at hi2
            set j := if i2 < m0 then i2 else i2 + 1 with hjdef
            have hjc : j < curr.length := by rw [hjdef]; split <;> omega
            have hjm0 : j ≠ m0 := by rw [hjdef]; split <;> omega
            have hcg : curr2.getD i2 0 = curr.getD j 0 := by
              rw [hcurr2def, getD_eraseIdx curr m0 i2 hm0c
                (by rw [List.length_eraseIdx, if_pos hm0c]; omega) 0]
            have hng : np3.getD i2 0
                = (nparts.set m1 (nparts.getD m1 0 + nparts.getD m0 0)).getD j 0 := by
              rw [hnp3def, getD_eraseIdx _ m0 i2 (by rw [List.length_set]; exact hm0np)
                (by rw [List.length_eraseIdx, List.length_set, if_pos hm0np]; omega) 0]
            rw [hcg, hng, getD_set]
            by_cases hjm1 : m1 = j
            · rw [if_pos ⟨hjm1, by omega⟩]
              have hcb : curr.getD j 0 = b := by rw [← hjm1, ← hbdef]
              rw [hcb]
              have hcountb : colv.countP (fun g => lutAt lut3 g = b)
                  = colv.countP (fun g => decide (lutAt lut g = a)
                      || decide (lutAt lut g = b)) := by
                apply List.countP_congr
                intro g hg
                simp only [decide_eq_true_eq, Bool.or_eq_true]
                rw [hval3 g hg]
                by_cases hla : lutAt lut g = a
                · rw [if_pos hla]
                  exact ⟨fun _ => Or.inl hla, fun _ => rfl⟩
                · rw [if_neg hla]
                  constructor
                  · intro h2
                    exact Or.inr h2
                  · rintro (h2 | h2)
                    · exact absurd h2 hla
                    · exact h2
              have hdisj := countP_or_disjoint (fun g => decide (lutAt lut g = a))
                (fun g => decide (lutAt lut g = b)) colv
                (by
                  intro g _
                  rintro ⟨hp, hq⟩
                  simp only [decide_eq_true_eq] at hp hq
                  exact hab (hp ▸ hq ▸ rfl))
              rw [hcountb, hdisj]
              have hca := hcnt m0 hm0c
              have hcb2 := hcnt m1 hm1c
              rw [← hadef] at hca
              rw [← hbdef] at hcb2
              omega
            · rw [if_neg (fun hc => hjm1 hc.1)]
              have hta : curr.getD j 0 ≠ a :=
                nodup_getD_ne curr hnd j m0 hjc hm0c hjm0 0
              have htb : curr.getD j 0 ≠ b :=
                nodup_getD_ne curr hnd j m1 hjc hm1c (fun hc => hjm1 hc.symm) 0
              rw [hcnt j hjc]
              apply List.countP_congr
              intro g hg
              simp only [decide_eq_true_eq]
              rw [hval3 g hg]
              by_cases hla : lutAt lut g = a
              · rw [if_pos hla]
                constructor
                · intro h2
                  rw [hla] at h2
                  exact absurd h2.symm hta
                · intro h2
                  exact absurd h2.symm htb
              · rw [if_neg hla]
        obtain ⟨c3, n3, l3, hrun, hinv3, hdisj⟩ := ih curr2 np3 lut3 hinv2 (by omega)
        exact ⟨c3, n3, l3, by rw [hstep, hrun], hinv3, hdisj⟩


theorem set_column_data_rows (s : Star) (k : String) (dat : List Val) :
    (s.set_column_data k dat).rows = s.rows := by
  rw [Star.set_column_data]
  split <;> rfl

theorem coe_list_eq_map (l : List Nat) :
    (l.map (fun i => (i : Int))) = List.map Int.ofNat l := by
  induction l with
  | nil => rfl
  | cons x xs ih =>
    show Int.ofNat x :: (xs.map (fun i => (i : Int)))
      = Int.ofNat x :: List.map Int.ofNat xs
    rw [ih]

/-- C5 counterexample table: two distinct group ids, one of them negative. -/
def c5Table : Star :=
  (((Star.init.add_column "_rlnGroupNumber" (.aInt 1) false).1.add_row
      [("_rlnGroupNumber", .vInt (-10))]).1.add_row [("_rlnGroupNumber", .vInt 1)]).1

/-- C5 counterexample: the group column is present and holds two distinct
ids, each of occupancy one, far below the requested minimum of five; the
claim promises a consolidation, but `particle_group` raises an uncaught
IndexError (the negative id misses the numpy LUT) and returns the table
unchanged. -/
theorem particle_group_negative_id_crashes :
    c5Table.get_column_data "_rlnGroupNumber" = some [.vInt (-10), .vInt 1] ∧
    c5Table.rows = 2 ∧
    c5Table.particle_group 5 = (c5Table, some .indexError) := by decide

/-- C5 (amended): on a table whose group-id column is present, nonempty and
holds only nonnegative ids, `particle_group` succeeds, rewriting the column
through the merge LUT with the row count conserved, and afterwards either
exactly one distinct group id remains or every distinct group id of the new
column has occupancy strictly above `min_gp`. -/
theorem particle_group_occupancy (s : Star) (min_gp : Int) (colvV : List Val)
    (hg : s.get_column_data "_rlnGroupNumber" = some colvV)
    (hne : colvV ≠ [])
    (hnn : ∀ v ∈ colvV, 0 ≤ valToInt v) :
    ∃ newgp : List Int,
      s.particle_group min_gp
        = (s.set_column_data "_rlnGroupNumber" (newgp.map Val.vInt), none) ∧
      newgp.length = colvV.length ∧
      (s.particle_group min_gp).1.rows = s.rows ∧
      ((dedupFirst newgp).length = 1 ∨
        ∀ c ∈ dedupFirst newgp, min_gp < (newgp.count c : Int)) := by
  rcases hcv : colvV.map valToInt with _ | ⟨g0, grest⟩
  · exact absurd (List.map_eq_nil_iff.mp hcv) hne
  have hnncol : ∀ g ∈ g0 :: grest, 0 ≤ g := by
    intro g hgm
    rw [← hcv] at hgm
    obtain ⟨v, hv, rfl⟩ := List.mem_map.mp hgm
    exact hnn v hv
  have hmax := foldl_max_le grest g0
  have hallmx : ∀ g ∈ g0 :: grest, g ≤ grest.foldl max g0 := by
    intro g hgm
    rcases List.mem_cons.mp hgm with h1 | h1
    · exact h1 ▸ hmax.1
    · exact hmax.2 g h1
  have h0mx : 0 ≤ grest.foldl max g0 :=
    le_trans (hnncol g0 (List.mem_cons_self g0 grest)) hmax.1
  have hcr : ∀ g ∈ g0 :: grest, 0 ≤ g ∧ g.toNat < (grest.foldl max g0 + 1).toNat := by
    intro g hgm
    refine ⟨hnncol g hgm, ?_⟩
    have := hallmx g hgm
    have := hnncol g hgm
    omega
  have hlut0at : ∀ g : Int, 0 ≤ g → g.toNat < (grest.foldl max g0 + 1).toNat →
      lutAt ((List.range (grest.foldl max g0 + 1).toNat).map (fun i => (i : Int))) g
        = g := by
    intro g h1 h2
    rw [lutAt, coe_list_eq_map, List.getD_eq_getElem _ 0
        (by rw [List.length_map, List.length_range]; exact h2),
      List.getElem_map, List.getElem_range]
    exact Int.toNat_of_nonneg h1
  have hinv0 : gInv (g0 :: grest) (grest.foldl max g0 + 1).toNat
      (dedupFirst (g0 :: grest)) (countsFor (dedupFirst (g0 :: grest)) (g0 :: grest))
      ((List.range (grest.foldl max g0 + 1).toNat).map (fun i => (i : Int))) := by
    refine ⟨nodup_dedupFirst _, dedupFirst_ne_nil _ (List.cons_ne_nil g0 grest),
      countsFor_length _ _,
      by rw [coe_list_eq_map, List.length_map, List.length_range], ?_, ?_, ?_, ?_⟩
    · intro c hc
      exact hcr c ((mem_dedupFirst _ c).mp hc)
    · intro c hc
      have h1 := hcr c ((mem_dedupFirst _ c).mp hc)
      exact hlut0at c h1.1 h1.2
    · intro g hgm
      have h1 := hcr g hgm
      rw [hlut0at g h1.1 h1.2, mem_dedupFirst]
      exact hgm
    · intro i hi
      rw [countsFor_getD _ (nodup_dedupFirst _) _
        (fun g hgm => (mem_dedupFirst _ g).mpr hgm) i hi]
      apply List.countP_congr
      intro g hgm
      have h1 := hcr g hgm
      simp only [decide_eq_true_eq]
      rw [hlut0at g h1.1 h1.2]
  obtain ⟨c3, n3, l3, hrun, hinv3, hdisj⟩ :=
    gatherLoop_spec (g0 :: grest) (grest.foldl max g0 + 1).toNat min_gp hcr
      ((dedupFirst (g0 :: grest)).length + 1) (dedupFirst (g0 :: grest))
      (countsFor (dedupFirst (g0 :: grest)) (g0 :: grest))
      ((List.range (grest.foldl max g0 + 1).toNat).map (fun i => (i : Int)))
      hinv0 (by omega)
  obtain ⟨hnd3, hne3, hnpl3, hlutl3, hrange3, hfix3, himg3, hcnt3⟩ := hinv3
  have hmapok : mapME (pyGet l3) (g0 :: grest)
      = .ok ((g0 :: grest).map (fun g => lutAt l3 g)) := by
    apply mapME_ok_map
    intro g hgm
    have h1 := hcr g hgm
    exact pyGet_ok l3 g h1.1 (by rw [hlutl3]; exact h1.2)
  have hpg : s.particle_group min_gp
      = (s.set_column_data "_rlnGroupNumber"
          (((g0 :: grest).map (fun g => lutAt l3 g)).map Val.vInt), none) := by
    simp only [Star.particle_group, hg, hcv, hrun, hmapok]
  refine ⟨(g0 :: grest).map (fun g => lutAt l3 g), hpg, ?_, ?_, ?_⟩
  · rw [List.length_map]
    have := congrArg List.length hcv
    rw [List.length_map] at this
    exact this.symm
  · rw [hpg]
    exact set_column_data_rows s _ _
  · rcases hdisj with hsmall | hall
    · left
      have hsub : ∀ x ∈ dedupFirst ((g0 :: grest).map (fun g => lutAt l3 g)), x ∈ c3 := by
        intro x hx
        have hx2 := (mem_dedupFirst _ x).mp hx
        obtain ⟨g, hgm, rfl⟩ := List.mem_map.mp hx2
        exact himg3 g hgm
      have hle := (List.subperm_of_subset (nodup_dedupFirst _) hsub).length_le
      have hne2 : dedupFirst ((g0 :: grest).map (fun g => lutAt l3 g)) ≠ [] :=
        dedupFirst_ne_nil _ (by simp)
      have hpos := List.length_pos.mpr hne2
      omega
    · right
      intro c hcd
      have hcmem := (mem_dedupFirst _ c).mp hcd
      obtain ⟨g, hgm, hge⟩ := List.mem_map.mp hcmem
      have hc3 : c ∈ c3 := hge ▸ himg3 g hgm
      obtain ⟨i, hi, hie⟩ := List.mem_iff_getElem.mp hc3
      have hcount : ((g0 :: grest).map (fun g => lutAt l3 g)).count c
          = (g0 :: grest).countP (fun g => lutAt l3 g = c3.getD i 0) := by
        rw [List.count_eq_countP, List.countP_map]
        apply List.countP_congr
        intro g2 _
        simp only [Function.comp_apply, beq_iff_eq, decide_eq_true_eq]
        rw [List.getD_eq_getElem c3 0 hi, hie]
      rw [hcount, ← hcnt3 i hi]
      exact hall i (by omega)


/-- A table with group ids `[1, 1, 2]` for the C5 witness. -/
def c5wTable : Star :=
  ((((Star.init.add_column "_rlnGroupNumber" (.aInt 1) false).1.add_row
      [("_rlnGroupNumber", .vInt 1)]).1.add_row [("_rlnGroupNumber", .vInt 1)]).1.add_row
      [("_rlnGroupNumber", .vInt 2)]).1

theorem particle_group_occupancy_w :
    (c5wTable.get_column_data "_rlnGroupNumber"
        = some [Val.vInt 1, Val.vInt 1, Val.vInt 2]) ∧
    ([Val.vInt 1, Val.vInt 1, Val.vInt 2] : List Val) ≠ [] ∧
    ∃ newgp : List Int,
      c5wTable.particle_group 5
        = (c5wTable.set_column_data "_rlnGroupNumber" (newgp.map Val.vInt), none) ∧
      newgp.length = ([Val.vInt 1, Val.vInt 1, Val.vInt 2] : List Val).length ∧
      (c5wTable.particle_group 5).1.rows = c5wTable.rows ∧
      ((dedupFirst newgp).length = 1 ∨
        ∀ c ∈ dedupFirst newgp, 5 < (newgp.count c : Int)) :=
  ⟨by decide, by decide,
    particle_group_occupancy c5wTable 5 [Val.vInt 1, Val.vInt 1, Val.vInt 2]
      (by decide) (by decide) (by decide)⟩


/-! ### Claim C3: the serialisation round trip -/

theorem spanP_append (p : Char → Bool) (a b : List Char)
    (ha : ∀ c ∈ a, p c = true) (hb : ∀ c, b.head? = some c → p c = false) :
    spanP p (a ++ b) = (a, b) := by
  induction a with
  | nil =>
    cases b with
    | nil => rfl
    | cons c cs =>
      have hc := hb c rfl
      simp [spanP, hc]
  | cons c cs ih =>
    have hc := ha c (List.mem_cons_self c cs)
    have ih2 := ih (fun x hx => ha x (List.mem_cons_of_mem c hx))
    simp [spanP, hc, ih2]

theorem splitAux_nonws (t : List Char) (h : ∀ c ∈ t, isWsC c = false)
    (rest acc : List Char) :
    splitAux (t ++ rest) acc = splitAux rest (t.reverse ++ acc) := by
  induction t generalizing acc with
  | nil => simp
  | cons c cs ih =>
    have hc := h c (List.mem_cons_self c cs)
    rw [List.cons_append, splitAux, if_neg (by rw [hc]; exact Bool.false_ne_true)]
    rw [ih (fun x hx => h x (List.mem_cons_of_mem c hx)) (c :: acc)]
    simp

theorem splitWsC_intercalate (sep : Char) (hsep : isWsC sep = true)
    (ts : List (List Char))
    (h : ∀ t ∈ ts, t ≠ [] ∧ ∀ c ∈ t, isWsC c = false) :
    splitWsC (intercalateC sep ts ++ [Char.ofNat 10]) = ts := by
  induction ts with
  | nil =>
    show splitAux ([] ++ [Char.ofNat 10]) [] = []
    rw [List.nil_append, splitAux, if_pos (by rfl)]
    rfl
  | cons t ts ih =>
    obtain ⟨htne, htc⟩ := h t (List.mem_cons_self t ts)
    cases ts with
    | nil =>
      show splitAux (t ++ [Char.ofNat 10]) [] = [t]
      rw [splitAux_nonws t htc _ [], List.append_nil, splitAux, if_pos (by rfl)]
      rw [if_neg (by simp [htne]), List.reverse_reverse]
      rfl
    | cons t2 ts2 =>
      show splitAux ((t ++ sep :: intercalateC sep (t2 :: ts2)) ++ [Char.ofNat 10]) []
        = t :: t2 :: ts2
      rw [List.append_assoc, splitAux_nonws t htc _ [], List.append_nil, List.cons_append,
        splitAux, if_pos hsep, if_neg (by simp [htne]), List.reverse_reverse]
      exact congrArg (fun r => t :: r)
        (ih (fun x hx => h x (List.mem_cons_of_mem t hx)))

theorem linesAux_append (A B : List Char) (acc : List Char)
    (hA : A.getLast? = some (Char.ofNat 10)) :
    linesAux (A ++ B) acc = linesAux A acc ++ linesKeepC B := by
  induction A generalizing acc with
  | nil => simp at hA
  | cons c A2 ih =>
    by_cases hc : c.toNat = 10
    · cases A2 with
      | nil =>
        rw [List.cons_append, List.nil_append, linesAux, if_pos hc, linesAux, if_pos hc]
        rfl
      | cons d A3 =>
        have hA2 : (d :: A3).getLast? = some (Char.ofNat 10) := by
          rw [List.getLast?_cons_cons] at hA
          exact hA
        rw [List.cons_append, linesAux, if_pos hc, linesAux, if_pos hc, ih [] hA2,
          List.cons_append]
    · cases A2 with
      | nil =>
        exfalso
        rw [List.getLast?_singleton] at hA
        have : c = Char.ofNat 10 := Option.some_injective _ hA
        rw [this] at hc
        exact hc rfl
      | cons d A3 =>
        have hA2 : (d :: A3).getLast? = some (Char.ofNat 10) := by
          rw [List.getLast?_cons_cons] at hA
          exact hA
        rw [List.cons_append, linesAux, if_neg hc, linesAux, if_neg hc, ih (c :: acc) hA2]

theorem linesAux_terminal (m : List Char) (h : ∀ c ∈ m, ¬c.toNat = 10)
    (acc : List Char) :
    linesAux (m ++ [Char.ofNat 10]) acc = [acc.reverse ++ m ++ [Char.ofNat 10]] := by
  induction m generalizing acc with
  | nil =>
    rw [List.nil_append, linesAux, if_pos (by rfl)]
    simp [linesAux]
  | cons c cs ih =>
    have hc := h c (List.mem_cons_self c cs)
    rw [List.cons_append, linesAux, if_neg hc,
      ih (fun x hx => h x (List.mem_cons_of_mem c hx)) (c :: acc)]
    simp

theorem linesKeepC_single (l : List Char) (hne : l ≠ [])
    (hin : ∀ c ∈ l.dropLast, ¬c.toNat = 10)
    (hlast : l.getLast? = some (Char.ofNat 10)) :
    linesKeepC l = [l] := by
  have hdec : l = l.dropLast ++ [Char.ofNat 10] := by
    have h1 := List.dropLast_append_getLast hne
    have h2 : l.getLast hne = Char.ofNat 10 := by
      have := List.getLast?_eq_getLast l hne
      rw [this] at hlast
      exact Option.some_injective _ hlast
    rw [← h2]
    exact h1.symm
  rw [hdec, linesKeepC, linesAux_terminal _ hin []]
  simp

theorem linesKeepC_flatten_of (ls : List (List Char))
    (h : ∀ l ∈ ls, l ≠ [] ∧ (∀ c ∈ l.dropLast, ¬c.toNat = 10) ∧
      l.getLast? = some (Char.ofNat 10)) :
    linesKeepC ls.flatten = ls := by
  induction ls with
  | nil => rfl
  | cons l rest ih =>
    obtain ⟨h1, h2, h3⟩ := h l (List.mem_cons_self l rest)
    rw [List.flatten_cons, linesKeepC, linesAux_append _ _ _ h3]
    rw [show linesAux l [] = linesKeepC l from rfl, linesKeepC_single l h1 h2 h3,
      ih (fun x hx => h x (List.mem_cons_of_mem l hx))]
    rfl

theorem span_loop_eq {α : Type} (p : α → Bool) (A B : List α)
    (hA : ∀ a ∈ A, p a = true) (hB : ∀ b, B.head? = some b → p b = false) :
    ∀ acc : List α, List.span.loop p (A ++ B) acc = (acc.reverse ++ A, B) := by
  induction A with
  | nil =>
    intro acc
    cases B with
    | nil => simp [List.span.loop]
    | cons b bs =>
      have hb := hB b rfl
      simp [List.span.loop, hb]
  | cons a as ih =>
    intro acc
    have ha := hA a (List.mem_cons_self a as)
    rw [List.cons_append]
    simp only [List.span.loop, ha,
      ih (fun x hx => hA x (List.mem_cons_of_mem a hx)) (a :: acc)]
    simp

theorem span_eq_of {α : Type} (p : α → Bool) (A B : List α)
    (hA : ∀ a ∈ A, p a = true) (hB : ∀ b, B.head? = some b → p b = false) :
    (A ++ B).span p = (A, B) := by
  rw [List.span, span_loop_eq p A B hA hB []]
  rfl


theorem charToNat_ofNat (n : Nat) (h : n < 55296) : (Char.ofNat n).toNat = n := by
  rw [Char.ofNat, dif_pos]
  · rfl
  · constructor
    omega

theorem natDigits_all_digit (n : Nat) : ∀ c ∈ natDigits n, isDigitC c = true := by
  induction n using Nat.strong_induction_on with
  | _ n ih =>
    rw [natDigits_eq]
    by_cases hn : n < 10
    · rw [if_pos hn]
      intro c hc
      rcases List.mem_singleton.mp hc with rfl
      rw [isDigitC, charToNat_ofNat (48 + n) (by omega)]
      simp
      omega
    · rw [if_neg hn]
      intro c hc
      rcases List.mem_append.mp hc with h1 | h1
      · exact ih (n / 10) (Nat.div_lt_self (by omega) (by omega)) c h1
      · rcases List.mem_singleton.mp h1 with rfl
        rw [isDigitC, charToNat_ofNat (48 + n % 10) (by omega)]
        simp
        omega

theorem natDigits_ne_nil (n : Nat) : natDigits n ≠ [] := by
  rw [natDigits_eq]
  by_cases hn : n < 10
  · rw [if_pos hn]
    exact List.cons_ne_nil _ _
  · rw [if_neg hn]
    simp

theorem digit_not_ws (c : Char) (h : isDigitC c = true) : isWsC c = false := by
  rw [isDigitC] at h
  rw [isWsC]
  simp only [Bool.and_eq_true, decide_eq_true_eq] at h
  simp only [Bool.or_eq_false_iff, decide_eq_false_iff_not]
  omega

theorem digit_ne_newline (c : Char) (h : isDigitC c = true) : ¬c.toNat = 10 := by
  rw [isDigitC] at h
  simp only [Bool.and_eq_true, decide_eq_true_eq] at h
  omega

theorem foldl_digits_acc (b : List Char) : ∀ x : Nat,
    b.foldl (fun a c => 10 * a + digitValC c) x
      = x * 10 ^ b.length + b.foldl (fun a c => 10 * a + digitValC c) 0 := by
  induction b with
  | nil =>
    intro x
    simp
  | cons c cs ih =>
    intro x
    rw [List.foldl_cons, List.foldl_cons, ih (10 * x + digitValC c), ih (10 * 0 + digitValC c)]
    rw [List.length_cons]
    ring

theorem digitsVal_append (a b : List Char) :
    digitsVal (a ++ b) = digitsVal a * 10 ^ b.length + digitsVal b := by
  rw [digitsVal, List.foldl_append, foldl_digits_acc b (a.foldl _ 0)]
  rfl

theorem digitsVal_natDigits (n : Nat) : digitsVal (natDigits n) = n := by
  induction n using Nat.strong_induction_on with
  | _ n ih =>
    rw [natDigits_eq]
    by_cases hn : n < 10
    · rw [if_pos hn]
      show 10 * 0 + digitValC (Char.ofNat (48 + n)) = n
      rw [digitValC, charToNat_ofNat (48 + n) (by omega)]
      omega
    · rw [if_neg hn, digitsVal_append,
        ih (n / 10) (Nat.div_lt_self (by omega) (by omega))]
      show n / 10 * 10 ^ 1 + (10 * 0 + digitValC (Char.ofNat (48 + n % 10))) = n
      rw [digitValC, charToNat_ofNat (48 + n % 10) (by omega)]
      omega

theorem digitsVal_pad (j : Nat) (ds : List Char) :
    digitsVal (List.replicate j (Char.ofNat 48) ++ ds) = digitsVal ds := by
  rw [digitsVal_append]
  have hz : digitsVal (List.replicate j (Char.ofNat 48)) = 0 := by
    induction j with
    | zero => rfl
    | succ j2 ih =>
      rw [List.replicate_succ]
      show (List.replicate j2 (Char.ofNat 48)).foldl
        (fun a c => 10 * a + digitValC c) (10 * 0 + digitValC (Char.ofNat 48)) = 0
      rw [digitValC, charToNat_ofNat 48 (by omega)]
      exact ih
  rw [hz]
  omega

theorem takeSign_digit_head (c : Char) (cs : List Char) (h : isDigitC c = true) :
    takeSign (c :: cs) = (1, c :: cs) := by
  rw [isDigitC] at h
  simp only [Bool.and_eq_true, decide_eq_true_eq] at h
  rw [takeSign, if_neg (by omega), if_neg (by omega)]

theorem pyIntParse_intRepr (n : Int) : pyIntParseC (intReprC n) = some n := by
  have hdig := natDigits_all_digit n.natAbs
  have hne := natDigits_ne_nil n.natAbs
  rcases hds : natDigits n.natAbs with _ | ⟨c, cs⟩
  · exact absurd hds hne
  have hspan : spanP isDigitC (c :: cs) = (c :: cs, []) := by
    rw [← hds]
    simpa using spanP_append isDigitC (natDigits n.natAbs) [] hdig
      (by intro b hb; simp at hb)
  by_cases hn : n < 0
  · rw [intReprC, if_pos hn, hds]
    rw [pyIntParseC]
    have hts : takeSign (Char.ofNat 45 :: c :: cs) = (-1, c :: cs) := by
      rw [takeSign, if_pos (charToNat_ofNat 45 (by omega))]
    rw [hts, hspan]
    simp only [List.isEmpty_nil, Bool.not_false, Bool.or_false]
    rw [if_neg (by simp)]
    rw [← hds, digitsVal_natDigits]
    refine congrArg some ?_
    omega
  · rw [intReprC, if_neg hn, hds]
    rw [pyIntParseC]
    rw [takeSign_digit_head c cs (hdig c (by rw [hds]; exact List.mem_cons_self c cs)), hspan]
    simp only [List.isEmpty_nil, Bool.not_false, Bool.or_false]
    rw [if_neg (by simp)]
    rw [← hds, digitsVal_natDigits]
    refine congrArg some ?_
    omega


theorem decExp_dvd (d : Nat) (k : Nat) (h : decExp d = some k) : d ∣ 10 ^ k := by
  rw [decExp] at h
  have h2 := List.find?_some h
  simp only [decide_eq_true_eq] at h2
  exact Nat.dvd_of_mod_eq_zero h2

theorem sign_mul_natAbs (q : ℚ) :
    (if q.num < 0 then (-1 : Int) else 1) * (q.num.natAbs : Int) = q.num := by
  split <;> omega

theorem pyFloatParse_floatRepr (q : ℚ) (k : Nat) (hk : decExp q.den = some k) :
    pyFloatParseC (floatReprC q) = some q := by
  have hdvd : q.den ∣ 10 ^ k := decExp_dvd q.den k hk
  have hden0 : q.den ≠ 0 := q.den_nz
  set m := q.num.natAbs * 10 ^ k / q.den with hm
  have hmden : m * q.den = q.num.natAbs * 10 ^ k :=
    Nat.div_mul_cancel (Dvd.dvd.mul_left hdvd _)
  set ds := natDigits m with hds
  set ds2 := List.replicate (k + 1 - ds.length) (Char.ofNat 48) ++ ds with hds2
  have hL : k + 1 ≤ ds2.length := by
    rw [hds2, List.length_append, List.length_replicate]
    omega
  have hds2dig : ∀ c ∈ ds2, isDigitC c = true := by
    intro c hc
    rw [hds2] at hc
    rcases List.mem_append.mp hc with h1 | h1
    · rw [List.eq_of_mem_replicate h1]
      decide
    · exact natDigits_all_digit m c h1
  have hds2val : digitsVal ds2 = m := by
    rw [hds2, digitsVal_pad, hds, digitsVal_natDigits]
  set ip := ds2.take (ds2.length - k) with hip
  set fp := if k = 0 then [Char.ofNat 48] else ds2.drop (ds2.length - k) with hfp
  have hiplen : ip.length = ds2.length - k := by
    rw [hip, List.length_take]
    omega
  have hipne : ip ≠ [] := List.ne_nil_of_length_pos (by omega)
  have hipdig : ∀ c ∈ ip, isDigitC c = true := fun c hc =>
    hds2dig c (List.take_subset _ _ hc)
  have hfpdig : ∀ c ∈ fp, isDigitC c = true := by
    rw [hfp]
    split
    · intro c hc
      have hc2 : c = Char.ofNat 48 := by simpa using hc
      rw [hc2]
      decide
    · exact fun c hc => hds2dig c (List.drop_subset _ _ hc)
  have hrepr : floatReprC q
      = (if q.num < 0 then [Char.ofNat 45] else []) ++ ip ++ Char.ofNat 46 :: fp := by
    rw [floatReprC, hk]
  have hspan1 : spanP isDigitC (ip ++ Char.ofNat 46 :: fp) = (ip, Char.ofNat 46 :: fp) :=
    spanP_append _ _ _ hipdig
      (by
        intro b hb
        rw [List.head?_cons] at hb
        rw [← Option.some_injective _ hb]
        decide)
  have hspan2 : spanP isDigitC fp = (fp, []) := by
    simpa using spanP_append isDigitC fp [] hfpdig (by intro b hb; simp at hb)
  have hipE : ip.isEmpty = false := by
    rcases hipc : ip with _ | ⟨c, cs⟩
    · exact absurd hipc hipne
    · rfl
  have hbase : ratOfParts (if q.num < 0 then (-1 : Int) else 1)
      (digitsVal ip * 10 ^ fp.length + digitsVal fp) fp.length 0 = q := by
    have h1 : ratOfParts (if q.num < 0 then (-1 : Int) else 1)
        (digitsVal ip * 10 ^ fp.length + digitsVal fp) fp.length 0
        = mkRat ((if q.num < 0 then (-1 : Int) else 1)
            * ((digitsVal ip * 10 ^ fp.length + digitsVal fp : Nat) : Int))
            (10 ^ fp.length) := by
      rw [ratOfParts, if_pos le_rfl]
      norm_num
    rw [h1]
    by_cases hk0 : k = 0
    · subst hk0
      have hden1 : q.den = 1 := Nat.dvd_one.mp (by simpa using hdvd)
      have hfp0 : fp = [Char.ofNat 48] := by rw [hfp, if_pos rfl]
      have hipfull : ip = ds2 := by
        rw [hip, Nat.sub_zero, List.take_length]
      have hmval : m = q.num.natAbs := by
        rw [hm, hden1, pow_zero, Nat.mul_one, Nat.div_one]
      rw [hfp0, hipfull]
      have hdv0 : digitsVal [Char.ofNat 48] = 0 := rfl
      have hlen1 : ([Char.ofNat 48] : List Char).length = 1 := rfl
      rw [hdv0, hlen1, hds2val, hmval, Rat.mkRat_eq_div]
      have hint : (if q.num < 0 then (-1 : Int) else 1)
          * ((q.num.natAbs * 10 ^ 1 + 0 : Nat) : Int) = q.num * 10 := by
        simp only [pow_one, Nat.add_zero]
        rcases lt_or_ge q.num 0 with h | h
        · rw [if_pos h]
          omega
        · rw [if_neg (by omega)]
          omega
      rw [hint]
      calc ((q.num * 10 : Int) : ℚ) / ((10 ^ 1 : Nat) : ℚ)
          = (q.num : ℚ) / (q.den : ℚ) := by
            rw [hden1]
            push_cast
            rw [div_one, mul_div_assoc, div_self (by norm_num : (10 : ℚ) ≠ 0), mul_one]
        _ = q := Rat.num_div_den q
    · have hfpd : fp = ds2.drop (ds2.length - k) := by rw [hfp, if_neg hk0]
      have hfplen : fp.length = k := by
        rw [hfpd, List.length_drop]
        omega
      have hval : digitsVal ip * 10 ^ fp.length + digitsVal fp = m := by
        rw [show digitsVal ip * 10 ^ fp.length + digitsVal fp = digitsVal (ip ++ fp) from
            (digitsVal_append ip fp).symm,
          hip, hfpd, List.take_append_drop, hds2val]
      rw [hval, hfplen, Rat.mkRat_eq_div]
      have h10 : ((10 ^ k : Nat) : ℚ) ≠ 0 := by positivity
      have hdq : ((q.den : Nat) : ℚ) ≠ 0 := Nat.cast_ne_zero.mpr hden0
      have h2 : (m : Int) * (q.den : Int) = (q.num.natAbs : Int) * ((10 ^ k : Nat) : Int) := by
        exact_mod_cast hmden
      have hint : ((if q.num < 0 then (-1 : Int) else 1) * (m : Int)) * (q.den : Int)
          = q.num * ((10 ^ k : Nat) : Int) := by
        calc ((if q.num < 0 then (-1 : Int) else 1) * (m : Int)) * (q.den : Int)
            = (if q.num < 0 then (-1 : Int) else 1) * ((m : Int) * (q.den : Int)) := by ring
          _ = (if q.num < 0 then (-1 : Int) else 1)
              * ((q.num.natAbs : Int) * ((10 ^ k : Nat) : Int)) := by rw [h2]
          _ = ((if q.num < 0 then (-1 : Int) else 1) * (q.num.natAbs : Int))
              * ((10 ^ k : Nat) : Int) := by ring
          _ = q.num * ((10 ^ k : Nat) : Int) := by rw [sign_mul_natAbs q]
      calc (((if q.num < 0 then (-1 : Int) else 1) * (m : Int) : Int) : ℚ)
            / ((10 ^ k : Nat) : ℚ)
          = (q.num : ℚ) / (q.den : ℚ) := by
            rw [div_eq_div_iff h10 hdq]
            exact_mod_cast hint
        _ = q := Rat.num_div_den q
  by_cases hneg : q.num < 0
  · rw [hrepr, if_pos hneg, List.singleton_append, List.cons_append]
    have hts : takeSign (Char.ofNat 45 :: (ip ++ Char.ofNat 46 :: fp))
        = (-1, ip ++ Char.ofNat 46 :: fp) := by
      rw [takeSign, if_pos (charToNat_ofNat 45 (by omega))]
    rw [pyFloatParseC]
    simp only [hts]
    simp only [hspan1]
    simp only [charToNat_ofNat 46 (by omega), eq_self_iff_true, if_true]
    simp only [hspan2]
    simp only [hipE, Bool.false_and, Bool.false_eq_true, if_false]
    rw [← hbase, if_pos hneg]
  · rw [hrepr, if_neg hneg, List.nil_append]
    have hts : takeSign (ip ++ Char.ofNat 46 :: fp) = (1, ip ++ Char.ofNat 46 :: fp) := by
      rcases hipc : ip with _ | ⟨c, cs⟩
      · exact absurd hipc hipne
      · rw [List.cons_append]
        exact takeSign_digit_head c _
          (hipdig c (by rw [hipc]; exact List.mem_cons_self c cs))
    rw [pyFloatParseC]
    simp only [hts]
    simp only [hspan1]
    simp only [charToNat_ofNat 46 (by omega), eq_self_iff_true, if_true]
    simp only [hspan2]
    simp only [hipE, Bool.false_and, Bool.false_eq_true, if_false]
    rw [← hbase, if_neg hneg]


theorem relion_keys_tokens :
    relionColsList.all (fun p => !p.1.data.isEmpty
      && p.1.data.all (fun c => !isWsC c)
      && headUnderscore p.1.data) = true := by decide

theorem rc_valid_token (k : String) (h : rc_is_valid k = true) :
    k.data ≠ [] ∧ (∀ c ∈ k.data, isWsC c = false) ∧ headUnderscore k.data = true := by
  rw [rc_is_valid, List.any_eq_true] at h
  obtain ⟨p, hp, hpe⟩ := h
  simp only [decide_eq_true_eq] at hpe
  have hall := List.all_eq_true.mp relion_keys_tokens p hp
  simp only [Bool.and_eq_true, Bool.not_eq_true', List.all_eq_true] at hall
  obtain ⟨⟨h1, h2⟩, h3⟩ := hall
  subst hpe
  refine ⟨?_, ?_, h3⟩
  · intro hc
    rw [hc] at h1
    exact absurd h1 (by simp)
  · intro c hc
    simpa using h2 c hc

theorem headUnderscore_of_digit (c : Char) (cs : List Char) (h : isDigitC c = true) :
    headUnderscore (c :: cs) = false := by
  rw [isDigitC] at h
  simp only [Bool.and_eq_true, decide_eq_true_eq] at h
  rw [headUnderscore, List.headD_cons]
  simp only [decide_eq_false_iff_not]
  omega

theorem headUnderscore_append (t rest : List Char) (ht : t ≠ []) :
    headUnderscore (t ++ rest) = headUnderscore t := by
  rcases t with _ | ⟨c, cs⟩
  · exact absurd rfl ht
  · rw [List.cons_append, headUnderscore, headUnderscore, List.headD_cons, List.headD_cons]

theorem intRepr_token (n : Int) :
    intReprC n ≠ [] ∧ (∀ c ∈ intReprC n, isWsC c = false) ∧
      headUnderscore (intReprC n) = false := by
  have hdig := natDigits_all_digit n.natAbs
  have hne := natDigits_ne_nil n.natAbs
  rcases hds : natDigits n.natAbs with _ | ⟨c, cs⟩
  · exact absurd hds hne
  have hcd : isDigitC c = true := hdig c (by rw [hds]; exact List.mem_cons_self c cs)
  rw [intReprC]
  split
  · rw [hds]
    refine ⟨List.cons_ne_nil _ _, ?_, ?_⟩
    · intro x hx
      rcases List.mem_cons.mp hx with rfl | hx2
      · decide
      · exact digit_not_ws x (hdig x (by rw [hds]; exact hx2))
    · rw [headUnderscore, List.headD_cons]
      decide
  · rw [hds]
    refine ⟨List.cons_ne_nil _ _, ?_, headUnderscore_of_digit c cs hcd⟩
    intro x hx
    exact digit_not_ws x (hdig x (by rw [hds]; exact hx))

theorem floatRepr_token (q : ℚ) (k : Nat) (hk : decExp q.den = some k) :
    floatReprC q ≠ [] ∧ (∀ c ∈ floatReprC q, isWsC c = false) ∧
      headUnderscore (floatReprC q) = false := by
  set m := q.num.natAbs * 10 ^ k / q.den with hm
  set ds := natDigits m with hds
  set ds2 := List.replicate (k + 1 - ds.length) (Char.ofNat 48) ++ ds with hds2
  have hL : k + 1 ≤ ds2.length := by
    rw [hds2, List.length_append, List.length_replicate]
    omega
  have hds2dig : ∀ c ∈ ds2, isDigitC c = true := by
    intro c hc
    rw [hds2] at hc
    rcases List.mem_append.mp hc with h1 | h1
    · rw [List.eq_of_mem_replicate h1]
      decide
    · exact natDigits_all_digit m c h1
  set ip := ds2.take (ds2.length - k) with hip
  set fp := if k = 0 then [Char.ofNat 48] else ds2.drop (ds2.length - k) with hfp
  have hiplen : ip.length = ds2.length - k := by
    rw [hip, List.length_take]
    omega
  have hipne : ip ≠ [] := List.ne_nil_of_length_pos (by omega)
  have hipdig : ∀ c ∈ ip, isDigitC c = true := fun c hc =>
    hds2dig c (List.take_subset _ _ hc)
  have hfpdig : ∀ c ∈ fp, isDigitC c = true := by
    rw [hfp]
    split
    · intro c hc
      have hc2 : c = Char.ofNat 48 := by simpa using hc
      rw [hc2]
      decide
    · exact fun c hc => hds2dig c (List.drop_subset _ _ hc)
  have hrepr : floatReprC q
      = (if q.num < 0 then [Char.ofNat 45] else []) ++ ip ++ Char.ofNat 46 :: fp := by
    rw [floatReprC, hk]
  rw [hrepr]
  have hmem : ∀ c ∈ (if q.num < 0 then [Char.ofNat 45] else []) ++ ip
      ++ Char.ofNat 46 :: fp, isWsC c = false := by
    intro c hc
    rcases List.mem_append.mp hc with h1 | h1
    · rcases List.mem_append.mp h1 with h2 | h2
      · by_cases hqn : q.num < 0
        · have hc45 : c = Char.ofNat 45 := by
            rw [if_pos hqn] at h2
            simpa using h2
          rw [hc45]
          decide
        · rw [if_neg hqn] at h2
          simp at h2
      · exact digit_not_ws c (hipdig c h2)
    · rcases List.mem_cons.mp h1 with rfl | h2
      · decide
      · exact digit_not_ws c (hfpdig c h2)
  refine ⟨by simp, hmem, ?_⟩
  split
  · rw [List.singleton_append, List.cons_append, headUnderscore, List.headD_cons]
    decide
  · rw [List.nil_append, headUnderscore_append ip _ hipne]
    rcases hipc : ip with _ | ⟨c, cs⟩
    · exact absurd hipc hipne
    · exact headUnderscore_of_digit c cs
        (hipdig c (by rw [hipc]; exact List.mem_cons_self c cs))


/-- The serialisation-safety of one cell: text cells must be nonempty,
whitespace-free and not look like a header line; real cells must have a
decimal denominator (as every Python float does). -/
def serialCellB : Val → Bool
  | .vStr s => !s.data.isEmpty && s.data.all (fun c => !isWsC c) && !headUnderscore s.data
  | .vInt _ => true
  | .vFloat q => (decExp q.den).isSome

theorem serialCell_token (t : PyType) (v : Val) (ht : typedCellB t v = true)
    (hs : serialCellB v = true) :
    (pyStrOfVal v).data ≠ [] ∧ (∀ c ∈ (pyStrOfVal v).data, isWsC c = false) ∧
      headUnderscore (pyStrOfVal v).data = false := by
  match t, v with
  | .pyStr, .vStr s =>
    rw [serialCellB] at hs
    simp only [Bool.and_eq_true, Bool.not_eq_true', List.all_eq_true] at hs
    obtain ⟨⟨h1, h2⟩, h3⟩ := hs
    refine ⟨?_, ?_, h3⟩
    · intro hc
      rw [pyStrOfVal] at hc
      rw [hc] at h1
      exact absurd h1 (by simp)
    · intro c hc
      rw [pyStrOfVal] at hc
      simpa using h2 c hc
  | .pyInt, .vInt n => exact intRepr_token n
  | .pyFloat, .vFloat q =>
    rw [serialCellB, Option.isSome_iff_exists] at hs
    obtain ⟨k, hk⟩ := hs
    exact floatRepr_token q k hk
  | .pyStr, .vInt n => exact Bool.noConfusion ht
  | .pyStr, .vFloat qq => exact Bool.noConfusion ht
  | .pyInt, .vStr s => exact Bool.noConfusion ht
  | .pyInt, .vFloat qq => exact Bool.noConfusion ht
  | .pyFloat, .vStr s => exact Bool.noConfusion ht
  | .pyFloat, .vInt n => exact Bool.noConfusion ht

theorem castTok_print (t : PyType) (v : Val) (ht : typedCellB t v = true)
    (hs : serialCellB v = true) :
    castTok t ⟨(pyStrOfVal v).data⟩ = .ok v := by
  match t, v with
  | .pyStr, .vStr s => rfl
  | .pyInt, .vInt n =>
    rw [castTok]
    have hp : pyCast .pyInt (.vStr ⟨(pyStrOfVal (Val.vInt n)).data⟩) = .ok (.vInt n) := by
      rw [pyCast]
      rw [show (⟨(pyStrOfVal (Val.vInt n)).data⟩ : String).data = intReprC n from rfl]
      rw [pyIntParse_intRepr n]
    rw [hp]
  | .pyFloat, .vFloat q =>
    rw [serialCellB, Option.isSome_iff_exists] at hs
    obtain ⟨k, hk⟩ := hs
    rw [castTok]
    have hp : pyCast .pyFloat (.vStr ⟨(pyStrOfVal (Val.vFloat q)).data⟩)
        = .ok (.vFloat q) := by
      rw [pyCast]
      rw [show (⟨(pyStrOfVal (Val.vFloat q)).data⟩ : String).data = floatReprC q from rfl]
      rw [pyFloatParse_floatRepr q k hk]
    rw [hp]
  | .pyStr, .vInt n => exact Bool.noConfusion ht
  | .pyStr, .vFloat qq => exact Bool.noConfusion ht
  | .pyInt, .vStr s => exact Bool.noConfusion ht
  | .pyInt, .vFloat qq => exact Bool.noConfusion ht
  | .pyFloat, .vStr s => exact Bool.noConfusion ht
  | .pyFloat, .vInt n => exact Bool.noConfusion ht

theorem headerLine_split (k : String) (j : Nat) (hk : rc_is_valid k = true) :
    splitWsC (k.data ++ [Char.ofNat 32, Char.ofNat 35] ++ natDigits (j + 1)
        ++ [Char.ofNat 10])
      = [k.data, Char.ofNat 35 :: natDigits (j + 1)] := by
  obtain ⟨h1, h2, _⟩ := rc_valid_token k hk
  have heq : k.data ++ [Char.ofNat 32, Char.ofNat 35] ++ natDigits (j + 1)
      ++ [Char.ofNat 10]
      = intercalateC (Char.ofNat 32) [k.data, Char.ofNat 35 :: natDigits (j + 1)]
        ++ [Char.ofNat 10] := by
    show k.data ++ [Char.ofNat 32, Char.ofNat 35] ++ natDigits (j + 1) ++ [Char.ofNat 10]
      = (k.data ++ Char.ofNat 32 :: Char.ofNat 35 :: natDigits (j + 1)) ++ [Char.ofNat 10]
    simp
  rw [heq]
  apply splitWsC_intercalate (Char.ofNat 32) (by decide)
  intro t htm
  rcases List.mem_cons.mp htm with rfl | htm2
  · exact ⟨h1, h2⟩
  · have ht2 : t = Char.ofNat 35 :: natDigits (j + 1) := by simpa using htm2
    subst ht2
    refine ⟨List.cons_ne_nil _ _, ?_⟩
    intro c hc
    rcases List.mem_cons.mp hc with rfl | hc2
    · decide
    · exact digit_not_ws c (natDigits_all_digit (j + 1) c hc2)

theorem loadHeader2_spec (rem : List (Nat × String))
    (hval : ∀ p ∈ rem, rc_is_valid p.2 = true) :
    ∀ (acc : List String) (dts : List PyType) (dat : List (String × List Val)),
      (∀ p ∈ rem, p.2 ∉ acc) → (rem.map Prod.snd).Nodup →
      loadHeader2 (rem.map (fun p => p.2.data ++ [Char.ofNat 32, Char.ofNat 35]
          ++ natDigits (p.1 + 1) ++ [Char.ofNat 10])) (acc, dts, dat)
        = .ok (acc ++ rem.map Prod.snd, dts ++ (rem.map Prod.snd).map dtypeOf,
            dat ++ (rem.map Prod.snd).map (fun k => (k, []))) := by
  induction rem with
  | nil =>
    intro acc dts dat _ _
    simp [loadHeader2]
  | cons p rest ih =>
    intro acc dts dat hnew hnd
    have hkv : rc_is_valid p.2 = true := hval p (List.mem_cons_self p rest)
    rw [List.map_cons, loadHeader2, headerLine_split p.2 p.1 hkv]
    rw [show (⟨List.headD [p.2.data, Char.ofNat 35 :: natDigits (p.1 + 1)] []⟩ : String)
        = p.2 from rfl]
    have hcont : acc.contains p.2 = false := by
      have := hnew p (List.mem_cons_self p rest)
      simpa using this
    rw [hkv, hcont]
    rw [show (true && !false) = true from rfl, if_pos rfl]
    simp only [List.map_cons] at hnd ⊢
    have hnd2 := List.nodup_cons.mp hnd
    rw [ih (fun x hx => hval x (List.mem_cons_of_mem p hx)) (acc ++ [p.2])
      (dts ++ [(rc_get_dtype p.2).getD .pyFloat]) (dat ++ [(p.2, [])])
      (by
        intro x hx hc
        rcases List.mem_append.mp hc with h1 | h1
        · exact hnew x (List.mem_cons_of_mem p hx) h1
        · have : x.2 = p.2 := by simpa using h1
          exact hnd2.1 (this ▸ List.mem_map_of_mem Prod.snd hx))
      hnd2.2]
    simp [dtypeOf]


theorem loadRowCells_maps (tok : String → List Char) (ty : String → PyType)
    (v : String → Val) : ∀ (ks : List String),
    (∀ k ∈ ks, castTok (ty k) ⟨tok k⟩ = .ok (v k)) →
    ∀ dat, loadRowCells ((ks.map tok).zip ((ks.map ty).zip ks)) dat
      = (ks.foldl (fun d k => dictAppend d k (v k)) dat, none) := by
  intro ks
  induction ks with
  | nil =>
    intro _ dat
    rfl
  | cons k rest ih =>
    intro h dat
    show (match castTok (ty k) ⟨tok k⟩ with
      | .error e => (dat, some e)
      | .ok v2 => loadRowCells ((List.map tok rest).zip ((List.map ty rest).zip rest))
          (dictAppend dat k v2))
      = (List.foldl (fun d k2 => dictAppend d k2 (v k2)) (dictAppend dat k (v k)) rest, none)
    rw [h k (List.mem_cons_self k rest)]
    exact ih (fun x hx => h x (List.mem_cons_of_mem k hx)) (dictAppend dat k (v k))

theorem dictGet_map_of_mem (f : String → List Val) (k : String) :
    ∀ (cols : List String), k ∈ cols →
      dictGet (cols.map (fun k2 => (k2, f k2))) k = some (f k) := by
  intro cols
  induction cols with
  | nil =>
    intro h
    simp at h
  | cons c cs ih =>
    intro h
    by_cases hc : c = k
    · subst hc
      rw [List.map_cons, dictGet_cons, if_pos rfl]
    · rcases List.mem_cons.mp h with h1 | h1
      · exact absurd h1.symm hc
      · rw [List.map_cons, dictGet_cons, if_neg hc]
        exact ih h1

theorem filter_eq_singleton (k : String) : ∀ (cols : List String), cols.Nodup →
    k ∈ cols → cols.filter (fun x => x = k) = [k] := by
  intro cols
  induction cols with
  | nil =>
    intro _ h
    simp at h
  | cons c cs ih =>
    intro hnd h
    have hnd2 := List.nodup_cons.mp hnd
    by_cases hc : c = k
    · subst hc
      rw [List.filter_cons_of_pos (by simp)]
      have hnm : c ∉ cs := hnd2.1
      have hz : cs.filter (fun x => x = c) = [] := by
        rw [List.filter_eq_nil_iff]
        intro x hx
        simp only [decide_eq_true_eq]
        intro hc2
        exact hnm (hc2 ▸ hx)
      rw [hz]
    · rw [List.filter_cons_of_neg (by simpa using hc)]
      rcases List.mem_cons.mp h with h1 | h1
      · exact absurd h1.symm hc
      · exact ih hnd2.2 h1

theorem foldl_dictAppend_maps (cols : List String) (hnd : cols.Nodup)
    (f : String → List Val) (g : String → Val) :
    cols.foldl (fun d k => dictAppend d k (g k)) (cols.map (fun k => (k, f k)))
      = cols.map (fun k => (k, f k ++ [g k])) := by
  have hkeys : ∀ (drv : List String) (d : List (String × List Val)),
      (drv.foldl (fun d2 k => dictAppend d2 k (g k)) d).map Prod.fst = d.map Prod.fst := by
    intro drv
    induction drv with
    | nil => intro d; rfl
    | cons x xs ih =>
      intro d
      rw [List.foldl_cons, ih (dictAppend d x (g x)), dictAppend_map_fst]
  apply alist_ext
  · rw [hkeys]
    rw [List.map_map, List.map_map]
    rfl
  · rw [hkeys]
    rw [List.map_map]
    rw [show (Prod.fst ∘ fun k => (k, f k)) = id from rfl, List.map_id]
    exact hnd
  · intro k
    have hfold : cols.foldl (fun d2 k2 => dictAppend d2 k2 (g k2))
        (cols.map (fun k2 => (k2, f k2)))
        = (cols.map (fun k2 => (k2, g k2))).foldl
            (fun d2 kv => dictAppend d2 kv.1 kv.2) (cols.map (fun k2 => (k2, f k2))) := by
      rw [List.foldl_map]
    rw [hfold, foldl_dictAppend_get]
    by_cases hm : k ∈ cols
    · rw [dictGet_map_of_mem f k cols hm, dictGet_map_of_mem (fun k2 => f k2 ++ [g k2]) k
        cols hm]
      have hfil : (cols.map (fun k2 => (k2, g k2))).filter (fun kv => kv.1 = k)
          = [(k, g k)] := by
        rw [List.filter_map]
        have hfil2 : (cols.filter ((fun kv => decide (kv.1 = k)) ∘ (fun k2 => (k2, g k2))))
            = [k] := filter_eq_singleton k cols hnd hm
        rw [hfil2]
        rfl
      rw [hfil]
      rfl
    · have h1 : dictGet (cols.map (fun k2 => (k2, f k2))) k = none := by
        apply dictGet_of_notMem
        rw [List.map_map]
        simpa using hm
      have h2 : dictGet (cols.map (fun k2 => (k2, f k2 ++ [g k2]))) k = none := by
        apply dictGet_of_notMem
        rw [List.map_map]
        simpa using hm
      rw [h1, h2]
      rfl

theorem rows_fold_shape (cols : List String) (hnd : cols.Nodup)
    (cell : Nat → String → Val) (n : Nat) :
    (List.range n).foldl (fun d i => cols.foldl (fun d2 k => dictAppend d2 k (cell i k)) d)
        (cols.map (fun k => (k, ([] : List Val))))
      = cols.map (fun k => (k, (List.range n).map (fun i => cell i k))) := by
  induction n with
  | zero => simp
  | succ n2 ih =>
    rw [List.range_succ, List.foldl_append, ih, List.foldl_cons, List.foldl_nil]
    rw [foldl_dictAppend_maps cols hnd _ (cell n2)]
    refine congrArg (fun f => cols.map f) ?_
    funext k
    rw [List.map_append]
    rfl


theorem splitWsC_newline : splitWsC [Char.ofNat 10] = [] := by decide

theorem loadRowsF_spec (cols : List String) (toks : Nat → String → List Char)
    (v : Nat → String → Val) (hcols : cols ≠ []) :
    ∀ (is : List Nat),
      (∀ i ∈ is, ∀ k ∈ cols, toks i k ≠ [] ∧ ∀ c ∈ toks i k, isWsC c = false) →
      (∀ i ∈ is, ∀ k ∈ cols, castTok (dtypeOf k) ⟨toks i k⟩ = .ok (v i k)) →
      ∀ dat r, loadRowsF cols (cols.map dtypeOf)
          (is.map (fun i => intercalateC (Char.ofNat 9) (cols.map (toks i))
              ++ [Char.ofNat 10]) ++ [[Char.ofNat 10]]) dat r
        = (is.foldl (fun d i => cols.foldl (fun d2 k => dictAppend d2 k (v i k)) d) dat,
            r + is.length, none) := by
  intro is
  induction is with
  | nil =>
    intro _ _ dat r
    rw [List.map_nil, List.nil_append, loadRowsF]
    simp only [splitWsC_newline]
    rw [if_pos (by
      simp only [List.length_nil]
      intro hc
      exact hcols (List.length_eq_zero.mp hc))]
    simp
  | cons i rest ih =>
    intro htok hcast dat r
    rw [List.map_cons, List.cons_append, loadRowsF]
    have hsplit : splitWsC (intercalateC (Char.ofNat 9) (cols.map (toks i))
        ++ [Char.ofNat 10]) = cols.map (toks i) := by
      apply splitWsC_intercalate (Char.ofNat 9) (by decide)
      intro t ht
      obtain ⟨k, hk, rfl⟩ := List.mem_map.mp ht
      exact htok i (List.mem_cons_self i rest) k hk
    simp only [hsplit]
    rw [if_neg (by
      rw [List.length_map]
      intro hc
      exact hc rfl)]
    have hcells := loadRowCells_maps (toks i) dtypeOf (v i) cols
      (fun k hk => hcast i (List.mem_cons_self i rest) k hk) dat
    simp only [hcells]
    rw [ih (fun x hx => htok x (List.mem_cons_of_mem i hx))
      (fun x hx => hcast x (List.mem_cons_of_mem i hx)) _ (r + 1)]
    rw [List.foldl_cons, List.length_cons]
    refine congrArg (fun t => (List.foldl (fun d i2 => List.foldl
      (fun d2 k => dictAppend d2 k (v i2 k)) d cols)
      (List.foldl (fun d2 k => dictAppend d2 k (v i k)) dat cols) rest, t, none)) ?_
    omega

theorem wf_data_shape (s : Star) (hkeys : s.data.map Prod.fst = s.cols)
    (hnd : s.cols.Nodup) (hlens : ∀ p ∈ s.data, p.2.length = s.rows) :
    s.data = s.cols.map (fun k => (k, (List.range s.rows).map (fun i => cellAt s k i))) := by
  apply alist_ext
  · rw [hkeys, List.map_map]
    rw [show (Prod.fst ∘ fun k => (k, (List.range s.rows).map (fun i => cellAt s k i)))
        = id from rfl, List.map_id]
  · rw [hkeys]
    exact hnd
  · intro k
    by_cases hm : k ∈ s.cols
    · have hsome := dictGet_isSome_of_mem s.data k (by rw [hkeys]; exact hm)
      rcases hg : dictGet s.data k with _ | col
      · rw [hg] at hsome
        exact absurd hsome (by simp)
      · have hlen : col.length = s.rows := dictGet_length_of_rows s hlens hg
        rw [dictGet_map_of_mem _ k s.cols hm]
        refine congrArg some ?_
        have hcell : ∀ i, cellAt s k i = col.getD i (.vStr "") := by
          intro i
          rw [cellAt, hg]
          rfl
        calc col = (List.range col.length).map (fun j => col.getD j (.vStr "")) :=
              (range_map_getD col (.vStr "")).symm
          _ = (List.range s.rows).map (fun i => cellAt s k i) := by
              rw [hlen]
              refine congrArg (fun f => (List.range s.rows).map f) ?_
              funext i
              rw [hcell i]
    · rw [dictGet_of_notMem s.data k (by rw [hkeys]; exact hm),
        dictGet_of_notMem _ k (by
          rw [List.map_map]
          rw [show (Prod.fst ∘ fun k2 => (k2, (List.range s.rows).map
              (fun i => cellAt s k2 i))) = id from rfl, List.map_id]
          exact hm)]


theorem mem_of_headq {α : Type} (l : List α) (b : α) (h : l.head? = some b) : b ∈ l := by
  rcases l with _ | ⟨x, t⟩
  · exact Option.noConfusion h
  · rw [List.head?_cons] at h
    rw [← Option.some_injective _ h]
    exact List.mem_cons_self x t

theorem headq_append_left {α : Type} (A B : List α) (hA : A ≠ []) (b : α)
    (h : (A ++ B).head? = some b) : b ∈ A := by
  rcases A with _ | ⟨x, t⟩
  · exact absurd rfl hA
  · rw [List.cons_append, List.head?_cons] at h
    rw [← Option.some_injective _ h]
    exact List.mem_cons_self x t

theorem linesKeepC_append (A B : List Char)
    (hA : A = [] ∨ A.getLast? = some (Char.ofNat 10)) :
    linesKeepC (A ++ B) = linesKeepC A ++ linesKeepC B := by
  rcases hA with hA | hA
  · rw [hA]
    rfl
  · exact linesAux_append A B [] hA

theorem mem_intercalateC (sep : Char) (c : Char) : ∀ (ts : List (List Char)),
    c ∈ intercalateC sep ts → c = sep ∨ ∃ t ∈ ts, c ∈ t := by
  intro ts
  induction ts with
  | nil =>
    intro h
    simp [intercalateC] at h
  | cons t rest ih =>
    intro h
    cases rest with
    | nil =>
      right
      exact ⟨t, List.mem_cons_self t [], by simpa [intercalateC] using h⟩
    | cons t2 rest2 =>
      rw [show intercalateC sep (t :: t2 :: rest2)
          = t ++ sep :: intercalateC sep (t2 :: rest2) from rfl] at h
      rcases List.mem_append.mp h with h1 | h1
      · exact Or.inr ⟨t, List.mem_cons_self t _, h1⟩
      · rcases List.mem_cons.mp h1 with rfl | h2
        · exact Or.inl rfl
        · rcases ih h2 with h3 | ⟨t3, ht3, hc3⟩
          · exact Or.inl h3
          · exact Or.inr ⟨t3, List.mem_cons_of_mem t ht3, hc3⟩

theorem intercalateC_cons_head (sep : Char) (t : List Char) (ts : List (List Char)) :
    ∃ X, intercalateC sep (t :: ts) = t ++ X := by
  cases ts with
  | nil => exact ⟨[], (List.append_nil t).symm⟩
  | cons t2 rest => exact ⟨sep :: intercalateC sep (t2 :: rest), rfl⟩

theorem not_ws_ne_newline (c : Char) (h : isWsC c = false) : ¬c.toNat = 10 := by
  rw [isWsC] at h
  simp only [Bool.or_eq_false_iff, decide_eq_false_iff_not] at h
  omega

theorem colLine_good (k : String) (j : Nat) (hk : rc_is_valid k = true) :
    (k.data ++ [Char.ofNat 32, Char.ofNat 35] ++ natDigits (j + 1) ++ [Char.ofNat 10]) ≠ []
      ∧ (∀ c ∈ (k.data ++ [Char.ofNat 32, Char.ofNat 35] ++ natDigits (j + 1)
          ++ [Char.ofNat 10]).dropLast, ¬c.toNat = 10)
      ∧ (k.data ++ [Char.ofNat 32, Char.ofNat 35] ++ natDigits (j + 1)
          ++ [Char.ofNat 10]).getLast? = some (Char.ofNat 10)
      ∧ headUnderscore (k.data ++ [Char.ofNat 32, Char.ofNat 35] ++ natDigits (j + 1)
          ++ [Char.ofNat 10]) = true := by
  obtain ⟨h1, h2, h3⟩ := rc_valid_token k hk
  refine ⟨by simp, ?_, List.getLast?_concat _, ?_⟩
  · rw [List.dropLast_concat]
    intro c hc
    rcases List.mem_append.mp hc with h4 | h4
    · rcases List.mem_append.mp h4 with h5 | h5
      · exact not_ws_ne_newline c (h2 c h5)
      · rcases List.mem_cons.mp h5 with rfl | h6
        · decide
        · rcases List.mem_singleton.mp h6 with rfl
          decide
    · exact digit_ne_newline c (natDigits_all_digit (j + 1) c h4)
  · rw [List.append_assoc, List.append_assoc, headUnderscore_append k.data _ h1]
    exact h3

/-- Serialisability of a table: fully well-formed and typed, at least one
column, a newline-terminated preamble whose lines are not header lines, and
every cell safe to print and re-read. -/
def wfSerial (s : Star) : Prop :=
  wfTyped s ∧ s.cols ≠ [] ∧
    ((s.header_1.map String.data).flatten = [] ∨
      ((s.header_1.map String.data).flatten).getLast? = some (Char.ofNat 10)) ∧
    (∀ l ∈ linesKeepC (s.header_1.map String.data).flatten, headUnderscore l = false) ∧
    ∀ p ∈ s.data, ∀ v ∈ p.2, serialCellB v = true

instance wfSerial_decidable (s : Star) : Decidable (wfSerial s) := by
  unfold wfSerial
  infer_instance

/-- C3 (amended): for every serialisable table (well-formed and typed, at
least one column, newline-terminated non-header preamble, and cells that are
printable-and-reparsable: text cells nonempty, whitespace-free and not
underscore-led, real cells with decimal denominators), loading the serialised
text reproduces the columns in order, the dtypes, the row count and every
cell exactly, with no error. -/
theorem load_to_string_roundtrip (s : Star) (h : wfSerial s) :
    Star.load s.to_string
      = (Star.mk ((linesKeepC (s.header_1.map String.data).flatten).map
            (fun c => (⟨c⟩ : String))) s.data s.dtypes s.rows s.cols, none) := by
  obtain ⟨⟨⟨hkeys, hnd, hdtl, hlens⟩, hvalid, hdts, htyped⟩, hcne, hterm, hpre, hser⟩ := h
  have hpos : s.get_ncols > 0 := by
    rw [Star.get_ncols]
    rcases hc : s.cols with _ | _
    · exact absurd hc hcne
    · simp
  have hcells : ∀ i, i < s.rows → ∀ k ∈ s.cols,
      typedCellB (dtypeOf k) (cellAt s k i) = true ∧ serialCellB (cellAt s k i) = true := by
    intro i hi k hk
    have hmem : k ∈ s.data.map Prod.fst := by
      rw [hkeys]
      exact hk
    have hsome := dictGet_isSome_of_mem s.data k hmem
    rcases hg : dictGet s.data k with _ | col
    · rw [hg] at hsome
      exact absurd hsome (by simp)
    have hlen : col.length = s.rows := dictGet_length_of_rows s hlens hg
    have hcm : cellAt s k i ∈ col := cellAt_mem s hg (by omega)
    rcases hf : s.data.find? (fun p => p.1 = k) with _ | p
    · rw [dictGet, hf] at hg
      exact Option.noConfusion hg
    have hps := List.find?_some hf
    have hpm := List.mem_of_find?_eq_some hf
    have hp1 : p.1 = k := by simpa using hps
    have hp2 : p.2 = col := by
      rw [dictGet, hf] at hg
      simpa using hg
    have ht := htyped p hpm (cellAt s k i) (by rw [hp2]; exact hcm)
    have hs2 := hser p hpm (cellAt s k i) (by rw [hp2]; exact hcm)
    rw [hp1] at ht
    exact ⟨ht, hs2⟩
  have htokens : ∀ i, i < s.rows → ∀ k ∈ s.cols,
      (pyStrOfVal (cellAt s k i)).data ≠ []
        ∧ (∀ c ∈ (pyStrOfVal (cellAt s k i)).data, isWsC c = false)
        ∧ headUnderscore (pyStrOfVal (cellAt s k i)).data = false := by
    intro i hi k hk
    obtain ⟨ht, hs2⟩ := hcells i hi k hk
    exact serialCell_token (dtypeOf k) (cellAt s k i) ht hs2
  have hcasts : ∀ i ∈ List.range s.rows, ∀ k ∈ s.cols,
      castTok (dtypeOf k) ⟨(pyStrOfVal (cellAt s k i)).data⟩ = .ok (cellAt s k i) := by
    intro i hi k hk
    obtain ⟨ht, hs2⟩ := hcells i (List.mem_range.mp hi) k hk
    exact castTok_print (dtypeOf k) (cellAt s k i) ht hs2
  have hrowgood : ∀ i, i < s.rows → rowChars s i ≠ []
      ∧ (∀ c ∈ (rowChars s i).dropLast, ¬c.toNat = 10)
      ∧ (rowChars s i).getLast? = some (Char.ofNat 10)
      ∧ headUnderscore (rowChars s i) = false := by
    intro i hi
    refine ⟨by simp [rowChars], ?_, ?_, ?_⟩
    · rw [rowChars, List.dropLast_concat]
      intro c hc
      rcases mem_intercalateC (Char.ofNat 9) c _ hc with rfl | ⟨t, htm, hct⟩
      · decide
      · obtain ⟨k, hkm, rfl⟩ := List.mem_map.mp htm
        exact not_ws_ne_newline c ((htokens i hi k hkm).2.1 c hct)
    · rw [rowChars]
      exact List.getLast?_concat _
    · rw [rowChars]
      rcases hc : s.cols with _ | ⟨c0, crest⟩
      · exact absurd hc hcne
      have hc0 : c0 ∈ s.cols := by
        rw [hc]
        exact List.mem_cons_self c0 crest
      obtain ⟨hne0, _, hhu0⟩ := htokens i hi c0 hc0
      rw [List.map_cons]
      obtain ⟨X, hX⟩ := intercalateC_cons_head (Char.ofNat 9)
        ((pyStrOfVal (cellAt s c0 i)).data) (crest.map (fun k => (pyStrOfVal (cellAt s k i)).data))
      rw [hX, List.append_assoc, headUnderscore_append _ _ hne0]
      exact hhu0
  have hlines : linesKeepC (toStringChars s)
      = linesKeepC (s.header_1.map String.data).flatten
        ++ (s.cols.enum.map (fun p => p.2.data ++ [Char.ofNat 32, Char.ofNat 35]
              ++ natDigits (p.1 + 1) ++ [Char.ofNat 10])
          ++ ((List.range s.rows).map (rowChars s) ++ [[Char.ofNat 10]])) := by
    have hts : toStringChars s
        = (s.header_1.map String.data).flatten
          ++ (s.cols.enum.map (fun p => p.2.data ++ [Char.ofNat 32, Char.ofNat 35]
                ++ natDigits (p.1 + 1) ++ [Char.ofNat 10])
            ++ ((List.range s.rows).map (rowChars s) ++ [[Char.ofNat 10]])).flatten := by
      rw [toStringChars, if_pos hpos, headerLinesChars]
      simp only [List.flatten_append, List.flatten_cons, List.flatten_nil, List.append_nil,
        List.append_assoc]
    rw [hts, linesKeepC_append _ _ hterm]
    refine congrArg (fun t => linesKeepC (s.header_1.map String.data).flatten ++ t) ?_
    apply linesKeepC_flatten_of
    intro l hl
    rcases List.mem_append.mp hl with h1 | h1
    · obtain ⟨p, hpm, rfl⟩ := List.mem_map.mp h1
      have hpv : rc_is_valid p.2 = true := by
        apply hvalid
        have := List.mem_map_of_mem Prod.snd hpm
        rwa [List.enum_map_snd] at this
      obtain ⟨g1, g2, g3, _⟩ := colLine_good p.2 p.1 hpv
      exact ⟨g1, g2, g3⟩
    · rcases List.mem_append.mp h1 with h2 | h2
      · obtain ⟨i, him, rfl⟩ := List.mem_map.mp h2
        obtain ⟨g1, g2, g3, _⟩ := hrowgood i (List.mem_range.mp him)
        exact ⟨g1, g2, g3⟩
      · have hl2 : l = [Char.ofNat 10] := by simpa using h2
        subst hl2
        refine ⟨by simp, by simp, rfl⟩
  have hcolne : s.cols.enum.map (fun p => p.2.data ++ [Char.ofNat 32, Char.ofNat 35]
      ++ natDigits (p.1 + 1) ++ [Char.ofNat 10]) ≠ [] := by
    rcases hc : s.cols with _ | ⟨c0, crest⟩
    · exact absurd hc hcne
    · simp
  have hcolhead : ∀ b ∈ s.cols.enum.map (fun p => p.2.data
      ++ [Char.ofNat 32, Char.ofNat 35] ++ natDigits (p.1 + 1) ++ [Char.ofNat 10]),
      headUnderscore b = true := by
    intro b hb
    obtain ⟨p, hpm, rfl⟩ := List.mem_map.mp hb
    have hpv : rc_is_valid p.2 = true := by
      apply hvalid
      have := List.mem_map_of_mem Prod.snd hpm
      rwa [List.enum_map_snd] at this
    exact (colLine_good p.2 p.1 hpv).2.2.2
  have hspanA : (linesKeepC (s.header_1.map String.data).flatten
      ++ (s.cols.enum.map (fun p => p.2.data ++ [Char.ofNat 32, Char.ofNat 35]
            ++ natDigits (p.1 + 1) ++ [Char.ofNat 10])
        ++ ((List.range s.rows).map (rowChars s) ++ [[Char.ofNat 10]]))).span
          (fun l => !headUnderscore l)
      = (linesKeepC (s.header_1.map String.data).flatten,
          s.cols.enum.map (fun p => p.2.data ++ [Char.ofNat 32, Char.ofNat 35]
              ++ natDigits (p.1 + 1) ++ [Char.ofNat 10])
            ++ ((List.range s.rows).map (rowChars s) ++ [[Char.ofNat 10]])) := by
    apply span_eq_of
    · intro a ha
      rw [hpre a ha]
      rfl
    · intro b hb
      have hbm := headq_append_left _ _ hcolne b hb
      rw [hcolhead b hbm]
      rfl
  have hspanB : (s.cols.enum.map (fun p => p.2.data ++ [Char.ofNat 32, Char.ofNat 35]
          ++ natDigits (p.1 + 1) ++ [Char.ofNat 10])
        ++ ((List.range s.rows).map (rowChars s) ++ [[Char.ofNat 10]])).span headUnderscore
      = (s.cols.enum.map (fun p => p.2.data ++ [Char.ofNat 32, Char.ofNat 35]
            ++ natDigits (p.1 + 1) ++ [Char.ofNat 10]),
          (List.range s.rows).map (rowChars s) ++ [[Char.ofNat 10]]) := by
    apply span_eq_of
    · exact hcolhead
    · intro b hb
      have hbm := mem_of_headq _ b hb
      rcases List.mem_append.mp hbm with h1 | h1
      · obtain ⟨i, him, rfl⟩ := List.mem_map.mp h1
        exact (hrowgood i (List.mem_range.mp him)).2.2.2
      · have hb2 : b = [Char.ofNat 10] := by simpa using h1
        subst hb2
        decide
  have hldh : loadHeader2 (s.cols.enum.map (fun p => p.2.data
      ++ [Char.ofNat 32, Char.ofNat 35] ++ natDigits (p.1 + 1) ++ [Char.ofNat 10]))
      ([], [], [])
      = .ok (s.cols, s.cols.map dtypeOf, s.cols.map (fun k => (k, []))) := by
    have := loadHeader2_spec s.cols.enum
      (by
        intro p hpm
        apply hvalid
        have := List.mem_map_of_mem Prod.snd hpm
        rwa [List.enum_map_snd] at this)
      [] [] [] (by intro p _; simp) (by rw [List.enum_map_snd]; exact hnd)
    rw [List.enum_map_snd] at this
    simpa using this
  have hlrf : loadRowsF s.cols (s.cols.map dtypeOf)
      ((List.range s.rows).map (rowChars s) ++ [[Char.ofNat 10]])
      (s.cols.map (fun k => (k, []))) 0
      = (s.data, s.rows, none) := by
    have hspec := loadRowsF_spec s.cols
      (fun i k => (pyStrOfVal (cellAt s k i)).data) (fun i k => cellAt s k i) hcne
      (List.range s.rows)
      (by
        intro i hi k hk
        obtain ⟨g1, g2, _⟩ := htokens i (List.mem_range.mp hi) k hk
        exact ⟨g1, g2⟩)
      hcasts (s.cols.map (fun k => (k, []))) 0
    rw [show (List.range s.rows).map (fun i => intercalateC (Char.ofNat 9)
        (s.cols.map (fun k => (pyStrOfVal (cellAt s k i)).data)) ++ [Char.ofNat 10])
        = (List.range s.rows).map (rowChars s) from rfl] at hspec
    rw [hspec]
    rw [show (List.range s.rows).foldl (fun d i => s.cols.foldl
        (fun d2 k => dictAppend d2 k (cellAt s k i)) d) (s.cols.map (fun k => (k, [])))
        = s.cols.map (fun k => (k, (List.range s.rows).map (fun i => cellAt s k i)))
      from rows_fold_shape s.cols hnd (fun i k => cellAt s k i) s.rows]
    rw [← wf_data_shape s hkeys hnd hlens]
    rw [List.length_range, Nat.zero_add]
  show Star.load ⟨toStringChars s⟩ = _
  rw [Star.load]
  rw [show (⟨toStringChars s⟩ : String).data = toStringChars s from rfl]
  rw [hlines]
  simp only [hspanA, hspanB, hldh, hlrf]
  rw [hdts]


/-- C3 counterexample table: one row whose single text cell contains a
space, built by two successful operations. -/
def c3Table : Star :=
  ((Star.init.add_row []).1.add_column "_rlnImageName" (.aList [.vStr "a b"]) false).1

/-- C3 counterexample: both operations building the table succeed, yet
serialising and re-loading silently drops the row, because the
whitespace-splitting tokenizer cuts the text cell in two and the row loop
stops at the token-count mismatch. -/
theorem load_to_string_drops_row :
    (Star.init.add_row []).2 = none ∧
    ((Star.init.add_row []).1.add_column "_rlnImageName" (.aList [.vStr "a b"]) false).2
      = none ∧
    c3Table.rows = 1 ∧
    (Star.load c3Table.to_string).2 = none ∧
    (Star.load c3Table.to_string).1.rows = 0 := by decide

/-- A three-column, two-row table for the C3 witness. -/
def c3wTable : Star :=
  (((((Star.init.add_column "_rlnImageName" (.aStr "") false).1.add_column
      "_rlnGroupNumber" (.aInt 1) false).1.add_column
      "_rlnCoordinateX" (.aFloat 0) false).1.add_row
      [("_rlnImageName", .vStr "img1"), ("_rlnGroupNumber", .vInt 7),
        ("_rlnCoordinateX", .vFloat (mkRat 3 2))]).1.add_row
      [("_rlnImageName", .vStr "img2"), ("_rlnGroupNumber", .vInt (-8)),
        ("_rlnCoordinateX", .vFloat (mkRat (-9) 4))]).1

theorem load_to_string_roundtrip_w :
    wfSerial c3wTable ∧
    Star.load c3wTable.to_string
      = (Star.mk ((linesKeepC (c3wTable.header_1.map String.data).flatten).map
          (fun c => (⟨c⟩ : String))) c3wTable.data c3wTable.dtypes c3wTable.rows
          c3wTable.cols, none) ∧
    c3wTable.rows = 2 :=
  ⟨by decide, load_to_string_roundtrip c3wTable (by decide), by decide⟩

end PySeg
